import Mathlib

/-!
# A shallow embedding of `shell.c` (the 1730sh interactive shell)

C strings are modelled as the list of their characters before the terminating
NUL (`CStr`); characters are byte values held in `Nat`.  A `char **` argument
vector is the list of its initialised slots, `none` standing for the `NULL`
sentinel.  A function returns `none` where the run has no defined behaviour: a
read or write outside an allocated object, a read through a null pointer, the
overflow of an `int` in `my_read` or in `str_replace`.  The answers of the
operating system (does an `open` succeed, does `fork` succeed, how does the
child end, does `chdir` succeed) are inputs of the model, so every theorem
quantifies over all of them.

What the model takes for granted: `malloc` and `realloc` succeed for requests
up to `PTRDIFF_MAX` (the code leaves the process otherwise); the descriptor
table has room for the descriptors the shell opens; a child that was created
ends; plain `char` is signed and `EOF` is -1; `int` has 32 bits and `size_t`
64; the counters `position` and `bufsize` of `sh_read_line` do not overflow,
which holds for lines shorter than 2^31 bytes; `getcwd` fails only for lack
of room and then leaves the array as it was.
-/

namespace Shell

/-! ## Strings and constants -/

/-- The characters of a C string, terminator excluded. -/
abbrev CStr := List Nat

/-- The bytes of a string literal. -/
def cstr (s : String) : CStr := s.toList.map Char.toNat

/-- The macro `SH_RL_BUFSIZE`. -/
def SH_RL_BUFSIZE : Nat := 1024

/-- The macro `SH_TOK_BUFSIZE`. -/
def SH_TOK_BUFSIZE : Nat := 64

/-- The macro `SH_TOK_DELIM`, the characters of `" \t\r\n\a"`. -/
def SH_TOK_DELIM : CStr := [32, 9, 13, 10, 7]

/-- The value of `EOF` in `<stdio.h>`. -/
def EOF : Int := -1

/-- The view of a character buffer as a C string: everything before the first NUL. -/
def c_string (buf : List Nat) : CStr := buf.takeWhile (fun c => decide (c ≠ 0))

/-- The store `buf[idx] = v` into an object with room for `cap` elements of which
`buf` lists the ones written so far; `none` when `idx` is outside the object. -/
def store {α : Type} (buf : List α) (cap idx : Nat) (v : α) : Option (List α) :=
  if idx < cap then
    if idx < buf.length then some (buf.set idx v)
    else if idx = buf.length then some (buf ++ [v])
    else none
  else none

/-! ## Tokenizer: `strtok` and `sh_split_line` -/

/-- Membership of a character in a delimiter string. -/
def is_delim (delim : CStr) (c : Nat) : Bool := decide (c ∈ delim)

/-- The library function `strtok(s, delim)` with its hidden save pointer made
explicit: `olds` is the string the save pointer addresses.  The result is the
token returned (`none` for `NULL`) and the new save pointer.  The call skips
leading delimiters, returns `NULL` at the end of the string, and otherwise cuts
the token at the next delimiter and resumes after it. -/
def strtok (s : Option CStr) (delim : CStr) (olds : CStr) : Option CStr × CStr :=
  let start := match s with
    | some l => l
    | none => olds
  match start.dropWhile (is_delim delim) with
  | [] => (none, [])
  | c :: rest =>
    (some ((c :: rest).takeWhile (fun x => !is_delim delim x)),
      ((c :: rest).dropWhile (fun x => !is_delim delim x)).drop 1)

/-- The `while (token != NULL)` loop of `sh_split_line`.  `tokens` lists the
slots of the token array written so far, `bufsize` is its capacity. -/
def sh_split_loop : Nat → Nat → Nat → List (Option CStr) → Option CStr → CStr →
    Option (List (Option CStr))
  | 0, _, _, _, _, _ => none
  | fuel + 1, bufsize, position, tokens, token, olds =>
    match token with
    | none => store tokens bufsize position none
    | some t =>
      match store tokens bufsize position (some t) with
      | none => none
      | some tokens1 =>
        let position1 := position + 1
        let bufsize1 := if position1 ≥ bufsize then bufsize + SH_TOK_BUFSIZE else bufsize
        let r := strtok none SH_TOK_DELIM olds
        sh_split_loop fuel bufsize1 position1 tokens1 r.1 r.2

/-- The function `sh_split_line`: the argument vector of a line, sentinel included. -/
def sh_split_line (line : CStr) : Option (List (Option CStr)) :=
  let r := strtok (some line) SH_TOK_DELIM []
  sh_split_loop (line.length + 2) SH_TOK_BUFSIZE 0 [] r.1 r.2

/-- The maximal runs of non-delimiter characters of a line, left to right, in the
words of the specification: the line is cut at every delimiter and the empty
pieces are dropped. -/
def maximal_runs (line : CStr) : List CStr :=
  (line.splitOnP (is_delim SH_TOK_DELIM)).filter (fun t => decide (t ≠ []))

/-! ## The process: descriptors, working directory, trace -/

/-- The flag sets `sh_execute` passes to `open`: `O_WRONLY | O_CREAT | O_TRUNC`,
`O_WRONLY | O_CREAT | O_APPEND` and `O_RDONLY`. -/
inductive OpenFlags
  | wronly_creat_trunc
  | wronly_creat_append
  | rdonly
  deriving DecidableEq, Repr

/-- An open file description.  `orig_stdin` and `orig_stdout` name the
descriptions that descriptors 0 and 1 are bound to when the shell starts,
whatever they are; a `file` is one opened by a redirection, with the bytes
still to be read from it. -/
inductive Desc
  | orig_stdin
  | orig_stdout
  | other (n : Nat)
  | file (path : CStr) (flags : OpenFlags) (unread : List Nat)
  deriving DecidableEq, Repr

/-- The descriptor table: slot `n` holds what descriptor `n` is bound to. -/
abbrev FdTable := List (Option Desc)

/-- The status `waitpid` reports for a child. -/
inductive WaitStatus
  | exited (code : Nat)
  | signaled (sig : Nat)
  | stopped (sig : Nat)
  deriving DecidableEq, Repr

/-- What the process does that an observer can see, in order. -/
inductive Event
  | sys_open (path : Option CStr) (flags : OpenFlags) (ret : Int)
  | sys_dup (fd : Int) (ret : Int)
  | sys_dup2 (oldfd newfd : Int)
  | sys_close (fd : Int)
  | sys_chdir (path : CStr) (ok : Bool)
  | sys_getcwd
  | call_launch (args : List (Option CStr))
  | sys_fork (ok : Bool)
  | child (argv : List CStr) (stdin stdout : Option Desc)
  | sys_waitpid (status : WaitStatus)
  | call_builtin (name : CStr) (args : List (Option CStr))
  | diag (msg : String)
  | prompt (stdin stdout : Option Desc) (text : CStr)
  deriving DecidableEq, Repr

/-- The state of the shell process that `sh_execute` can touch. -/
structure Proc where
  fds : FdTable
  cwd : CStr
  trace : List Event
  deriving DecidableEq, Repr

/-- The answers of the operating system to the calls of one command:
`open_result` is `none` when the `open` fails and otherwise the bytes the file
offers for reading; `fork_ok` tells whether `fork` creates a child;
`child_stops` counts the stop reports `waitpid` delivers before the child
ends with `child_end`; `child_reads` is the number of bytes the child takes
from the standard input it shares with the shell; `chdir_result` is `none`
when `chdir` fails and otherwise the directory it leads to. -/
structure Host where
  open_result : Option (List Nat)
  fork_ok : Bool
  child_stops : List Nat
  child_end : WaitStatus
  child_reads : Nat
  chdir_result : Option CStr
  deriving DecidableEq, Repr

/-- Appending an event to the trace. -/
def Proc.log (p : Proc) (e : Event) : Proc := { p with trace := p.trace ++ [e] }

/-- What descriptor `fd` is bound to; `none` when it is negative or not open. -/
def fd_get (t : FdTable) (fd : Int) : Option Desc :=
  if fd < 0 then none else t.getD fd.toNat none

/-- The lowest descriptor number not in use. -/
def lowest_free (t : FdTable) : Nat := t.findIdx (fun e => e.isNone)

/-- Binding slot `n`, growing the table when `n` lies beyond it. -/
def fd_put (t : FdTable) (n : Nat) (d : Option Desc) : FdTable :=
  if n < t.length then t.set n d else t ++ List.replicate (n - t.length) none ++ [d]

/-- The call `open(path, flags, 0777)`: it fails on a null path and when the host
says so; otherwise it binds the lowest free descriptor. -/
def sys_open (h : Host) (p : Proc) (path : Option CStr) (flags : OpenFlags) : Int × Proc :=
  match path, h.open_result with
  | some f, some bytes =>
    let fd := lowest_free p.fds
    ((fd : Int), { p with fds := fd_put p.fds fd (some (Desc.file f flags bytes)),
                          trace := p.trace ++ [Event.sys_open path flags fd] })
  | _, _ => (-1, p.log (Event.sys_open path flags (-1)))

/-- The call `dup(fd)`. -/
def sys_dup (p : Proc) (fd : Int) : Int × Proc :=
  match fd_get p.fds fd with
  | some d =>
    let n := lowest_free p.fds
    ((n : Int), { p with fds := fd_put p.fds n (some d),
                         trace := p.trace ++ [Event.sys_dup fd n] })
  | none => (-1, p.log (Event.sys_dup fd (-1)))

/-- The call `dup2(oldfd, newfd)`: nothing changes when `oldfd` is not open. -/
def sys_dup2 (p : Proc) (oldfd newfd : Int) : Proc :=
  match fd_get p.fds oldfd with
  | some d =>
    if newfd < 0 then p.log (Event.sys_dup2 oldfd newfd)
    else { p with fds := fd_put p.fds newfd.toNat (some d),
                  trace := p.trace ++ [Event.sys_dup2 oldfd newfd] }
  | none => p.log (Event.sys_dup2 oldfd newfd)

/-- The call `close(fd)`: nothing changes when `fd` is not open. -/
def sys_close (p : Proc) (fd : Int) : Proc :=
  match fd_get p.fds fd with
  | some _ => { p with fds := fd_put p.fds fd.toNat none,
                       trace := p.trace ++ [Event.sys_close fd] }
  | none => p.log (Event.sys_close fd)

/-! ## Launcher and built-ins -/

/-- The tokens of an argument vector as `execvp` sees them: the slots before the
first sentinel. -/
def argv_of : List (Option CStr) → List CStr
  | some t :: rest => t :: argv_of rest
  | _ => []

/-- The parent's `do ... while (!WIFEXITED(status) && !WIFSIGNALED(status))` loop:
one more `waitpid` for every stop report. -/
def wait_loop (final : WaitStatus) : List Nat → Proc → Proc
  | [], p => p.log (Event.sys_waitpid final)
  | sig :: more, p => wait_loop final more (p.log (Event.sys_waitpid (WaitStatus.stopped sig)))

/-- The function `sh_launch` as the shell process lives it.  The child is a
process of its own: the trace records the vector and the bindings it starts with. -/
def sh_launch (h : Host) (p : Proc) (args : List (Option CStr)) : Int × Proc :=
  let p0 := p.log (Event.call_launch args)
  if h.fork_ok then
    let p1 := (p0.log (Event.sys_fork true)).log
      (Event.child (argv_of args) (fd_get p.fds 0) (fd_get p.fds 1))
    (1, wait_loop h.child_end h.child_stops p1)
  else
    (1, (p0.log (Event.sys_fork false)).log (Event.diag "1730sh:"))

/-- The function `lsh_cd`. -/
def lsh_cd (h : Host) (p : Proc) (args : List (Option CStr)) : Option (Int × Proc) :=
  match args.get? 1 with
  | none => none
  | some none =>
    some (1, ((p.log (Event.call_builtin (cstr "cd") args)).log
      (Event.diag "lsh: expected argument to \"cd\"")).log Event.sys_getcwd)
  | some (some path) =>
    let p0 := p.log (Event.call_builtin (cstr "cd") args)
    match h.chdir_result with
    | some dir =>
      some (1, ({ p0 with cwd := dir }.log (Event.sys_chdir path true)).log Event.sys_getcwd)
    | none =>
      some (1, ((p0.log (Event.sys_chdir path false)).log (Event.diag "lsh")).log
        Event.sys_getcwd)

/-- The function `lsh_exit`. -/
def lsh_exit (_h : Host) (p : Proc) (args : List (Option CStr)) : Option (Int × Proc) :=
  some (0, p.log (Event.call_builtin (cstr "exit") args))

/-- The table `builtin_str`. -/
def builtin_str : List CStr := [cstr "cd", cstr "exit"]

/-- The table `builtin_func`. -/
def builtin_func : List (Host → Proc → List (Option CStr) → Option (Int × Proc)) :=
  [lsh_cd, lsh_exit]

/-- The function `lsh_num_builtins`. -/
def lsh_num_builtins : Nat := builtin_str.length

/-- The `for` loop of `sh_execute` over the two parallel tables, from index `i`:
the function of the first name equal to `a0`. -/
def builtin_scan (a0 : CStr) : Nat → Nat →
    Option (Host → Proc → List (Option CStr) → Option (Int × Proc))
  | 0, _ => none
  | fuel + 1, i =>
    if i < lsh_num_builtins then
      match builtin_str.get? i, builtin_func.get? i with
      | some name, some f => if a0 = name then some f else builtin_scan a0 fuel (i + 1)
      | _, _ => none
    else none

/-! ## Dispatcher and redirection: `sh_execute` -/

/-- How the redirection loop of `sh_execute` ends: with a `return`, or by falling
through to `sh_launch` with the process and the vector as they then are. -/
inductive Scan
  | ret (status : Int) (p : Proc) (args : List (Option CStr))
  | launch (p : Proc) (args : List (Option CStr))
  deriving DecidableEq, Repr

/-- The body shared by the three operator branches once the file is open:
`dup2(file, target); close(file); args[i] = NULL; break`. -/
def redirect_to (p : Proc) (file : Int) (target : Int) (args : List (Option CStr))
    (i : Nat) : Scan :=
  Scan.launch (sys_close (sys_dup2 p file target) file) (args.set i none)

/-- The `while (args[i] != NULL)` loop of `sh_execute`, from index `i`. -/
def redirect_loop (h : Host) : Nat → Nat → Proc → List (Option CStr) → Option Scan
  | 0, _, _, _ => none
  | fuel + 1, i, p, args =>
    match args.get? i with
    | none => none
    | some none => some (Scan.launch p args)
    | some (some tok) =>
      if tok = cstr ">" then
        match args.get? (i + 1) with
        | none => none
        | some path =>
          let r := sys_open h p path OpenFlags.wronly_creat_trunc
          some (redirect_to r.2 r.1 1 args i)
      else if tok = cstr ">>" then
        match args.get? (i + 1) with
        | none => none
        | some path =>
          let r := sys_open h p path OpenFlags.wronly_creat_append
          some (redirect_to r.2 r.1 1 args i)
      else if tok = cstr "<" then
        match args.get? (i + 1) with
        | none => none
        | some path =>
          let r := sys_open h p path OpenFlags.rdonly
          if r.1 = -1 then
            some (Scan.ret 1 (r.2.log (Event.diag "1730sh: Input file not found!")) args)
          else some (redirect_to r.2 r.1 0 args i)
      else redirect_loop h fuel (i + 1) p args

/-- The function `sh_execute`: the continuation signal, the process and the
argument vector after the call.  `none` when it reads outside the vector. -/
def sh_execute (h : Host) (p : Proc) (args : List (Option CStr)) :
    Option (Int × Proc × List (Option CStr)) :=
  match args.get? 0 with
  | none => none
  | some none => some (1, p, args)
  | some (some a0) =>
    match builtin_scan a0 lsh_num_builtins 0 with
    | some f =>
      match f h p args with
      | some r => some (r.1, r.2, args)
      | none => none
    | none =>
      match redirect_loop h (args.length + 1) 0 p args with
      | none => none
      | some (Scan.ret status p1 args1) => some (status, p1, args1)
      | some (Scan.launch p1 args1) =>
        let r := sh_launch h p1 args1
        some (r.1, r.2, args1)

/-! ## Line reader: `my_read` and `sh_read_line` -/

/-- The statics of `my_read`: the array `buf`, the offset of `bufp` in it, and
the counter `i`, an `int` of 32 bits. -/
structure ReadState where
  buf : List Nat
  bufp : Nat
  i : Int
  deriving DecidableEq, Repr

/-- The least value of an `int` of 32 bits. -/
def INT_MIN : Int := -2147483648

/-- The size of the static array of `my_read` (`BUFSIZ` of `<stdio.h>`). -/
def BUFSIZ : Nat := 8192

/-- The statics of `my_read` when the program starts. -/
def my_read_init : ReadState := { buf := List.replicate BUFSIZ 0, bufp := 0, i := 0 }

/-- The call `read(0, buf, 1)`.  `stream` lists the bytes standard input still
offers, or is `none` when descriptor 0 cannot be read.  The result is the
return value, the array and the stream afterwards. -/
def sys_read (stream : Option (List Nat)) (buf : List Nat) :
    Int × List Nat × Option (List Nat) :=
  match stream with
  | none => (-1, buf, none)
  | some [] => (0, buf, some [])
  | some (b :: rest) => (1, buf.set 0 (b % 256), some rest)

/-- The conversion of a `char` to `int` where plain `char` is signed (x86 and
x86-64 System V): bytes from 128 on are negative. -/
def char_to_int (b : Nat) : Int :=
  if b % 256 < 128 then ((b % 256 : Nat) : Int) else ((b % 256 : Nat) : Int) - 256

/-- The conversion of an `int` to the byte a `char` holds. -/
def int_to_char (c : Int) : Nat := (c % 256).toNat

/-- The function `my_read`: the value returned, the statics and the stream
afterwards; `none` when the decrement `--i` overflows (its behaviour is
undefined) or when `bufp` points outside `buf`. -/
def my_read (st : ReadState) (stream : Option (List Nat)) :
    Option (Int × ReadState × Option (List Nat)) :=
  let r := if st.i = 0 then
      let q := sys_read stream st.buf
      (({ buf := q.2.1, bufp := 0, i := q.1 } : ReadState), q.2.2)
    else (st, stream)
  let st1 := r.1
  if st1.i - 1 < INT_MIN then none
  else if st1.i - 1 ≥ 0 then
    match st1.buf.get? st1.bufp with
    | none => none
    | some b => some (char_to_int b, { st1 with bufp := st1.bufp + 1, i := st1.i - 1 }, r.2)
  else some (EOF, { st1 with i := st1.i - 1 }, r.2)

/-- The `while (1)` loop of `sh_read_line`.  `buffer` lists the bytes stored so
far, `bufsize` is the capacity of the allocation. -/
def sh_read_loop : Nat → Nat → Nat → List Nat → ReadState → Option (List Nat) →
    Option (List Nat × ReadState × Option (List Nat))
  | 0, _, _, _, _, _ => none
  | fuel + 1, bufsize, position, buffer, st, stream =>
    match my_read st stream with
    | none => none
    | some (c, st1, stream1) =>
      if c = EOF ∨ c = 10 then
        match store buffer bufsize position 0 with
        | none => none
        | some buffer1 => some (buffer1, st1, stream1)
      else
        match store buffer bufsize position (int_to_char c) with
        | none => none
        | some buffer1 =>
          let position1 := position + 1
          let bufsize1 := if position1 ≥ bufsize then bufsize + SH_RL_BUFSIZE else bufsize
          sh_read_loop fuel bufsize1 position1 buffer1 st1 stream1

/-- The number of bytes a stream still offers. -/
def stream_length : Option (List Nat) → Nat
  | some l => l.length
  | none => 0

/-- The function `sh_read_line`: the buffer returned (terminator included), the
statics of `my_read` and the stream afterwards. -/
def sh_read_line (st : ReadState) (stream : Option (List Nat)) :
    Option (List Nat × ReadState × Option (List Nat)) :=
  sh_read_loop (stream_length stream + st.i.toNat + 2) SH_RL_BUFSIZE 0 [] st stream

/-! ## Prompt text: `str_replace` -/

/-- The greatest value of an `int` of 32 bits. -/
def INT_MAX : Int := 2147483647

/-- The greatest size `malloc` grants (`PTRDIFF_MAX` where `size_t` has 64 bits). -/
def PTRDIFF_MAX : Nat := 9223372036854775807

/-- The result of an `int` operation whose mathematical value is `x`: `none`
when `x` is not representable, for signed overflow has no defined behaviour. -/
def int_val (x : Int) : Option Int :=
  if INT_MIN ≤ x ∧ x ≤ INT_MAX then some x else none

/-- The assignment of a length or of a pointer difference to an `int`: `none`
when the value does not fit. -/
def int_of_size (n : Nat) : Option Int := int_val (n : Int)

/-- The library function `strstr(hay, needle)`: the offset in `hay` of the first
occurrence of `needle`, `none` for a null result. -/
def strstr (needle : CStr) : CStr → Option Nat
  | [] => if needle = [] then some 0 else none
  | c :: t =>
    if needle.isPrefixOf (c :: t) then some 0 else (strstr needle t).map (fun off => off + 1)

/-- The counting loop of `str_replace`,
`for (count = 0; (tmp = strstr(ins, rep)); ++count) ins = tmp + len_rep;`,
with `count` an `int`. -/
def str_replace_count (rep : CStr) : Nat → CStr → Int → Option Int
  | 0, _, _ => none
  | fuel + 1, ins, count =>
    match strstr rep ins with
    | none => some count
    | some off =>
      match int_val (count + 1) with
      | none => none
      | some count1 => str_replace_count rep fuel (ins.drop (off + rep.length)) count1

/-- The argument of `malloc` in `str_replace`,
`strlen(orig) + (len_with - len_rep) * count + 1`: the difference and the
product are computed in `int`, the sum in `size_t` (64 bits), to which the
product is converted.  `none` when the difference or the product overflows. -/
def str_replace_size (len_orig : Nat) (len_rep len_with count : Int) : Option Nat :=
  match int_val (len_with - len_rep) with
  | none => none
  | some d =>
    match int_val (d * count) with
    | none => none
    | some prod => some ((((len_orig : Int) + prod + 1) % 18446744073709551616).toNat)

/-- The copying loop `while (count--)` of `str_replace` and the final
`strcpy(tmp, orig)`.  `result` lists the bytes of the allocation before `tmp`,
`cap` is the size of the allocation; a copy that would run past the
allocation gives `none`, and so do a null `ins` and an `int` that overflows
(`len_front`, `len_front + len_rep`). -/
def str_replace_copy (rep with_ : CStr) (cap : Nat) : Nat → CStr → List Nat →
    Option (List Nat)
  | 0, orig, result =>
    if result.length + orig.length + 1 ≤ cap then some (result ++ orig ++ [0]) else none
  | count + 1, orig, result =>
    match strstr rep orig with
    | none => none
    | some off =>
      match int_of_size off with
      | none => none
      | some len_front =>
        if result.length + off ≤ cap then
          if result.length + off + with_.length + 1 ≤ cap then
            match int_val (len_front + (rep.length : Int)) with
            | none => none
            | some step =>
              str_replace_copy rep with_ cap count (orig.drop step.toNat)
                (result ++ orig.take off ++ with_)
          else none
        else none

/-- The function `str_replace`.  The outer `none` is a run with no defined
behaviour (an `int` that overflows, a length that does not fit an `int`, a
copy past the allocation); the inner `none` is the null result; otherwise the
result is the memory written, terminator included. -/
def str_replace (orig rep with_ : Option CStr) : Option (Option (List Nat)) :=
  match orig, rep with
  | some o, some r =>
    match int_of_size r.length with
    | none => none
    | some len_rep =>
      if len_rep = 0 then some none
      else
        let w := with_.getD []
        match int_of_size w.length with
        | none => none
        | some len_with =>
          match str_replace_count r (o.length + 1) o 0 with
          | none => none
          | some count =>
            match str_replace_size o.length len_rep len_with count with
            | none => none
            | some size =>
              if size > PTRDIFF_MAX then some none
              else
                match str_replace_copy r w size count.toNat o [] with
                | none => none
                | some mem => some (some mem)
  | _, _ => some none

/-- The string `orig` with each occurrence of `rep` found by a left-to-right,
non-overlapping scan replaced by `with_`, in the words of the claim: the scan
moves one character at a time, replaces an occurrence where it meets one,
and then passes over the rest of it (`skip` characters still to pass). -/
def replace_scan (rep with_ : CStr) : Nat → CStr → CStr
  | _, [] => []
  | skip + 1, _ :: t => replace_scan rep with_ skip t
  | 0, c :: t =>
    if rep.isPrefixOf (c :: t) then with_ ++ replace_scan rep with_ (rep.length - 1) t
    else c :: replace_scan rep with_ 0 t

/-- The number of occurrences the same scan finds. -/
def count_scan (rep : CStr) : Nat → CStr → Nat
  | _, [] => 0
  | skip + 1, _ :: t => count_scan rep skip t
  | 0, c :: t =>
    if rep.isPrefixOf (c :: t) then 1 + count_scan rep (rep.length - 1) t
    else count_scan rep 0 t

/-! ## Shell loop: `sh_loop` -/

/-- Whether the `do ... while (status)` loop is still iterating, has been left
(`sh_loop` returned), or the process left defined behaviour. -/
inductive Phase
  | running
  | stopped
  | fault
  deriving DecidableEq, Repr

/-- The state of `sh_loop`: the process, the statics of `my_read`, the bytes the
shell's original standard input still offers to the shell, the two saved
descriptors, the number of iterations done, and the vectors handed to
`sh_execute` so far. -/
structure LoopState where
  proc : Proc
  rd : ReadState
  input : List Nat
  saved_stdout : Int
  saved_stdin : Int
  iter : Nat
  executed : List (List (Option CStr))
  phase : Phase
  deriving DecidableEq, Repr

/-- The bytes descriptor 0 offers: those of the original standard input, those
of a file opened for reading, or `none` when it cannot be read. -/
def stdin_stream (p : Proc) (input : List Nat) : Option (List Nat) :=
  match fd_get p.fds 0 with
  | some Desc.orig_stdin => some input
  | some (Desc.file _ OpenFlags.rdonly unread) => some unread
  | _ => none

/-- Writing back what a read left of the stream behind descriptor 0. -/
def stdin_commit (p : Proc) (input : List Nat) (rest : Option (List Nat)) : Proc × List Nat :=
  match fd_get p.fds 0, rest with
  | some Desc.orig_stdin, some r => (p, r)
  | some (Desc.file f OpenFlags.rdonly _), some r =>
    ({ p with fds := fd_put p.fds 0 (some (Desc.file f OpenFlags.rdonly r)) }, input)
  | _, _ => (p, input)

/-- The macro `MAX_BUF`, the size of the array `current_path`. -/
def MAX_BUF : Nat := 200

/-- The string in `current_path` after `memset(current_path, 0, MAX_BUF)` and
`getcwd(current_path, MAX_BUF)`: the working directory when it fits with its
terminator; otherwise the call fails and the array stays as `memset` left it. -/
def sys_getcwd (cwd : CStr) : CStr := if cwd.length + 1 ≤ MAX_BUF then cwd else []

/-- Lines 151 to 156 of `sh_loop`, which build the prompt in `current_path`:
the string the array holds when `printf` is reached.  `none` when the run has
no defined behaviour: `str_replace` has none, or it returns null and `strcpy`
reads through the null pointer, or `strcpy` or `strncat` (which appends the
two characters of `ch` and a terminator) writes past the `MAX_BUF` bytes of
the array. -/
def prompt_path (cwd home_dir : CStr) : Option CStr :=
  match str_replace (some (sys_getcwd cwd)) (some home_dir) (some (cstr "~")) with
  | none => none
  | some none => none
  | some (some temp) =>
    if (c_string temp).length + 1 ≤ MAX_BUF then
      if (c_string temp).length + 2 + 1 ≤ MAX_BUF then some (c_string temp ++ cstr "$ ")
      else none
    else none

/-- Whether a child was started with the shell's original standard input as
its own. -/
def shares_stdin : List Event → Bool
  | [] => false
  | Event.child _ (some Desc.orig_stdin) _ :: _ => true
  | _ :: rest => shares_stdin rest

/-- The bytes of the shell's standard input that the command whose events are
`evs` took: those its child read, when it had a child on that input. -/
def child_took (h : Host) (evs : List Event) : Nat :=
  if shares_stdin evs then h.child_reads else 0

/-- One iteration of the `do` body of `sh_loop` under the answers `h`, with
`home_dir` the string of the global of that name: restore the two bindings,
build and print the prompt, read, split, execute.  The `prompt` event records
the text printed and what descriptors 0 and 1 are bound to at that moment.
What a child of the command read of the shell's standard input is gone when
the next line is read. -/
def sh_loop_body (h : Host) (home_dir : CStr) (s : LoopState) : Option (Int × LoopState) :=
  let p1 := sys_dup2 (sys_dup2 s.proc s.saved_stdout 1) s.saved_stdin 0
  match prompt_path p1.cwd home_dir with
  | none => none
  | some path =>
    let p2 := p1.log (Event.prompt (fd_get p1.fds 0) (fd_get p1.fds 1)
      (cstr "1730sh:" ++ path))
    match sh_read_line s.rd (stdin_stream p2 s.input) with
    | none => none
    | some (line, rd1, rest) =>
      let c := stdin_commit p2 s.input rest
      match sh_split_line (c_string line) with
      | none => none
      | some args =>
        match sh_execute h c.1 args with
        | none => none
        | some (status, p3, _) =>
          let taken := child_took h (p3.trace.drop c.1.trace.length)
          some (status, { s with proc := p3, rd := rd1, input := c.2.drop taken,
                                 iter := s.iter + 1, executed := s.executed ++ [args] })

/-- One turn of the `do ... while (status)` loop. -/
def sh_loop_step (hosts : Nat → Host) (home_dir : CStr) (s : LoopState) : LoopState :=
  match s.phase with
  | Phase.running =>
    match sh_loop_body (hosts s.iter) home_dir s with
    | none => { s with phase := Phase.fault }
    | some (status, s1) =>
      if status ≠ 0 then s1 else { s1 with phase := Phase.stopped }
  | _ => s

/-- At most `n` turns of the loop. -/
def sh_loop_iterate (hosts : Nat → Host) (home_dir : CStr) : Nat → LoopState → LoopState
  | 0, s => s
  | n + 1, s => sh_loop_iterate hosts home_dir n (sh_loop_step hosts home_dir s)

/-- The two `dup` calls of `sh_loop` and the state in which the loop starts. -/
def sh_loop_save (p0 : Proc) (rd : ReadState) (input : List Nat) : LoopState :=
  let r1 := sys_dup p0 1
  let r2 := sys_dup r1.2 0
  { proc := r2.2, rd := rd, input := input, saved_stdout := r1.1, saved_stdin := r2.1,
    iter := 0, executed := [], phase := Phase.running }

/-- The state in which `sh_loop` enters its loop: after `chdir(home_dir)`, whose
outcome is `home`, and the two `dup` calls. -/
def sh_loop_enter (home : Option CStr) (home_dir : CStr) (p : Proc) (rd : ReadState)
    (input : List Nat) : LoopState :=
  let p0 := match home with
    | some dir => { p with cwd := dir }.log (Event.sys_chdir home_dir true)
    | none => p.log (Event.sys_chdir home_dir false)
  sh_loop_save p0 rd input

/-- The function `sh_loop` observed after at most `n` turns of its loop; it has
returned when the phase is `stopped`. -/
def sh_loop (hosts : Nat → Host) (home : Option CStr) (home_dir : CStr) (p : Proc)
    (rd : ReadState) (input : List Nat) (n : Nat) : LoopState :=
  sh_loop_iterate hosts home_dir n (sh_loop_enter home home_dir p rd input)

/-! ## Vocabulary of the statements -/

/-- A token that is one of the three redirection operators. -/
def is_redirect (tok : CStr) : Bool :=
  decide (tok = cstr ">" ∨ tok = cstr ">>" ∨ tok = cstr "<")

/-- The argument vector of a sequence of tokens: the tokens, then the sentinel. -/
def vector_of (tokens : List CStr) : List (Option CStr) := tokens.map some ++ [none]

/-- The vectors `sh_launch` was entered with, in order. -/
def launched : List Event → List (List (Option CStr))
  | [] => []
  | Event.call_launch args :: rest => args :: launched rest
  | _ :: rest => launched rest

/-- The first redirection operator of a token sequence, if any. -/
def first_redirect (tokens : List CStr) : Option CStr :=
  (tokens.dropWhile (fun t => !is_redirect t)).head?

/-- The token that follows the first redirection operator, if any. -/
def redirect_target (tokens : List CStr) : Option CStr :=
  (tokens.dropWhile (fun t => !is_redirect t)).get? 1

/-- The first operator is `<` and its file cannot be opened: the host refuses,
or no file name follows the operator. -/
def input_redirect_fails (h : Host) (tokens : List CStr) : Bool :=
  decide (first_redirect tokens = some (cstr "<")) &&
    (h.open_result.isNone || (redirect_target tokens).isNone)

/-- An event that opens a file, rebinds or closes a descriptor, or belongs to the
launch of a child. -/
def touches_streams_or_launches : Event → Bool
  | Event.sys_open _ _ _ => true
  | Event.sys_dup _ _ => true
  | Event.sys_dup2 _ _ => true
  | Event.sys_close _ => true
  | Event.call_launch _ => true
  | Event.sys_fork _ => true
  | Event.child _ _ _ => true
  | _ => false

/-- The `chdir` calls of a trace. -/
def is_chdir : Event → Bool
  | Event.sys_chdir _ _ => true
  | _ => false

/-- A byte at which `sh_read_line` ends the line: `my_read` hands it over as a
value equal to `EOF` or to the newline character. -/
def line_end (b : Nat) : Bool := decide (char_to_int (b % 256) = EOF ∨ char_to_int (b % 256) = 10)

/-- The statics of `my_read` between two lines: the array is not empty and no
byte is pending (`i` is 0, or negative once the end of the stream was seen). -/
def ReadState.settled (st : ReadState) : Prop := st.buf ≠ [] ∧ st.i ≤ 0

/-- The bindings recorded by the `prompt` events of a trace, in order. -/
def prompts : List Event → List (Option Desc × Option Desc)
  | [] => []
  | Event.prompt a b _ :: rest => (a, b) :: prompts rest
  | _ :: rest => prompts rest

/-- The descriptor an event rebinds or closes, if it does. -/
def rebound_fd : Event → Option Int
  | Event.sys_dup2 _ newfd => some newfd
  | Event.sys_close fd => some fd
  | _ => none

/-- An event that neither rebinds or closes a descriptor, nor prints a prompt. -/
def is_quiet : Event → Bool
  | Event.sys_dup2 _ _ => false
  | Event.sys_close _ => false
  | Event.prompt _ _ _ => false
  | _ => true

/-- What a command may do to the process it runs in: every descriptor other
than 0 and 1 that was bound stays bound to the same description, and the
events it adds hold no prompt and rebind or close only descriptor 0, descriptor
1, or a descriptor that was free before the command. -/
def command_effect (p p1 : Proc) : Prop :=
  (∀ k d, k ≠ 0 → k ≠ 1 → fd_get p.fds k = some d → fd_get p1.fds k = some d) ∧
  ∃ evs, p1.trace = p.trace ++ evs ∧ (∀ e ∈ evs, ∀ a b t, e ≠ Event.prompt a b t) ∧
    ∀ e ∈ evs, ∀ k, rebound_fd e = some k → k = 0 ∨ k = 1 ∨ fd_get p.fds k = none

/-- A line buffer whose first token is exactly `exit`. -/
def exit_line (line : List Nat) : Bool :=
  decide ((maximal_runs (c_string line)).head? = some (cstr "exit"))

/-- The first `k` line buffers that successive calls of `sh_read_line` deliver
from the bytes `input` of the original standard input, with the statics of
`my_read` and the unread bytes after the last of them. -/
def read_lines : Nat → ReadState → List Nat → Option (List (List Nat) × ReadState × List Nat)
  | 0, st, input => some ([], st, input)
  | k + 1, st, input =>
    match read_lines k st input with
    | none => none
    | some (lines, st1, rest) =>
      match sh_read_line st1 (some rest) with
      | some (line, st2, some rest2) => some (lines ++ [line], st2, rest2)
      | _ => none

/-- The two saved descriptors are bound to the original streams and are neither
descriptor 0 nor descriptor 1. -/
structure StreamsSaved (s : LoopState) : Prop where
  out_bound : fd_get s.proc.fds s.saved_stdout = some Desc.orig_stdout
  in_bound : fd_get s.proc.fds s.saved_stdin = some Desc.orig_stdin
  out_ne0 : s.saved_stdout ≠ 0
  out_ne1 : s.saved_stdout ≠ 1
  in_ne0 : s.saved_stdin ≠ 0
  in_ne1 : s.saved_stdin ≠ 1

/-- The process at the moment an iteration has restored the two bindings and
printed its prompt, with `path` the string built in `current_path`. -/
def at_prompt (s : LoopState) (path : CStr) : Proc :=
  (sys_dup2 (sys_dup2 s.proc s.saved_stdout 1) s.saved_stdin 0).log
    (Event.prompt (some Desc.orig_stdin) (some Desc.orig_stdout) (cstr "1730sh:" ++ path))

/-- The invariant of the loop, relative to the state `e` in which it was
entered: the saved descriptors are those of `e` and still bound to the original
streams, every prompt so far was printed with descriptors 0 and 1 bound to the
original streams, and no event since `e` rebinds or closes a saved descriptor. -/
structure LoopInv (e s : LoopState) : Prop where
  saved : StreamsSaved s
  same_out : s.saved_stdout = e.saved_stdout
  same_in : s.saved_stdin = e.saved_stdin
  prompts_eq : prompts s.proc.trace = prompts e.proc.trace ++
    List.replicate s.iter (some Desc.orig_stdin, some Desc.orig_stdout)
  no_rebind : ∃ evs, s.proc.trace = e.proc.trace ++ evs ∧
    ∀ ev ∈ evs, rebound_fd ev ≠ some e.saved_stdout ∧ rebound_fd ev ≠ some e.saved_stdin

/-- The vector `sh_split_line` makes of a line buffer. -/
def vector_of_line (line : List Nat) : List (Option CStr) :=
  vector_of (maximal_runs (c_string line))

/-- The account of the loop after `n` turns: `lines` are the line buffers read
so far, one per iteration and none beyond; each was split and executed, in
order; the working directory is the one the loop started in (`cwd0`) or one a
`chdir` of an earlier iteration led to; while the loop runs it has done `n`
iterations and met no `exit` line; once stopped, the last line read is the
first `exit` line; it has left defined behaviour only if the building of the
next prompt or the read of the next line did. -/
structure LinesInv (hosts : Nat → Host) (home_dir cwd0 : CStr) (rd0 : ReadState)
    (input0 : List Nat) (n : Nat) (s : LoopState) (lines : List (List Nat)) : Prop where
  read : read_lines s.iter rd0 input0 = some (lines, s.rd, s.input)
  executed_eq : s.executed = lines.map vector_of_line
  cwd_from : s.proc.cwd = cwd0 ∨ ∃ k, k < s.iter ∧ (hosts k).chdir_result = some s.proc.cwd
  fault : s.phase = Phase.fault → s.iter < n ∧
    (prompt_path s.proc.cwd home_dir = none ∨ read_lines (s.iter + 1) rd0 input0 = none)
  running : s.phase = Phase.running → s.iter = n ∧ ∀ l ∈ lines, exit_line l = false
  stopped : s.phase = Phase.stopped →
    ∃ pre l, lines = pre ++ [l] ∧ exit_line l = true ∧ ∀ x ∈ pre, exit_line x = false

/-- The `open` calls of a trace, each with its path and flags, in order. -/
def opens : List Event → List (Option CStr × OpenFlags)
  | [] => []
  | Event.sys_open path flags _ :: rest => (path, flags) :: opens rest
  | _ :: rest => opens rest

/-- The descriptors that the `dup2` calls of a trace rebind, in order. -/
def rebinds : List Event → List Int
  | [] => []
  | Event.sys_dup2 _ newfd :: rest => newfd :: rebinds rest
  | _ :: rest => rebinds rest

/-- The loop `redirect_loop` run together with the list of the indices of `args`
it reads, in order: `args[i]` at the head of every turn and `args[i + 1]` in
an operator branch. -/
def redirect_loop_reads (h : Host) : Nat → Nat → Proc → List (Option CStr) →
    Option Scan × List Nat
  | 0, _, _, _ => (none, [])
  | fuel + 1, i, p, args =>
    match args.get? i with
    | none => (none, [i])
    | some none => (some (Scan.launch p args), [i])
    | some (some tok) =>
      if tok = cstr ">" then
        match args.get? (i + 1) with
        | none => (none, [i, i + 1])
        | some path =>
          let r := sys_open h p path OpenFlags.wronly_creat_trunc
          (some (redirect_to r.2 r.1 1 args i), [i, i + 1])
      else if tok = cstr ">>" then
        match args.get? (i + 1) with
        | none => (none, [i, i + 1])
        | some path =>
          let r := sys_open h p path OpenFlags.wronly_creat_append
          (some (redirect_to r.2 r.1 1 args i), [i, i + 1])
      else if tok = cstr "<" then
        match args.get? (i + 1) with
        | none => (none, [i, i + 1])
        | some path =>
          let r := sys_open h p path OpenFlags.rdonly
          if r.1 = -1 then
            (some (Scan.ret 1 (r.2.log (Event.diag "1730sh: Input file not found!")) args),
              [i, i + 1])
          else (some (redirect_to r.2 r.1 0 args i), [i, i + 1])
      else
        let r := redirect_loop_reads h fuel (i + 1) p args
        (r.1, i :: r.2)

/-- The indices of `args` that `sh_execute` itself reads: `args[0]` for the empty
test and the built-in comparison, then those of the redirection loop. -/
def sh_execute_reads (h : Host) (p : Proc) (args : List (Option CStr)) : List Nat :=
  match args.get? 0 with
  | some (some a0) =>
    match builtin_scan a0 lsh_num_builtins 0 with
    | some _ => [0]
    | none => 0 :: (redirect_loop_reads h (args.length + 1) 0 p args).2
  | _ => [0]

/-- The loop `sh_read_loop` run together with the list of its stores into the
line buffer, in order: for each store the index written, the capacity of the
buffer at that moment, and the byte.  A store is listed whether or not it
falls inside the buffer. -/
def sh_read_loop_stores : Nat → Nat → Nat → List Nat → ReadState → Option (List Nat) →
    Option (List Nat × ReadState × Option (List Nat)) × List (Nat × Nat × Nat)
  | 0, _, _, _, _, _ => (none, [])
  | fuel + 1, bufsize, position, buffer, st, stream =>
    match my_read st stream with
    | none => (none, [])
    | some (c, st1, stream1) =>
      if c = EOF ∨ c = 10 then
        match store buffer bufsize position 0 with
        | none => (none, [(position, bufsize, 0)])
        | some buffer1 => (some (buffer1, st1, stream1), [(position, bufsize, 0)])
      else
        match store buffer bufsize position (int_to_char c) with
        | none => (none, [(position, bufsize, int_to_char c)])
        | some buffer1 =>
          let position1 := position + 1
          let bufsize1 := if position1 ≥ bufsize then bufsize + SH_RL_BUFSIZE else bufsize
          let r := sh_read_loop_stores fuel bufsize1 position1 buffer1 st1 stream1
          (r.1, (position, bufsize, int_to_char c) :: r.2)

/-- The function `sh_read_line` together with the list of its stores. -/
def sh_read_line_stores (st : ReadState) (stream : Option (List Nat)) :
    Option (List Nat × ReadState × Option (List Nat)) × List (Nat × Nat × Nat) :=
  sh_read_loop_stores (stream_length stream + st.i.toNat + 2) SH_RL_BUFSIZE 0 [] st stream

/-! ## Successive calls of `my_read` -/

/-- The values that `n` successive calls of `my_read` return, in order, with the
statics and the stream after the last call; `none` when one of the calls has
no defined behaviour. -/
def my_read_calls : Nat → ReadState → Option (List Nat) →
    Option (List Int × ReadState × Option (List Nat))
  | 0, st, stream => some ([], st, stream)
  | n + 1, st, stream =>
    match my_read_calls n st stream with
    | none => none
    | some (cs, st1, stream1) =>
      match my_read st1 stream1 with
      | none => none
      | some (c, st2, stream2) => some (cs ++ [c], st2, stream2)

/-! ## Sample inputs -/

/-- A host on which every call succeeds and the child exits with status 0. -/
def sample_host : Host :=
  { open_result := some [], fork_ok := true, child_stops := [],
    child_end := WaitStatus.exited 0, child_reads := 0, chdir_result := some (cstr "/tmp") }

/-- A host that refuses every `open` and every `chdir`. -/
def refusing_host : Host :=
  { open_result := none, fork_ok := true, child_stops := [],
    child_end := WaitStatus.exited 0, child_reads := 0, chdir_result := none }

/-- A process as the shell finds it at start: descriptors 0, 1 and 2 are open. -/
def sample_proc : Proc :=
  { fds := [some Desc.orig_stdin, some Desc.orig_stdout, some (Desc.other 2)], cwd := cstr "/",
    trace := [] }

/-- Statics of `my_read` with a one-byte array, for evaluation on small inputs. -/
def sample_read_state : ReadState := { buf := [0], bufp := 0, i := 0 }

/-- A home directory, `/home/u`. -/
def sample_home : CStr := cstr "/home/u"

/-- The bytes of the single input line `echo`, blank, 0xFF, `exit`, newline. -/
def ff_input : List Nat := [101, 99, 104, 111, 32, 255, 101, 120, 105, 116, 10]

/-- A working directory of 199 bytes: a slash and 198 letters `a`. -/
def deep_cwd : CStr := 47 :: List.replicate 198 97

/-- A host on which every call succeeds and `chdir` leads to `deep_cwd`. -/
def deep_host : Host :=
  { open_result := some [], fork_ok := true, child_stops := [],
    child_end := WaitStatus.exited 0, child_reads := 0, chdir_result := some deep_cwd }

/-! ## Proofs: tokenizer -/

theorem store_at_end {α : Type} (buf : List α) (cap : Nat) (v : α) (h : buf.length < cap) :
    store buf cap buf.length v = some (buf ++ [v]) := by
  simp [store, h]

theorem maximal_runs_nil : maximal_runs [] = [] := by
  simp [maximal_runs, List.splitOnP_nil]

theorem maximal_runs_dropWhile (l : CStr) :
    maximal_runs (l.dropWhile (is_delim SH_TOK_DELIM)) = maximal_runs l := by
  induction l with
  | nil => rfl
  | cons c rest ih =>
    by_cases hc : is_delim SH_TOK_DELIM c = true
    · rw [List.dropWhile_cons_of_pos hc, ih]
      simp [maximal_runs, List.splitOnP_cons, hc]
    · rw [List.dropWhile_cons_of_neg hc]

theorem maximal_runs_token (c : Nat) (rest : CStr) (hc : is_delim SH_TOK_DELIM c = false) :
    maximal_runs (c :: rest) =
      (c :: rest).takeWhile (fun x => !is_delim SH_TOK_DELIM x) ::
        maximal_runs (((c :: rest).dropWhile (fun x => !is_delim SH_TOK_DELIM x)).drop 1) := by
  have hsplit := List.takeWhile_append_dropWhile (fun x => !is_delim SH_TOK_DELIM x) (c :: rest)
  have htake : ∀ x ∈ (c :: rest).takeWhile (fun x => !is_delim SH_TOK_DELIM x),
      ¬ is_delim SH_TOK_DELIM x = true := by
    intro x hx
    have := List.mem_takeWhile_imp hx
    simpa using this
  have hne : (c :: rest).takeWhile (fun x => !is_delim SH_TOK_DELIM x) ≠ [] := by
    simp [List.takeWhile_cons, hc]
  generalize htk : (c :: rest).takeWhile (fun x => !is_delim SH_TOK_DELIM x) = tk at *
  cases hdr : (c :: rest).dropWhile (fun x => !is_delim SH_TOK_DELIM x) with
  | nil =>
    rw [hdr, List.append_nil] at hsplit
    rw [← hsplit]
    simp [maximal_runs, List.splitOnP_eq_single _ _ htake, hne, List.splitOnP_nil]
  | cons d r =>
    have hd : is_delim SH_TOK_DELIM d = true := by
      have := List.head_dropWhile_not (fun x => !is_delim SH_TOK_DELIM x) (c :: rest)
        (by rw [hdr]; simp)
      simpa [hdr] using this
    rw [hdr] at hsplit
    rw [← hsplit]
    simp [maximal_runs, List.splitOnP_first _ _ htake d hd, hne]

theorem sh_split_loop_spec : ∀ (fuel bufsize position : Nat) (tokens : List (Option CStr))
    (olds : CStr), olds.length + 2 ≤ fuel → position = tokens.length → position < bufsize →
    sh_split_loop fuel bufsize position tokens (strtok none SH_TOK_DELIM olds).1
        (strtok none SH_TOK_DELIM olds).2
      = some (tokens ++ (maximal_runs olds).map some ++ [none]) := by
  intro fuel
  induction fuel with
  | zero => intro _ _ _ _ h; omega
  | succ fuel ih =>
    intro bufsize position tokens olds hfuel hpos hcap
    subst hpos
    rw [← maximal_runs_dropWhile olds]
    have hlen := (List.dropWhile_sublist (is_delim SH_TOK_DELIM) (l := olds)).length_le
    cases hdw : olds.dropWhile (is_delim SH_TOK_DELIM) with
    | nil =>
      simp [strtok, hdw, sh_split_loop, store_at_end _ _ _ hcap, maximal_runs_nil]
    | cons c rest =>
      have hc : is_delim SH_TOK_DELIM c = false := by
        have := List.head_dropWhile_not (is_delim SH_TOK_DELIM) olds (by rw [hdw]; simp)
        simpa [hdw] using this
      rw [hdw] at hlen
      have hshort : (((c :: rest).dropWhile (fun x => !is_delim SH_TOK_DELIM x)).drop 1).length + 2
          ≤ fuel := by
        have := (List.dropWhile_sublist (fun x => !is_delim SH_TOK_DELIM x) (l := c :: rest)).length_le
        simp only [List.length_drop, List.length_cons] at *
        omega
      simp only [strtok, hdw, sh_split_loop, store_at_end _ _ _ hcap]
      have key := ih (if tokens.length + 1 ≥ bufsize then bufsize + SH_TOK_BUFSIZE else bufsize)
        (tokens.length + 1)
        (tokens ++ [some ((c :: rest).takeWhile (fun x => !is_delim SH_TOK_DELIM x))])
        (((c :: rest).dropWhile (fun x => !is_delim SH_TOK_DELIM x)).drop 1) hshort (by simp)
        (by simp only [SH_TOK_BUFSIZE]; split <;> omega)
      simp only [strtok] at key
      rw [key, maximal_runs_token c rest hc]
      simp

theorem sh_split_line_eq (line : CStr) :
    sh_split_line line = some ((maximal_runs line).map some ++ [none]) := by
  have h := sh_split_loop_spec (line.length + 2) SH_TOK_BUFSIZE 0 [] line (le_refl _) rfl
    (by decide)
  simpa [sh_split_line, strtok] using h

theorem flatten_modifyHead_cons {α : Type} (x : α) (L : List (List α)) (h : L ≠ []) :
    (L.modifyHead (List.cons x)).flatten = x :: L.flatten := by
  cases L with
  | nil => exact absurd rfl h
  | cons a rest => simp [List.modifyHead]

theorem flatten_splitOnP {α : Type} (p : α → Bool) (l : List α) :
    (l.splitOnP p).flatten = l.filter (fun x => !p x) := by
  induction l with
  | nil => simp
  | cons x xs ih =>
    rw [List.splitOnP_cons]
    by_cases hx : p x = true
    · simp [hx, ih]
    · simp [hx, flatten_modifyHead_cons x _ (List.splitOnP_ne_nil p xs), ih]

theorem flatten_filter_nonempty {α : Type} [DecidableEq α] (L : List (List α)) :
    (L.filter (fun t => decide (t ≠ []))).flatten = L.flatten := by
  induction L with
  | nil => rfl
  | cons a rest ih =>
    by_cases ha : a = []
    · simpa [ha] using ih
    · simpa [List.filter_cons, ha] using ih

theorem splitOnP_no_sep {α : Type} (p : α → Bool) (l : List α) :
    ∀ t ∈ l.splitOnP p, ∀ c ∈ t, p c = false := by
  induction l with
  | nil => simp
  | cons x xs ih =>
    rw [List.splitOnP_cons]
    by_cases hx : p x = true
    · simp only [hx, if_true, List.mem_cons]
      rintro t (rfl | ht) c hc
      · simp at hc
      · exact ih t ht c hc
    · simp only [hx]
      cases hL : xs.splitOnP p with
      | nil => exact absurd hL (List.splitOnP_ne_nil p xs)
      | cons a rest =>
        rw [hL] at ih
        simp only [List.modifyHead, List.mem_cons, Bool.false_eq_true, if_false]
        rintro t (rfl | ht) c hc
        · rcases List.mem_cons.mp hc with rfl | hc
          · simpa using hx
          · exact ih a (by simp) c hc
        · exact ih t (by simp [ht]) c hc

theorem maximal_runs_flatten (line : CStr) :
    (maximal_runs line).flatten = line.filter (fun c => !is_delim SH_TOK_DELIM c) := by
  rw [maximal_runs, flatten_filter_nonempty, flatten_splitOnP]

theorem maximal_runs_mem (line : CStr) :
    ∀ t ∈ maximal_runs line, t ≠ [] ∧ ∀ c ∈ t, c ∉ SH_TOK_DELIM := by
  intro t ht
  simp only [maximal_runs, List.mem_filter, decide_eq_true_eq] at ht
  refine ⟨ht.2, fun c hc => ?_⟩
  have := splitOnP_no_sep (is_delim SH_TOK_DELIM) line t ht.1 c hc
  simpa [is_delim] using this

/-- C1: for every line, of any length and with any number of tokens,
`sh_split_line` returns a vector (it never writes outside the token array): the
maximal runs of characters outside the delimiter set, in left-to-right order,
followed by the sentinel.  No token is empty, no token holds a delimiter, and
the tokens concatenated are the non-delimiter characters of the line.  The
lines `ls -la /tmp` and `  a   b ` give `ls`, `-la`, `/tmp` and `a`, `b`. -/
theorem sh_split_line_maximal_runs (line : CStr) :
    sh_split_line line = some ((maximal_runs line).map some ++ [none]) ∧
    (∀ t ∈ maximal_runs line, t ≠ [] ∧ ∀ c ∈ t, c ∉ SH_TOK_DELIM) ∧
    (maximal_runs line).flatten = line.filter (fun c => decide (c ∉ SH_TOK_DELIM)) ∧
    sh_split_line (cstr "ls -la /tmp")
      = some [some (cstr "ls"), some (cstr "-la"), some (cstr "/tmp"), none] ∧
    sh_split_line (cstr "  a   b ") = some [some (cstr "a"), some (cstr "b"), none] := by
  refine ⟨sh_split_line_eq line, maximal_runs_mem line, ?_, by decide, by decide⟩
  rw [maximal_runs_flatten]
  congr 1
  funext c
  simp [is_delim]

/-! ## Proofs: dispatcher and redirection -/

theorem cstr_gt : cstr ">" = [62] := by decide
theorem cstr_gtgt : cstr ">>" = [62, 62] := by decide
theorem cstr_lt : cstr "<" = [60] := by decide
theorem cstr_cd : cstr "cd" = [99, 100] := by decide
theorem cstr_exit : cstr "exit" = [101, 120, 105, 116] := by decide

theorem launched_append (a b : List Event) : launched (a ++ b) = launched a ++ launched b := by
  induction a with
  | nil => rfl
  | cons e rest ih => cases e <;> simp [launched, ih]

theorem is_redirect_false_iff (t : CStr) :
    is_redirect t = false ↔ t ≠ cstr ">" ∧ t ≠ cstr ">>" ∧ t ≠ cstr "<" := by
  simp [is_redirect, not_or]

theorem get?_append_cons {α : Type} (front : List α) (x : α) (rest : List α) :
    (front ++ x :: rest).get? front.length = some x := by
  induction front with
  | nil => rfl
  | cons a front ih => simpa using ih

theorem get?_append_cons_succ {α : Type} (front : List α) (x : α) (rest : List α) :
    (front ++ x :: rest).get? (front.length + 1) = rest.get? 0 := by
  induction front with
  | nil => rfl
  | cons a front ih => simpa using ih

theorem set_append_cons {α : Type} (front : List α) (x y : α) (rest : List α) :
    (front ++ x :: rest).set front.length y = front ++ y :: rest := by
  induction front with
  | nil => rfl
  | cons a front ih => simp [ih]

theorem redirect_loop_skip (h : Host) (p : Proc) : ∀ (pre : List CStr)
    (front suf : List (Option CStr)) (fuel : Nat), (∀ t ∈ pre, is_redirect t = false) →
    redirect_loop h (fuel + pre.length) front.length p (front ++ pre.map some ++ suf)
      = redirect_loop h fuel (front.length + pre.length) p (front ++ pre.map some ++ suf) := by
  intro pre
  induction pre with
  | nil => intro front suf fuel _; simp
  | cons t pre ih =>
    intro front suf fuel hpre
    have ht := (is_redirect_false_iff t).mp (hpre t (by simp))
    have hrest : ∀ x ∈ pre, is_redirect x = false := fun x hx => hpre x (by simp [hx])
    have hget : (front ++ List.map some (t :: pre) ++ suf).get? front.length = some (some t) := by
      have := get?_append_cons front (some t) (List.map some pre ++ suf)
      simpa using this
    have hshape : front ++ List.map some (t :: pre) ++ suf
        = (front ++ [some t]) ++ List.map some pre ++ suf := by simp
    rw [List.length_cons, ← Nat.add_assoc, redirect_loop, hget]
    simp only [ht.1, ht.2.1, ht.2.2, if_false]
    rw [hshape]
    have := ih (front ++ [some t]) suf fuel hrest
    simp only [List.length_append, List.length_singleton] at this
    rw [this]
    congr 1
    omega


theorem launched_log (p : Proc) (e : Event) (he : ∀ a, e ≠ Event.call_launch a) :
    launched (p.log e).trace = launched p.trace := by
  cases e <;> simp_all [Proc.log, launched_append, launched]

theorem launched_sys_open (h : Host) (p : Proc) (path : Option CStr) (f : OpenFlags) :
    launched (sys_open h p path f).2.trace = launched p.trace := by
  unfold sys_open
  split <;> simp [Proc.log, launched_append, launched]

theorem launched_sys_dup2 (p : Proc) (a b : Int) :
    launched (sys_dup2 p a b).trace = launched p.trace := by
  unfold sys_dup2
  split
  · split <;> simp [Proc.log, launched_append, launched]
  · simp [Proc.log, launched_append, launched]

theorem launched_sys_close (p : Proc) (a : Int) :
    launched (sys_close p a).trace = launched p.trace := by
  unfold sys_close
  split <;> simp [Proc.log, launched_append, launched]

theorem launched_wait_loop (final : WaitStatus) : ∀ (stops : List Nat) (p : Proc),
    launched (wait_loop final stops p).trace = launched p.trace := by
  intro stops
  induction stops with
  | nil => intro p; simp [wait_loop, Proc.log, launched_append, launched]
  | cons sig more ih => intro p; simp [wait_loop, ih, Proc.log, launched_append, launched]

theorem sh_launch_status (h : Host) (p : Proc) (args : List (Option CStr)) :
    (sh_launch h p args).1 = 1 := by
  unfold sh_launch
  split <;> rfl

theorem launched_sh_launch (h : Host) (p : Proc) (args : List (Option CStr)) :
    launched (sh_launch h p args).2.trace = launched p.trace ++ [args] := by
  unfold sh_launch
  split <;> simp [launched_wait_loop, Proc.log, launched_append, launched]

theorem launched_redirect_to (p : Proc) (file target : Int) (args : List (Option CStr))
    (i : Nat) : ∀ q a, redirect_to p file target args i = Scan.launch q a →
      launched q.trace = launched p.trace ∧ a = args.set i none := by
  intro q a hq
  simp only [redirect_to, Scan.launch.injEq] at hq
  obtain ⟨rfl, rfl⟩ := hq
  simp [launched_sys_close, launched_sys_dup2]

theorem builtin_scan_none (a0 : CStr) (h : a0 ∉ builtin_str) :
    builtin_scan a0 lsh_num_builtins 0 = none := by
  simp only [builtin_str, List.mem_cons, List.mem_singleton, not_or, List.not_mem_nil,
    or_false] at h
  simp [builtin_scan, lsh_num_builtins, builtin_str, builtin_func, h.1, h.2]

theorem builtin_scan_cd : builtin_scan (cstr "cd") lsh_num_builtins 0 = some lsh_cd := by
  simp [builtin_scan, lsh_num_builtins, builtin_str, builtin_func]

theorem builtin_scan_exit : builtin_scan (cstr "exit") lsh_num_builtins 0 = some lsh_exit := by
  simp [builtin_scan, lsh_num_builtins, builtin_str, builtin_func, cstr_cd, cstr_exit]

theorem redirect_loop_no_operator (h : Host) (p : Proc) (tokens : List CStr)
    (hno : ∀ t ∈ tokens, is_redirect t = false) :
    redirect_loop h ((vector_of tokens).length + 1) 0 p (vector_of tokens)
      = some (Scan.launch p (vector_of tokens)) := by
  have hskip := redirect_loop_skip h p tokens [] [none] 2 hno
  have hlen : (vector_of tokens).length + 1 = 2 + tokens.length := by
    simp [vector_of]; omega
  rw [hlen]
  simp only [List.nil_append, List.length_nil, Nat.zero_add] at hskip
  rw [vector_of, hskip, redirect_loop]
  have := get?_append_cons (List.map some tokens) (none : Option CStr) []
  simp only [List.length_map] at this
  rw [this]

theorem redirect_loop_operator (h : Host) (p : Proc) (pre : List CStr) (op : CStr)
    (more : List CStr) (hno : ∀ t ∈ pre, is_redirect t = false) :
    redirect_loop h ((vector_of (pre ++ op :: more)).length + 1) 0 p
        (vector_of (pre ++ op :: more))
      = redirect_loop h (more.length + 3) pre.length p (vector_of (pre ++ op :: more)) := by
  have hskip := redirect_loop_skip h p pre [] (some op :: vector_of more) (more.length + 3) hno
  have hlen : (vector_of (pre ++ op :: more)).length + 1 = more.length + 3 + pre.length := by
    simp [vector_of]; omega
  have hshape : vector_of (pre ++ op :: more)
      = [] ++ List.map some pre ++ some op :: vector_of more := by
    simp [vector_of]
  rw [hlen, hshape]
  simpa using hskip

theorem vector_of_get_operator (pre : List CStr) (op : CStr) (more : List CStr) :
    (vector_of (pre ++ op :: more)).get? pre.length = some (some op) ∧
    (vector_of (pre ++ op :: more)).get? (pre.length + 1) = some more.head? ∧
    (vector_of (pre ++ op :: more)).set pre.length none
      = List.map some pre ++ none :: vector_of more := by
  have hshape : vector_of (pre ++ op :: more)
      = List.map some pre ++ some op :: vector_of more := by
    simp [vector_of]
  have h1 := get?_append_cons (List.map some pre) (some op) (vector_of more)
  have h2 := get?_append_cons_succ (List.map some pre) (some op) (vector_of more)
  simp only [List.length_map] at h1 h2
  refine ⟨by rw [hshape, h1], ?_, ?_⟩
  · rw [hshape, h2]
    cases more <;> simp [vector_of]
  · rw [hshape]
    have := set_append_cons (List.map some pre) (some op) none (vector_of more)
    simp only [List.length_map] at this
    exact this

theorem argv_of_truncated (pre : List CStr) (rest : List (Option CStr)) :
    argv_of (List.map some pre ++ none :: rest) = pre := by
  induction pre with
  | nil => rfl
  | cons t pre ih => simp [argv_of, ih]

theorem argv_of_vector_of (tokens : List CStr) : argv_of (vector_of tokens) = tokens := by
  have := argv_of_truncated tokens []
  simpa [vector_of] using this


theorem sys_open_fails_iff (h : Host) (p : Proc) (path : Option CStr) (f : OpenFlags) :
    (sys_open h p path f).1 = -1 ↔ (path = none ∨ h.open_result = none) := by
  unfold sys_open
  cases path <;> cases h.open_result <;> simp

theorem sys_open_failed (h : Host) (p : Proc) (path : Option CStr) (f : OpenFlags)
    (hf : path = none ∨ h.open_result = none) :
    sys_open h p path f = (-1, p.log (Event.sys_open path f (-1))) := by
  unfold sys_open
  rcases hf with rfl | hf
  · rfl
  · rw [hf]; cases path <;> rfl

theorem tokens_split (tokens : List CStr) :
    ((∀ t ∈ tokens, is_redirect t = false) ∧
        tokens.takeWhile (fun t => !is_redirect t) = tokens ∧
        tokens.dropWhile (fun t => !is_redirect t) = []) ∨
    ∃ pre op more, tokens = pre ++ op :: more ∧ (∀ t ∈ pre, is_redirect t = false) ∧
      is_redirect op = true ∧ tokens.takeWhile (fun t => !is_redirect t) = pre ∧
      tokens.dropWhile (fun t => !is_redirect t) = op :: more := by
  have hsplit := List.takeWhile_append_dropWhile (fun t => !is_redirect t) tokens
  have hpre : ∀ t ∈ tokens.takeWhile (fun t => !is_redirect t), is_redirect t = false := by
    intro t ht
    have := List.mem_takeWhile_imp ht
    simpa using this
  cases hdw : tokens.dropWhile (fun t => !is_redirect t) with
  | nil =>
    left
    rw [hdw, List.append_nil] at hsplit
    exact ⟨by rw [← hsplit]; exact hpre, hsplit, rfl⟩
  | cons op more =>
    right
    refine ⟨_, op, more, by rw [← hdw]; exact hsplit.symm, hpre, ?_, rfl, rfl⟩
    have := List.head_dropWhile_not (fun t => !is_redirect t) tokens (by rw [hdw]; simp)
    simpa [hdw] using this

theorem sh_execute_external (h : Host) (p : Proc) (a0 : CStr) (rest : List CStr)
    (hnb : a0 ∉ builtin_str) :
    sh_execute h p (vector_of (a0 :: rest)) =
      match redirect_loop h ((vector_of (a0 :: rest)).length + 1) 0 p (vector_of (a0 :: rest)) with
      | none => none
      | some (Scan.ret status p1 args1) => some (status, p1, args1)
      | some (Scan.launch p1 args1) => some ((sh_launch h p1 args1).1, (sh_launch h p1 args1).2, args1) := by
  have hget : (vector_of (a0 :: rest)).get? 0 = some (some a0) := by simp [vector_of]
  rw [sh_execute, hget]
  simp only [builtin_scan_none a0 hnb]

theorem sh_execute_no_operator (h : Host) (p : Proc) (a0 : CStr) (rest : List CStr)
    (hnb : a0 ∉ builtin_str) (hno : ∀ t ∈ a0 :: rest, is_redirect t = false) :
    sh_execute h p (vector_of (a0 :: rest)) =
      some (1, (sh_launch h p (vector_of (a0 :: rest))).2, vector_of (a0 :: rest)) := by
  rw [sh_execute_external h p a0 rest hnb, redirect_loop_no_operator h p _ hno]
  simp [sh_launch_status]

theorem sh_execute_output (h : Host) (p : Proc) (a0 : CStr) (rest pre more : List CStr)
    (op : CStr) (hnb : a0 ∉ builtin_str) (hsplit : a0 :: rest = pre ++ op :: more)
    (hno : ∀ t ∈ pre, is_redirect t = false) (hop : op = cstr ">" ∨ op = cstr ">>") :
    sh_execute h p (vector_of (a0 :: rest)) =
      some (1,
        (sh_launch h
          (sys_close (sys_dup2
            (sys_open h p more.head? (if op = cstr ">" then OpenFlags.wronly_creat_trunc
              else OpenFlags.wronly_creat_append)).2
            (sys_open h p more.head? (if op = cstr ">" then OpenFlags.wronly_creat_trunc
              else OpenFlags.wronly_creat_append)).1 1)
            (sys_open h p more.head? (if op = cstr ">" then OpenFlags.wronly_creat_trunc
              else OpenFlags.wronly_creat_append)).1)
          (List.map some pre ++ none :: vector_of more)).2,
        List.map some pre ++ none :: vector_of more) := by
  rw [sh_execute_external h p a0 rest hnb, hsplit, redirect_loop_operator h p pre op more hno]
  obtain ⟨h1, h2, h3⟩ := vector_of_get_operator pre op more
  rw [redirect_loop, h1]
  have e1 : ¬ cstr ">>" = cstr ">" := by decide
  rcases hop with rfl | rfl
  · simp only [if_true, h2, redirect_to, h3, sh_launch_status]
  · simp only [e1, if_false, if_true, h2, redirect_to, h3, sh_launch_status]

theorem sh_execute_input_failed (h : Host) (p : Proc) (a0 : CStr) (rest pre more : List CStr)
    (hnb : a0 ∉ builtin_str) (hsplit : a0 :: rest = pre ++ cstr "<" :: more)
    (hno : ∀ t ∈ pre, is_redirect t = false) (hfail : more.head? = none ∨ h.open_result = none) :
    sh_execute h p (vector_of (a0 :: rest)) =
      some (1, (p.log (Event.sys_open more.head? OpenFlags.rdonly (-1))).log
        (Event.diag "1730sh: Input file not found!"), vector_of (a0 :: rest)) := by
  rw [sh_execute_external h p a0 rest hnb, hsplit, redirect_loop_operator h p pre _ more hno]
  obtain ⟨h1, h2, _⟩ := vector_of_get_operator pre (cstr "<") more
  have e1 : ¬ cstr "<" = cstr ">" := by decide
  have e2 : ¬ cstr "<" = cstr ">>" := by decide
  rw [redirect_loop, h1]
  simp only [e1, e2, if_false, if_true, h2,
    sys_open_failed h p more.head? OpenFlags.rdonly hfail]

theorem sh_execute_input (h : Host) (p : Proc) (a0 : CStr) (rest pre more : List CStr)
    (hnb : a0 ∉ builtin_str) (hsplit : a0 :: rest = pre ++ cstr "<" :: more)
    (hno : ∀ t ∈ pre, is_redirect t = false)
    (hok : ¬ (more.head? = none ∨ h.open_result = none)) :
    sh_execute h p (vector_of (a0 :: rest)) =
      some (1,
        (sh_launch h
          (sys_close (sys_dup2 (sys_open h p more.head? OpenFlags.rdonly).2
            (sys_open h p more.head? OpenFlags.rdonly).1 0)
            (sys_open h p more.head? OpenFlags.rdonly).1)
          (List.map some pre ++ none :: vector_of more)).2,
        List.map some pre ++ none :: vector_of more) := by
  rw [sh_execute_external h p a0 rest hnb, hsplit, redirect_loop_operator h p pre _ more hno]
  obtain ⟨h1, h2, h3⟩ := vector_of_get_operator pre (cstr "<") more
  have hne : ¬ (sys_open h p more.head? OpenFlags.rdonly).1 = -1 := by
    rw [sys_open_fails_iff]; exact hok
  have e1 : ¬ cstr "<" = cstr ">" := by decide
  have e2 : ¬ cstr "<" = cstr ">>" := by decide
  rw [redirect_loop, h1]
  simp only [e1, e2, if_false, if_true, h2, hne, redirect_to, h3, sh_launch_status]


theorem first_redirect_of_split (tokens : List CStr) (op : CStr) (more : List CStr)
    (hdw : tokens.dropWhile (fun t => !is_redirect t) = op :: more) :
    first_redirect tokens = some op ∧ redirect_target tokens = more.head? := by
  simp only [first_redirect, redirect_target, hdw]
  cases more <;> simp

theorem is_redirect_cases (op : CStr) (h : is_redirect op = true) :
    op = cstr ">" ∨ op = cstr ">>" ∨ op = cstr "<" := by
  simpa [is_redirect] using h

/-- C2: for every argument vector whose first token is not a built-in name,
`sh_execute` returns 1 and enters `sh_launch` at most once, with the vector as
it is when it returns: never when the first operator is `<` and its file cannot
be opened, and otherwise exactly once, the tokens `execvp` sees being the tokens
strictly before the first `>`, `>>` or `<`; with no such token the vector is
the input vector unchanged.  The token `hi>out` is not an operator. -/
theorem sh_execute_launch_vector (h : Host) (p : Proc) (a0 : CStr) (rest : List CStr)
    (hnb : a0 ∉ builtin_str) :
    ∃ p1 args1, sh_execute h p (vector_of (a0 :: rest)) = some (1, p1, args1) ∧
      (input_redirect_fails h (a0 :: rest) = true → launched p1.trace = launched p.trace) ∧
      (input_redirect_fails h (a0 :: rest) = false →
        launched p1.trace = launched p.trace ++ [args1] ∧
        argv_of args1 = (a0 :: rest).takeWhile (fun t => !is_redirect t) ∧
        ((∀ t ∈ a0 :: rest, is_redirect t = false) → args1 = vector_of (a0 :: rest))) ∧
      is_redirect (cstr "hi>out") = false := by
  rcases tokens_split (a0 :: rest) with ⟨hno, htw, hdw⟩ | ⟨pre, op, more, hsplit, hno, hop, htw, hdw⟩
  · refine ⟨_, _, sh_execute_no_operator h p a0 rest hnb hno, ?_, ?_, by decide⟩
    · intro hf
      simp [input_redirect_fails, first_redirect, hdw] at hf
    · intro _
      exact ⟨launched_sh_launch h p _, by rw [argv_of_vector_of, htw], fun _ => rfl⟩
  · obtain ⟨hfirst, htarget⟩ := first_redirect_of_split (a0 :: rest) op more hdw
    have hmem : op ∈ a0 :: rest := by rw [hsplit]; simp
    have hnotall : ¬ ∀ t ∈ a0 :: rest, is_redirect t = false := by
      intro hall
      have := hall op hmem
      rw [hop] at this
      exact absurd this (by decide)
    rcases is_redirect_cases op hop with hgt | hgt | hlt
    · refine ⟨_, _, sh_execute_output h p a0 rest pre more op hnb hsplit hno (Or.inl hgt),
        ?_, ?_, by decide⟩
      · intro hf
        have e : ¬ (some op = some (cstr "<")) := by rw [hgt]; decide
        simp [input_redirect_fails, hfirst, e] at hf
      · intro _
        refine ⟨?_, by rw [argv_of_truncated, htw], fun hall => absurd hall hnotall⟩
        rw [launched_sh_launch, launched_sys_close, launched_sys_dup2, launched_sys_open]
    · refine ⟨_, _, sh_execute_output h p a0 rest pre more op hnb hsplit hno (Or.inr hgt),
        ?_, ?_, by decide⟩
      · intro hf
        have e : ¬ (some op = some (cstr "<")) := by rw [hgt]; decide
        simp [input_redirect_fails, hfirst, e] at hf
      · intro _
        refine ⟨?_, by rw [argv_of_truncated, htw], fun hall => absurd hall hnotall⟩
        rw [launched_sh_launch, launched_sys_close, launched_sys_dup2, launched_sys_open]
    · subst hlt
      have hfails : input_redirect_fails h (a0 :: rest) = true ↔
          (more.head? = none ∨ h.open_result = none) := by
        rw [input_redirect_fails, hfirst, htarget]
        simp [or_comm]
      by_cases hbad : more.head? = none ∨ h.open_result = none
      · refine ⟨_, _, sh_execute_input_failed h p a0 rest pre more hnb hsplit hno hbad,
          ?_, ?_, by decide⟩
        · intro _
          rw [launched_log _ _ (by intro a; simp), launched_log _ _ (by intro a; simp)]
        · intro hf
          rw [← hfails, hf] at hbad
          exact absurd hbad (by decide)
      · refine ⟨_, _, sh_execute_input h p a0 rest pre more hnb hsplit hno hbad,
          ?_, ?_, by decide⟩
        · intro hf
          exact absurd (hfails.mp hf) hbad
        · intro _
          refine ⟨?_, by rw [argv_of_truncated, htw], fun hall => absurd hall hnotall⟩
          rw [launched_sh_launch, launched_sys_close, launched_sys_dup2, launched_sys_open]

/-- Witness of C2: `echo hi > out extra` on the sample host. -/
theorem sh_execute_launch_vector_witness :
    cstr "echo" ∉ builtin_str ∧
    ∃ p1 args1, sh_execute sample_host sample_proc
        (vector_of (cstr "echo" :: [cstr "hi", cstr ">", cstr "out", cstr "extra"]))
          = some (1, p1, args1) ∧
      (input_redirect_fails sample_host
          (cstr "echo" :: [cstr "hi", cstr ">", cstr "out", cstr "extra"]) = true →
        launched p1.trace = launched sample_proc.trace) ∧
      (input_redirect_fails sample_host
          (cstr "echo" :: [cstr "hi", cstr ">", cstr "out", cstr "extra"]) = false →
        launched p1.trace = launched sample_proc.trace ++ [args1] ∧
        argv_of args1 = (cstr "echo" :: [cstr "hi", cstr ">", cstr "out", cstr "extra"]).takeWhile
          (fun t => !is_redirect t) ∧
        ((∀ t ∈ cstr "echo" :: [cstr "hi", cstr ">", cstr "out", cstr "extra"],
            is_redirect t = false) →
          args1 = vector_of (cstr "echo" :: [cstr "hi", cstr ">", cstr "out", cstr "extra"]))) ∧
      is_redirect (cstr "hi>out") = false :=
  ⟨by decide, sh_execute_launch_vector sample_host sample_proc (cstr "echo")
    [cstr "hi", cstr ">", cstr "out", cstr "extra"] (by decide)⟩


/-- C3: when the first redirection operator of a non-built-in vector is `<` and
its file cannot be opened (the host refuses, or no name follows), `sh_execute`
returns 1 with the vector, the descriptor table and the working directory as
they were; the only events are the failed `open` and the diagnostic, so
`sh_launch` is not entered and no child is created. -/
theorem sh_execute_input_open_failure (h : Host) (p : Proc) (a0 : CStr)
    (rest pre more : List CStr) (hnb : a0 ∉ builtin_str)
    (hsplit : a0 :: rest = pre ++ cstr "<" :: more)
    (hno : ∀ t ∈ pre, is_redirect t = false)
    (hfail : more.head? = none ∨ h.open_result = none) :
    ∃ p1, sh_execute h p (vector_of (a0 :: rest)) = some (1, p1, vector_of (a0 :: rest)) ∧
      p1.fds = p.fds ∧ p1.cwd = p.cwd ∧
      p1.trace = p.trace ++ [Event.sys_open more.head? OpenFlags.rdonly (-1),
        Event.diag "1730sh: Input file not found!"] ∧
      launched p1.trace = launched p.trace := by
  refine ⟨_, sh_execute_input_failed h p a0 rest pre more hnb hsplit hno hfail, rfl, rfl, ?_, ?_⟩
  · simp [Proc.log]
  · rw [launched_log _ _ (by intro a; simp), launched_log _ _ (by intro a; simp)]

/-- Witness of C3: `cat < missing.txt` on a host that refuses the `open`. -/
theorem sh_execute_input_open_failure_witness :
    ∃ p1, sh_execute refusing_host sample_proc
        (vector_of (cstr "cat" :: [cstr "<", cstr "missing.txt"]))
          = some (1, p1, vector_of (cstr "cat" :: [cstr "<", cstr "missing.txt"])) ∧
      p1.fds = sample_proc.fds ∧ p1.cwd = sample_proc.cwd ∧
      p1.trace = sample_proc.trace ++
        [Event.sys_open [cstr "missing.txt"].head? OpenFlags.rdonly (-1),
          Event.diag "1730sh: Input file not found!"] ∧
      launched p1.trace = launched sample_proc.trace :=
  sh_execute_input_open_failure refusing_host sample_proc (cstr "cat")
    [cstr "<", cstr "missing.txt"] [cstr "cat"] [cstr "missing.txt"] (by decide) rfl
    (by decide) (Or.inr rfl)

theorem vector_of_get_one (a0 : CStr) (rest : List CStr) :
    (vector_of (a0 :: rest)).get? 1 = some rest.head? := by
  cases rest <;> simp [vector_of]

theorem lsh_cd_returns (h : Host) (p : Proc) (a0 : CStr) (rest : List CStr) :
    ∃ p1, lsh_cd h p (vector_of (a0 :: rest)) = some (1, p1) := by
  rw [lsh_cd, vector_of_get_one]
  cases rest.head? with
  | none => exact ⟨_, rfl⟩
  | some path =>
    cases h.chdir_result with
    | none => exact ⟨_, rfl⟩
    | some dir => exact ⟨_, rfl⟩

theorem sh_execute_external_returns (h : Host) (p : Proc) (a0 : CStr) (rest : List CStr)
    (hnb : a0 ∉ builtin_str) :
    ∃ p1 args1, sh_execute h p (vector_of (a0 :: rest)) = some (1, p1, args1) := by
  rcases tokens_split (a0 :: rest) with ⟨hno, _, _⟩ | ⟨pre, op, more, hsplit, hno, hop, _, _⟩
  · exact ⟨_, _, sh_execute_no_operator h p a0 rest hnb hno⟩
  · rcases is_redirect_cases op hop with hgt | hgt | hlt
    · exact ⟨_, _, sh_execute_output h p a0 rest pre more op hnb hsplit hno (Or.inl hgt)⟩
    · exact ⟨_, _, sh_execute_output h p a0 rest pre more op hnb hsplit hno (Or.inr hgt)⟩
    · subst hlt
      by_cases hbad : more.head? = none ∨ h.open_result = none
      · exact ⟨_, _, sh_execute_input_failed h p a0 rest pre more hnb hsplit hno hbad⟩
      · exact ⟨_, _, sh_execute_input h p a0 rest pre more hnb hsplit hno hbad⟩

theorem sh_execute_cd (h : Host) (p : Proc) (rest : List CStr) :
    sh_execute h p (vector_of (cstr "cd" :: rest)) =
      match lsh_cd h p (vector_of (cstr "cd" :: rest)) with
      | some r => some (r.1, r.2, vector_of (cstr "cd" :: rest))
      | none => none := by
  have hget : (vector_of (cstr "cd" :: rest)).get? 0 = some (some (cstr "cd")) := by
    simp [vector_of]
  rw [sh_execute, hget]
  simp only [builtin_scan_cd]

theorem sh_execute_exit (h : Host) (p : Proc) (rest : List CStr) :
    sh_execute h p (vector_of (cstr "exit" :: rest)) =
      some (0, p.log (Event.call_builtin (cstr "exit") (vector_of (cstr "exit" :: rest))),
        vector_of (cstr "exit" :: rest)) := by
  have hget : (vector_of (cstr "exit" :: rest)).get? 0 = some (some (cstr "exit")) := by
    simp [vector_of]
  rw [sh_execute, hget]
  simp only [builtin_scan_exit, lsh_exit]

theorem sh_execute_empty (h : Host) (p : Proc) :
    sh_execute h p (vector_of []) = some (1, p, vector_of []) := rfl

/-- C4: on every sentinel-terminated vector and under every answer of the host,
`sh_execute` returns, and its value is 0 when the first token is exactly `exit`
and 1 in every other case (empty vector, `cd`, failed redirection, failed
`fork`, external command with any way of ending). -/
theorem sh_execute_stop_iff_exit (h : Host) (p : Proc) (tokens : List CStr) :
    ∃ status p1 args1, sh_execute h p (vector_of tokens) = some (status, p1, args1) ∧
      (status = 0 ↔ tokens.head? = some (cstr "exit")) ∧
      (tokens.head? ≠ some (cstr "exit") → status = 1) := by
  cases tokens with
  | nil => exact ⟨1, p, _, sh_execute_empty h p, by simp, fun _ => rfl⟩
  | cons a0 rest =>
    by_cases hexit : a0 = cstr "exit"
    · subst hexit
      exact ⟨0, _, _, sh_execute_exit h p rest, by simp, fun hne => absurd rfl hne⟩
    · by_cases hcd : a0 = cstr "cd"
      · subst hcd
        obtain ⟨p1, hp1⟩ := lsh_cd_returns h p (cstr "cd") rest
        refine ⟨1, p1, vector_of (cstr "cd" :: rest), ?_, by simp [hexit], fun _ => rfl⟩
        rw [sh_execute_cd, hp1]
      · have hnb : a0 ∉ builtin_str := by simp [builtin_str, hcd, hexit]
        obtain ⟨p1, args1, hrun⟩ := sh_execute_external_returns h p a0 rest hnb
        exact ⟨1, p1, args1, hrun, by simp [hexit], fun _ => rfl⟩

theorem maximal_runs_all_delim (line : CStr) (hall : ∀ c ∈ line, c ∈ SH_TOK_DELIM) :
    maximal_runs line = [] := by
  have hdrop : line.dropWhile (is_delim SH_TOK_DELIM) = [] := by
    rw [List.dropWhile_eq_nil_iff]
    intro c hc
    simpa [is_delim] using hall c hc
  rw [← maximal_runs_dropWhile, hdrop, maximal_runs_nil]

/-- C5: a line that is empty or made of delimiters only gives the vector that
holds the sentinel alone, and `sh_execute` on it returns 1 leaving the process
as it was, trace included: no launch, no built-in, no `open`, no rebinding. -/
theorem blank_line_is_noop (h : Host) (p : Proc) (line : CStr)
    (hall : ∀ c ∈ line, c ∈ SH_TOK_DELIM) :
    sh_split_line line = some [none] ∧ sh_execute h p [none] = some (1, p, [none]) := by
  refine ⟨?_, rfl⟩
  rw [sh_split_line_eq, maximal_runs_all_delim line hall]
  rfl

/-- Witness of C5: the line made of a space, a tab and a space. -/
theorem blank_line_is_noop_witness :
    sh_split_line [32, 9, 32] = some [none] ∧
      sh_execute sample_host sample_proc [none] = some (1, sample_proc, [none]) :=
  blank_line_is_noop sample_host sample_proc [32, 9, 32] (by decide)


theorem lsh_cd_effect (h : Host) (p : Proc) (a0 : CStr) (rest : List CStr) :
    ∃ p1 tail, lsh_cd h p (vector_of (a0 :: rest)) = some (1, p1) ∧ p1.fds = p.fds ∧
      p1.trace = p.trace ++ Event.call_builtin (cstr "cd") (vector_of (a0 :: rest)) :: tail ∧
      (∀ e ∈ tail, touches_streams_or_launches e = false ∧ is_quiet e = true) := by
  rw [lsh_cd, vector_of_get_one]
  cases rest.head? with
  | none =>
    refine ⟨_, [Event.diag "lsh: expected argument to \"cd\"", Event.sys_getcwd], rfl, rfl,
      by simp [Proc.log], ?_⟩
    intro e he
    simp only [List.mem_cons, List.mem_singleton, List.not_mem_nil, or_false] at he
    rcases he with rfl | rfl <;> exact ⟨rfl, rfl⟩
  | some path =>
    cases h.chdir_result with
    | none =>
      refine ⟨_, [Event.sys_chdir path false, Event.diag "lsh", Event.sys_getcwd], rfl, rfl,
        by simp [Proc.log], ?_⟩
      intro e he
      simp only [List.mem_cons, List.mem_singleton, List.not_mem_nil, or_false] at he
      rcases he with rfl | rfl | rfl <;> exact ⟨rfl, rfl⟩
    | some dir =>
      refine ⟨_, [Event.sys_chdir path true, Event.sys_getcwd], rfl, rfl,
        by simp [Proc.log], ?_⟩
      intro e he
      simp only [List.mem_cons, List.mem_singleton, List.not_mem_nil, or_false] at he
      rcases he with rfl | rfl <;> exact ⟨rfl, rfl⟩

/-- C9: when the first token is exactly `cd` or `exit`, `sh_execute` returns what
the built-in of that name returns on the full vector: the vector comes back
unchanged (no slot set to the sentinel), the descriptor table is unchanged, and
the events added are the call of the built-in with the whole vector followed
by events none of which opens a file, rebinds a descriptor or launches, whatever
operator tokens the vector holds.  The names `cdx`, `CD` and `exit1` match no
built-in. -/
theorem sh_execute_builtin_direct (h : Host) (p : Proc) (a0 : CStr) (rest : List CStr)
    (hb : a0 = cstr "cd" ∨ a0 = cstr "exit") :
    ∃ status p1 tail,
      sh_execute h p (vector_of (a0 :: rest)) = some (status, p1, vector_of (a0 :: rest)) ∧
      (if a0 = cstr "cd" then lsh_cd h p (vector_of (a0 :: rest))
        else lsh_exit h p (vector_of (a0 :: rest))) = some (status, p1) ∧
      p1.fds = p.fds ∧
      p1.trace = p.trace ++ Event.call_builtin a0 (vector_of (a0 :: rest)) :: tail ∧
      (∀ e ∈ tail, touches_streams_or_launches e = false) ∧
      cstr "cdx" ∉ builtin_str ∧ cstr "CD" ∉ builtin_str ∧ cstr "exit1" ∉ builtin_str := by
  rcases hb with rfl | rfl
  · obtain ⟨p1, tail, hrun, hfds, htrace, htail⟩ := lsh_cd_effect h p (cstr "cd") rest
    refine ⟨1, p1, tail, ?_, ?_, hfds, htrace, fun e he => (htail e he).1,
      by decide, by decide, by decide⟩
    · rw [sh_execute_cd, hrun]
    · simpa using hrun
  · refine ⟨0, _, [], sh_execute_exit h p rest, ?_, rfl, by simp [Proc.log], by simp,
      by decide, by decide, by decide⟩
    have e : ¬ cstr "exit" = cstr "cd" := by decide
    simp only [e, if_false, lsh_exit]

/-- Witness of C9: `cd > out` on the sample host. -/
theorem sh_execute_builtin_direct_witness :
    ∃ status p1 tail,
      sh_execute sample_host sample_proc (vector_of (cstr "cd" :: [cstr ">", cstr "out"]))
        = some (status, p1, vector_of (cstr "cd" :: [cstr ">", cstr "out"])) ∧
      (if cstr "cd" = cstr "cd"
        then lsh_cd sample_host sample_proc (vector_of (cstr "cd" :: [cstr ">", cstr "out"]))
        else lsh_exit sample_host sample_proc (vector_of (cstr "cd" :: [cstr ">", cstr "out"])))
          = some (status, p1) ∧
      p1.fds = sample_proc.fds ∧
      p1.trace = sample_proc.trace ++
        Event.call_builtin (cstr "cd") (vector_of (cstr "cd" :: [cstr ">", cstr "out"])) :: tail ∧
      (∀ e ∈ tail, touches_streams_or_launches e = false) ∧
      cstr "cdx" ∉ builtin_str ∧ cstr "CD" ∉ builtin_str ∧ cstr "exit1" ∉ builtin_str :=
  sh_execute_builtin_direct sample_host sample_proc (cstr "cd") [cstr ">", cstr "out"]
    (Or.inl rfl)

/-- C10: on every vector that holds at least the command name, `lsh_cd` returns 1.
The working directory afterwards differs from the one before only if a
second token is present and the host accepted the `chdir` to it; with no
second token no `chdir` event occurs and the directory is unchanged; when the
host refuses, the directory is unchanged. -/
theorem lsh_cd_working_directory (h : Host) (p : Proc) (a0 : CStr) (rest : List CStr) :
    ∃ p1, lsh_cd h p (vector_of (a0 :: rest)) = some (1, p1) ∧
      (p1.cwd ≠ p.cwd → ∃ path dir, rest.head? = some path ∧ h.chdir_result = some dir ∧
        p1.cwd = dir ∧ Event.sys_chdir path true ∈ p1.trace) ∧
      (rest = [] → p1.cwd = p.cwd ∧
        (p1.trace.filter is_chdir) = (p.trace.filter is_chdir)) ∧
      (h.chdir_result = none → p1.cwd = p.cwd) := by
  rw [lsh_cd, vector_of_get_one]
  cases hrest : rest.head? with
  | none =>
    refine ⟨_, rfl, fun hne => absurd rfl hne, fun _ => ⟨rfl, ?_⟩, fun _ => rfl⟩
    simp [Proc.log, List.filter_append, is_chdir]
  | some path =>
    have hne : rest ≠ [] := by
      intro hnil
      rw [hnil] at hrest
      exact absurd hrest (by simp)
    cases hc : h.chdir_result with
    | none =>
      exact ⟨_, rfl, fun hne => absurd rfl hne, fun hnil => absurd hnil hne, fun _ => rfl⟩
    | some dir =>
      refine ⟨_, rfl, fun _ => ⟨path, dir, rfl, rfl, rfl, ?_⟩, fun hnil => absurd hnil hne,
        fun hnone => absurd hnone (by simp)⟩
      simp [Proc.log]


/-! ## Proofs: line reader -/

theorem char_to_int_eq_EOF (b : Nat) : char_to_int (b % 256) = EOF ↔ b % 256 = 255 := by
  unfold char_to_int EOF
  have := Nat.mod_lt b (by decide : 256 > 0)
  split <;> omega

theorem char_to_int_eq_newline (b : Nat) : char_to_int (b % 256) = 10 ↔ b % 256 = 10 := by
  unfold char_to_int
  have := Nat.mod_lt b (by decide : 256 > 0)
  split <;> omega

theorem int_to_char_char_to_int (b : Nat) : int_to_char (char_to_int (b % 256)) = b % 256 := by
  unfold char_to_int int_to_char
  have := Nat.mod_lt b (by decide : 256 > 0)
  split <;> omega

theorem line_end_iff (b : Nat) : line_end b = true ↔ (b % 256 = 255 ∨ b % 256 = 10) := by
  simp [line_end, char_to_int_eq_EOF, char_to_int_eq_newline]

theorem my_read_at_end (st : ReadState) (hi : st.i = 0) :
    my_read st (some []) = some (EOF, { buf := st.buf, bufp := 0, i := -1 }, some []) := by
  simp [my_read, hi, sys_read, INT_MIN]

theorem my_read_byte (st : ReadState) (hi : st.i = 0) (hbuf : st.buf ≠ []) (b : Nat)
    (rest : List Nat) :
    my_read st (some (b :: rest)) =
      some (char_to_int (b % 256), { buf := st.buf.set 0 (b % 256), bufp := 1, i := 0 },
        some rest) := by
  cases hb : st.buf with
  | nil => exact absurd hb hbuf
  | cons x xs => simp [my_read, hi, sys_read, hb, INT_MIN]

theorem my_read_after_end (st : ReadState) (hi : st.i < 0) (hmin : INT_MIN < st.i)
    (stream : Option (List Nat)) :
    my_read st stream = some (EOF, { st with i := st.i - 1 }, stream) := by
  have h1 : ¬ st.i = 0 := by omega
  have h2 : ¬ st.i - 1 ≥ 0 := by omega
  have h3 : ¬ st.i - 1 < INT_MIN := by omega
  simp only [my_read, h1, h2, h3, if_false]

theorem my_read_overflow (st : ReadState) (hi : st.i ≤ INT_MIN)
    (stream : Option (List Nat)) : my_read st stream = none := by
  have h1 : ¬ st.i = 0 := by unfold INT_MIN at hi; omega
  have h3 : st.i - 1 < INT_MIN := by omega
  simp only [my_read, h1, h3, if_false, if_true]


theorem sh_read_loop_spec : ∀ (s : List Nat) (fuel bufsize : Nat) (buffer : List Nat)
    (st : ReadState), st.i = 0 → st.buf ≠ [] → buffer.length < bufsize → s.length + 1 ≤ fuel →
    ∃ st1, sh_read_loop fuel bufsize buffer.length buffer st (some s)
        = some (buffer ++ (s.takeWhile (fun b => !line_end b)).map (fun b => b % 256) ++ [0],
            st1, some ((s.dropWhile (fun b => !line_end b)).drop 1)) ∧
      st1.buf ≠ [] ∧
      st1.i = (if s.dropWhile (fun b => !line_end b) = [] then -1 else 0) := by
  intro s
  induction s with
  | nil =>
    intro fuel bufsize buffer st hi hbuf hcap hfuel
    obtain ⟨fuel, rfl⟩ : ∃ k, fuel = k + 1 := ⟨fuel - 1, by simp at hfuel; omega⟩
    refine ⟨{ buf := st.buf, bufp := 0, i := -1 }, ?_, hbuf, by simp⟩
    simp [sh_read_loop, my_read_at_end st hi, store_at_end _ _ _ hcap]
  | cons b rest ih =>
    intro fuel bufsize buffer st hi hbuf hcap hfuel
    obtain ⟨fuel, rfl⟩ : ∃ k, fuel = k + 1 := ⟨fuel - 1, by simp at hfuel; omega⟩
    have hset : st.buf.set 0 (b % 256) ≠ [] := by
      cases hb : st.buf with
      | nil => exact absurd hb hbuf
      | cons x xs => simp
    rw [sh_read_loop, my_read_byte st hi hbuf b rest]
    by_cases hend : line_end b = true
    · have hc : char_to_int (b % 256) = EOF ∨ char_to_int (b % 256) = 10 := by
        simpa [line_end] using hend
      refine ⟨{ buf := st.buf.set 0 (b % 256), bufp := 1, i := 0 }, ?_, hset, by simp [hend]⟩
      simp [hc, hend, store_at_end _ _ _ hcap]
    · have hc : ¬ (char_to_int (b % 256) = EOF ∨ char_to_int (b % 256) = 10) := by
        simpa [line_end] using hend
      have hend' : line_end b = false := by simpa using hend
      have hcap1 : (buffer ++ [b % 256]).length <
          (if buffer.length + 1 ≥ bufsize then bufsize + SH_RL_BUFSIZE else bufsize) := by
        simp only [List.length_append, List.length_singleton, SH_RL_BUFSIZE]
        split <;> omega
      obtain ⟨st1, hrun, hb1, hi1⟩ := ih fuel
        (if buffer.length + 1 ≥ bufsize then bufsize + SH_RL_BUFSIZE else bufsize)
        (buffer ++ [b % 256]) { buf := st.buf.set 0 (b % 256), bufp := 1, i := 0 } rfl hset hcap1
        (by simp at hfuel ⊢; omega)
      refine ⟨st1, ?_, hb1, by simpa [hend'] using hi1⟩
      simp only [hc, if_false, int_to_char_char_to_int, store_at_end _ _ _ hcap]
      simp only [List.length_append, List.length_singleton] at hrun
      rw [hrun]
      simp [hend']

theorem sh_read_line_spec (st : ReadState) (hi : st.i = 0) (hbuf : st.buf ≠ []) (s : List Nat) :
    ∃ st1, sh_read_line st (some s)
        = some ((s.takeWhile (fun b => !line_end b)).map (fun b => b % 256) ++ [0], st1,
            some ((s.dropWhile (fun b => !line_end b)).drop 1)) ∧
      st1.buf ≠ [] ∧
      st1.i = (if s.dropWhile (fun b => !line_end b) = [] then -1 else 0) := by
  have := sh_read_loop_spec s (stream_length (some s) + st.i.toNat + 2) SH_RL_BUFSIZE [] st hi
    hbuf (by decide) (by simp [stream_length]; omega)
  simpa [sh_read_line] using this

theorem sh_read_line_after_end (st : ReadState) (hi : st.i < 0) (hmin : INT_MIN < st.i)
    (stream : Option (List Nat)) :
    sh_read_line st stream = some ([0], { st with i := st.i - 1 }, stream) := by
  have hfuel : stream_length stream + st.i.toNat + 2
      = (stream_length stream + st.i.toNat + 1) + 1 := by
    omega
  rw [sh_read_line, hfuel, sh_read_loop, my_read_after_end st hi hmin]
  simp [store, SH_RL_BUFSIZE]

theorem sh_read_line_overflow (st : ReadState) (hi : st.i ≤ INT_MIN)
    (stream : Option (List Nat)) : sh_read_line st stream = none := by
  have hfuel : stream_length stream + st.i.toNat + 2
      = (stream_length stream + st.i.toNat + 1) + 1 := by
    omega
  rw [sh_read_line, hfuel, sh_read_loop, my_read_overflow st hi]


theorem takeWhile_congr_mem {α : Type} (f g : α → Bool) : ∀ (l : List α),
    (∀ x ∈ l, f x = g x) → l.takeWhile f = l.takeWhile g := by
  intro l
  induction l with
  | nil => intro _; rfl
  | cons x rest ih =>
    intro hfg
    simp only [List.takeWhile_cons, hfg x (by simp)]
    rw [ih (fun y hy => hfg y (by simp [hy]))]

theorem dropWhile_congr_mem {α : Type} (f g : α → Bool) : ∀ (l : List α),
    (∀ x ∈ l, f x = g x) → l.dropWhile f = l.dropWhile g := by
  intro l
  induction l with
  | nil => intro _; rfl
  | cons x rest ih =>
    intro hfg
    simp only [List.dropWhile_cons, hfg x (by simp)]
    rw [ih (fun y hy => hfg y (by simp [hy]))]

theorem sh_read_line_to_newline (st : ReadState) (hi : st.i = 0) (hbuf : st.buf ≠ [])
    (s : List Nat) (hbytes : ∀ b ∈ s, b < 255) :
    ∃ st1, sh_read_line st (some s)
        = some (s.takeWhile (fun b => decide (b ≠ 10)) ++ [0], st1,
            some ((s.dropWhile (fun b => decide (b ≠ 10))).drop 1)) := by
  obtain ⟨st1, hrun, _, _⟩ := sh_read_line_spec st hi hbuf s
  refine ⟨st1, ?_⟩
  have hpred : ∀ b ∈ s, (!line_end b) = decide (b ≠ 10) := by
    intro b hb
    have hlt := hbytes b hb
    have hmod : b % 256 = b := Nat.mod_eq_of_lt (by omega)
    cases hle : line_end b with
    | true =>
      have := (line_end_iff b).mp hle
      rw [hmod] at this
      have : b = 10 := by omega
      simp [this]
    | false =>
      have hne : ¬ (b % 256 = 255 ∨ b % 256 = 10) := by
        rw [← line_end_iff, hle]; simp
      rw [hmod] at hne
      simp; omega
  have htake := takeWhile_congr_mem _ _ s hpred
  have hdrop := dropWhile_congr_mem _ _ s hpred
  have hmap : (s.takeWhile (fun b => decide (b ≠ 10))).map (fun b => b % 256)
      = s.takeWhile (fun b => decide (b ≠ 10)) := by
    have : ∀ b ∈ s.takeWhile (fun b => decide (b ≠ 10)), b % 256 = b := by
      intro b hb
      have := hbytes b ((List.takeWhile_prefix _).subset hb)
      exact Nat.mod_eq_of_lt (by omega)
    conv_rhs => rw [← List.map_id (s.takeWhile (fun b => decide (b ≠ 10)))]
    exact List.map_congr_left this
  rw [hrun, htake, hdrop, hmap]

/-- C6 (what the code does at the failing input): with the bytes `a`, 0xFF, `b`,
newline on standard input, `my_read` hands the byte 0xFF over as -1, which
is `EOF`, so `sh_read_line` returns the buffer `a` with its terminator and
leaves `b` and the newline unread. -/
theorem sh_read_line_stops_at_byte_255 :
    ∃ st1, sh_read_line my_read_init (some [97, 255, 98, 10])
      = some ([97, 0], st1, some [98, 10]) := by
  obtain ⟨st1, hrun, _, _⟩ := sh_read_line_spec my_read_init rfl (by decide) [97, 255, 98, 10]
  refine ⟨st1, ?_⟩
  have e1 : line_end 97 = false := by decide
  have e2 : line_end 255 = true := by decide
  rw [hrun]
  simp [List.takeWhile_cons, List.dropWhile_cons, e1, e2]


/-! ## Proofs: the descriptor table -/

theorem fd_get_nat (t : FdTable) (n : Nat) : fd_get t (n : Int) = t.getD n none := by
  simp [fd_get]

theorem fd_get_neg (t : FdTable) (k : Int) (hk : k < 0) : fd_get t k = none := by
  simp [fd_get, hk]

theorem fd_put_nil (n : Nat) (d : Option Desc) :
    fd_put [] n d = List.replicate n none ++ [d] := by
  simp [fd_put]

theorem fd_put_cons_zero (a : Option Desc) (t : FdTable) (d : Option Desc) :
    fd_put (a :: t) 0 d = d :: t := by
  simp [fd_put]

theorem fd_put_cons_succ (a : Option Desc) (t : FdTable) (n : Nat) (d : Option Desc) :
    fd_put (a :: t) (n + 1) d = a :: fd_put t n d := by
  unfold fd_put
  by_cases h : n < t.length
  · simp [h]
  · simp [h]

theorem getD_replicate_none (n m : Nat) (d : Option Desc) :
    (List.replicate n (none : Option Desc) ++ [d]).getD m none = if m = n then d else none := by
  induction n generalizing m with
  | zero => cases m <;> simp
  | succ n ih =>
    cases m with
    | zero => simp [List.replicate_succ]
    | succ m => simpa [List.replicate_succ] using ih m

theorem getD_fd_put : ∀ (t : FdTable) (n m : Nat) (d : Option Desc),
    (fd_put t n d).getD m none = if m = n then d else t.getD m none := by
  intro t
  induction t with
  | nil =>
    intro n m d
    rw [fd_put_nil, getD_replicate_none]
    simp
  | cons a t ih =>
    intro n m d
    cases n with
    | zero =>
      rw [fd_put_cons_zero]
      cases m <;> simp
    | succ n =>
      rw [fd_put_cons_succ]
      cases m with
      | zero => simp
      | succ m => simpa using ih n m d

theorem fd_get_put_same (t : FdTable) (n : Nat) (d : Option Desc) :
    fd_get (fd_put t n d) (n : Int) = d := by
  rw [fd_get_nat, getD_fd_put]
  simp

theorem fd_get_put_other (t : FdTable) (n : Nat) (d : Option Desc) (k : Int)
    (hk : k ≠ (n : Int)) : fd_get (fd_put t n d) k = fd_get t k := by
  by_cases hneg : k < 0
  · rw [fd_get_neg _ _ hneg, fd_get_neg _ _ hneg]
  · have hk' : k = ((k.toNat : Nat) : Int) := by omega
    have hne : k.toNat ≠ n := by omega
    rw [hk', fd_get_nat, fd_get_nat, getD_fd_put]
    simp [hne]

theorem getD_lowest_free : ∀ (t : FdTable), t.getD (lowest_free t) none = none := by
  intro t
  induction t with
  | nil => rfl
  | cons a t ih =>
    cases a with
    | none => simp [lowest_free, List.findIdx_cons]
    | some d =>
      have : lowest_free (some d :: t) = lowest_free t + 1 := by
        simp [lowest_free, List.findIdx_cons]
      rw [this]
      simpa using ih

theorem fd_get_lowest_free (t : FdTable) : fd_get t (lowest_free t : Int) = none := by
  rw [fd_get_nat, getD_lowest_free]

theorem sys_open_fd_free (h : Host) (p : Proc) (path : Option CStr) (f : OpenFlags) :
    fd_get p.fds (sys_open h p path f).1 = none := by
  unfold sys_open
  split
  · exact fd_get_lowest_free p.fds
  · exact fd_get_neg _ _ (by simp)

theorem sys_open_keeps (h : Host) (p : Proc) (path : Option CStr) (f : OpenFlags) (k : Int)
    (d : Desc) (hk : fd_get p.fds k = some d) :
    fd_get (sys_open h p path f).2.fds k = some d := by
  unfold sys_open
  split
  · have hne : k ≠ (lowest_free p.fds : Int) := by
      intro he
      rw [he, fd_get_lowest_free] at hk
      exact absurd hk (by simp)
    simpa [fd_get_put_other _ _ _ _ hne] using hk
  · simpa [Proc.log] using hk

theorem sys_dup2_other (p : Proc) (a b k : Int) (hk : k ≠ b) :
    fd_get (sys_dup2 p a b).fds k = fd_get p.fds k := by
  unfold sys_dup2
  split
  · split
    · rfl
    · rename_i hb
      have hne : k ≠ ((b.toNat : Nat) : Int) := by omega
      simp [fd_get_put_other _ _ _ _ hne]
  · rfl

theorem sys_dup2_target (p : Proc) (a : Int) (n : Nat) (d : Desc)
    (ha : fd_get p.fds a = some d) :
    fd_get (sys_dup2 p a (n : Int)).fds (n : Int) = some d := by
  unfold sys_dup2
  rw [ha]
  have hn : ¬ ((n : Int) < 0) := by omega
  simp only [hn, if_false, Int.toNat_ofNat, fd_get_put_same]

theorem sys_close_other (p : Proc) (a k : Int) (hk : k ≠ a) :
    fd_get (sys_close p a).fds k = fd_get p.fds k := by
  unfold sys_close
  split
  · rename_i d hd
    have hpos : ¬ a < 0 := by
      intro hneg
      rw [fd_get_neg _ _ hneg] at hd
      exact absurd hd (by simp)
    have hne : k ≠ ((a.toNat : Nat) : Int) := by omega
    simp [fd_get_put_other _ _ _ _ hne]
  · rfl

theorem sys_dup2_trace (p : Proc) (a b : Int) :
    (sys_dup2 p a b).trace = p.trace ++ [Event.sys_dup2 a b] := by
  unfold sys_dup2
  split
  · split <;> rfl
  · rfl

theorem sys_close_trace (p : Proc) (a : Int) :
    (sys_close p a).trace = p.trace ++ [Event.sys_close a] := by
  unfold sys_close
  split <;> rfl

theorem sys_open_trace (h : Host) (p : Proc) (path : Option CStr) (f : OpenFlags) :
    (sys_open h p path f).2.trace
      = p.trace ++ [Event.sys_open path f (sys_open h p path f).1] := by
  unfold sys_open
  split <;> rfl

theorem wait_loop_frame (final : WaitStatus) : ∀ (stops : List Nat) (p : Proc),
    (wait_loop final stops p).fds = p.fds ∧
    ∃ evs, (wait_loop final stops p).trace = p.trace ++ evs ∧
      ∀ e ∈ evs, is_quiet e = true := by
  intro stops
  induction stops with
  | nil =>
    intro p
    exact ⟨rfl, [Event.sys_waitpid final], rfl, by simp [is_quiet]⟩
  | cons sig more ih =>
    intro p
    obtain ⟨hfds, evs, htrace, hq⟩ := ih (p.log (Event.sys_waitpid (WaitStatus.stopped sig)))
    refine ⟨by rw [wait_loop, hfds]; rfl, Event.sys_waitpid (WaitStatus.stopped sig) :: evs, ?_, ?_⟩
    · rw [wait_loop, htrace]; simp [Proc.log]
    · intro e he
      rcases List.mem_cons.mp he with rfl | he
      · rfl
      · exact hq e he

theorem sh_launch_frame (h : Host) (p : Proc) (args : List (Option CStr)) :
    (sh_launch h p args).2.fds = p.fds ∧
    ∃ evs, (sh_launch h p args).2.trace = p.trace ++ evs ∧ ∀ e ∈ evs, is_quiet e = true := by
  unfold sh_launch
  split
  · obtain ⟨hfds, evs, htrace, hq⟩ := wait_loop_frame h.child_end h.child_stops
      (((p.log (Event.call_launch args)).log (Event.sys_fork true)).log
        (Event.child (argv_of args) (fd_get p.fds 0) (fd_get p.fds 1)))
    refine ⟨by rw [hfds]; rfl, Event.call_launch args :: Event.sys_fork true ::
      Event.child (argv_of args) (fd_get p.fds 0) (fd_get p.fds 1) :: evs, ?_, ?_⟩
    · simp only [htrace]; simp [Proc.log]
    · intro e he
      simp only [List.mem_cons] at he
      rcases he with rfl | rfl | rfl | he
      · rfl
      · rfl
      · rfl
      · exact hq e he
  · refine ⟨rfl, [Event.call_launch args, Event.sys_fork false, Event.diag "1730sh:"], ?_, ?_⟩
    · simp [Proc.log]
    · intro e he
      simp only [List.mem_cons, List.mem_singleton, List.not_mem_nil, or_false] at he
      rcases he with rfl | rfl | rfl <;> rfl


/-! ## Proofs: the effect of one command -/

theorem is_quiet_spec (e : Event) (h : is_quiet e = true) :
    (∀ a b t, e ≠ Event.prompt a b t) ∧ rebound_fd e = none := by
  cases e <;> simp_all [is_quiet, rebound_fd]

theorem command_effect_refl (p : Proc) : command_effect p p :=
  ⟨fun _ _ _ _ hk => hk, [], by simp, by simp, by simp⟩

theorem command_effect_of_quiet (p p1 : Proc) (hfds : p1.fds = p.fds) (evs : List Event)
    (htrace : p1.trace = p.trace ++ evs) (hq : ∀ e ∈ evs, is_quiet e = true) :
    command_effect p p1 := by
  refine ⟨fun k d _ _ hk => by rw [hfds]; exact hk, evs, htrace, ?_, ?_⟩
  · intro e he
    exact (is_quiet_spec e (hq e he)).1
  · intro e he k hk
    rw [(is_quiet_spec e (hq e he)).2] at hk
    exact absurd hk (by simp)

theorem command_effect_launch (h : Host) (p : Proc) (args : List (Option CStr)) :
    command_effect p (sh_launch h p args).2 := by
  obtain ⟨hfds, evs, htrace, hq⟩ := sh_launch_frame h p args
  exact command_effect_of_quiet p _ hfds evs htrace hq

theorem command_effect_redirect (h : Host) (p : Proc) (path : Option CStr) (fl : OpenFlags)
    (t : Int) (ht : t = 0 ∨ t = 1) (args : List (Option CStr)) :
    command_effect p
      (sh_launch h (sys_close (sys_dup2 (sys_open h p path fl).2 (sys_open h p path fl).1 t)
        (sys_open h p path fl).1) args).2 := by
  obtain ⟨hfds, evs, htrace, hq⟩ := sh_launch_frame h
    (sys_close (sys_dup2 (sys_open h p path fl).2 (sys_open h p path fl).1 t)
      (sys_open h p path fl).1) args
  have hfree := sys_open_fd_free h p path fl
  refine ⟨?_, Event.sys_open path fl (sys_open h p path fl).1 ::
    Event.sys_dup2 (sys_open h p path fl).1 t :: Event.sys_close (sys_open h p path fl).1 :: evs,
    ?_, ?_, ?_⟩
  · intro k d hk0 hk1 hk
    have hkf : k ≠ (sys_open h p path fl).1 := by
      intro he
      rw [he, hfree] at hk
      exact absurd hk (by simp)
    have hkt : k ≠ t := by
      rcases ht with rfl | rfl
      · exact hk0
      · exact hk1
    rw [hfds, sys_close_other _ _ _ hkf, sys_dup2_other _ _ _ _ hkt]
    exact sys_open_keeps h p path fl k d hk
  · rw [htrace, sys_close_trace, sys_dup2_trace, sys_open_trace]
    simp
  · intro e he
    simp only [List.mem_cons] at he
    rcases he with rfl | rfl | rfl | he
    · intro a b; simp
    · intro a b; simp
    · intro a b; simp
    · exact (is_quiet_spec e (hq e he)).1
  · intro e he k hk
    simp only [List.mem_cons] at he
    rcases he with rfl | rfl | rfl | he
    · simp [rebound_fd] at hk
    · simp only [rebound_fd, Option.some.injEq] at hk
      subst hk
      rcases ht with rfl | rfl
      · exact Or.inl rfl
      · exact Or.inr (Or.inl rfl)
    · simp only [rebound_fd, Option.some.injEq] at hk
      subst hk
      exact Or.inr (Or.inr hfree)
    · rw [(is_quiet_spec e (hq e he)).2] at hk
      exact absurd hk (by simp)

theorem sh_execute_frame (h : Host) (p : Proc) (tokens : List CStr) :
    ∃ status p1 args1, sh_execute h p (vector_of tokens) = some (status, p1, args1) ∧
      (status = 0 ↔ tokens.head? = some (cstr "exit")) ∧ (status = 0 ∨ status = 1) ∧
      command_effect p p1 := by
  cases tokens with
  | nil => exact ⟨1, p, _, sh_execute_empty h p, by simp, Or.inr rfl, command_effect_refl p⟩
  | cons a0 rest =>
    by_cases hexit : a0 = cstr "exit"
    · subst hexit
      refine ⟨0, _, _, sh_execute_exit h p rest, by simp, Or.inl rfl, ?_⟩
      exact command_effect_of_quiet p _ rfl [Event.call_builtin (cstr "exit") _] rfl
        (by intro e he; simp only [List.mem_singleton] at he; subst he; rfl)
    · by_cases hcd : a0 = cstr "cd"
      · subst hcd
        obtain ⟨p1, tail, hrun, hfds, htrace, htail⟩ := lsh_cd_effect h p (cstr "cd") rest
        refine ⟨1, p1, vector_of (cstr "cd" :: rest), ?_, by simp [hexit], Or.inr rfl, ?_⟩
        · rw [sh_execute_cd, hrun]
        · refine command_effect_of_quiet p p1 hfds _ htrace ?_
          intro e he
          rcases List.mem_cons.mp he with rfl | he
          · rfl
          · exact (htail e he).2
      · have hnb : a0 ∉ builtin_str := by simp [builtin_str, hcd, hexit]
        rcases tokens_split (a0 :: rest) with
          ⟨hno, _, _⟩ | ⟨pre, op, more, hsplit, hno, hop, _, _⟩
        · exact ⟨1, _, _, sh_execute_no_operator h p a0 rest hnb hno, by simp [hexit],
            Or.inr rfl, command_effect_launch h p _⟩
        · rcases is_redirect_cases op hop with hgt | hgt | hlt
          · exact ⟨1, _, _, sh_execute_output h p a0 rest pre more op hnb hsplit hno (Or.inl hgt),
              by simp [hexit], Or.inr rfl, command_effect_redirect h p _ _ 1 (Or.inr rfl) _⟩
          · exact ⟨1, _, _, sh_execute_output h p a0 rest pre more op hnb hsplit hno (Or.inr hgt),
              by simp [hexit], Or.inr rfl, command_effect_redirect h p _ _ 1 (Or.inr rfl) _⟩
          · subst hlt
            by_cases hbad : more.head? = none ∨ h.open_result = none
            · refine ⟨1, _, _, sh_execute_input_failed h p a0 rest pre more hnb hsplit hno hbad,
                by simp [hexit], Or.inr rfl, ?_⟩
              exact command_effect_of_quiet p _ rfl
                [Event.sys_open more.head? OpenFlags.rdonly (-1),
                  Event.diag "1730sh: Input file not found!"] (by simp [Proc.log])
                (by
                  intro e he
                  simp only [List.mem_cons, List.mem_singleton, List.not_mem_nil,
                    or_false] at he
                  rcases he with rfl | rfl <;> rfl)
            · exact ⟨1, _, _, sh_execute_input h p a0 rest pre more hnb hsplit hno hbad,
                by simp [hexit], Or.inr rfl, command_effect_redirect h p _ _ 0 (Or.inl rfl) _⟩


theorem sys_open_cwd (h : Host) (p : Proc) (path : Option CStr) (fl : OpenFlags) :
    (sys_open h p path fl).2.cwd = p.cwd := by
  unfold sys_open
  split <;> rfl

theorem sys_close_cwd (p : Proc) (fd : Int) : (sys_close p fd).cwd = p.cwd := by
  unfold sys_close
  split <;> rfl

theorem sys_dup2_cwd (p : Proc) (oldfd newfd : Int) : (sys_dup2 p oldfd newfd).cwd = p.cwd := by
  unfold sys_dup2
  split
  · split <;> rfl
  · rfl

theorem wait_loop_cwd (final : WaitStatus) : ∀ (stops : List Nat) (p : Proc),
    (wait_loop final stops p).cwd = p.cwd := by
  intro stops
  induction stops with
  | nil => intro p; rfl
  | cons sig more ih => intro p; rw [wait_loop, ih]; rfl

theorem sh_launch_cwd (h : Host) (p : Proc) (args : List (Option CStr)) :
    (sh_launch h p args).2.cwd = p.cwd := by
  unfold sh_launch
  split
  · simp only [wait_loop_cwd]
    rfl
  · rfl

theorem lsh_cd_cwd (h : Host) (p : Proc) (args : List (Option CStr)) (r : Int × Proc)
    (hr : lsh_cd h p args = some r) : r.2.cwd = p.cwd ∨ h.chdir_result = some r.2.cwd := by
  unfold lsh_cd at hr
  split at hr
  · exact absurd hr (by simp)
  · simp only [Option.some.injEq] at hr
    subst hr
    exact Or.inl rfl
  · split at hr
    · rename_i dir hdir
      simp only [Option.some.injEq] at hr
      subst hr
      exact Or.inr hdir
    · simp only [Option.some.injEq] at hr
      subst hr
      exact Or.inl rfl

theorem sh_execute_cwd (h : Host) (p : Proc) (tokens : List CStr) (status : Int) (p1 : Proc)
    (args1 : List (Option CStr))
    (hrun : sh_execute h p (vector_of tokens) = some (status, p1, args1)) :
    p1.cwd = p.cwd ∨ h.chdir_result = some p1.cwd := by
  cases tokens with
  | nil =>
    rw [sh_execute_empty] at hrun
    simp only [Option.some.injEq, Prod.mk.injEq] at hrun
    rw [← hrun.2.1]
    exact Or.inl rfl
  | cons a0 rest =>
    by_cases hexit : a0 = cstr "exit"
    · subst hexit
      rw [sh_execute_exit] at hrun
      simp only [Option.some.injEq, Prod.mk.injEq] at hrun
      rw [← hrun.2.1]
      exact Or.inl rfl
    · by_cases hcd : a0 = cstr "cd"
      · subst hcd
        rw [sh_execute_cd] at hrun
        cases hr : lsh_cd h p (vector_of (cstr "cd" :: rest)) with
        | none => rw [hr] at hrun; exact absurd hrun (by simp)
        | some r =>
          rw [hr] at hrun
          simp only [Option.some.injEq, Prod.mk.injEq] at hrun
          rw [← hrun.2.1]
          exact lsh_cd_cwd h p _ r hr
      · have hnb : a0 ∉ builtin_str := by simp [builtin_str, hcd, hexit]
        left
        rcases tokens_split (a0 :: rest) with
          ⟨hno, _, _⟩ | ⟨pre, op, more, hsplit, hno, hop, _, _⟩
        · rw [sh_execute_no_operator h p a0 rest hnb hno] at hrun
          simp only [Option.some.injEq, Prod.mk.injEq] at hrun
          rw [← hrun.2.1, sh_launch_cwd]
        · rcases is_redirect_cases op hop with hgt | hgt | hlt
          · rw [sh_execute_output h p a0 rest pre more op hnb hsplit hno (Or.inl hgt)] at hrun
            simp only [Option.some.injEq, Prod.mk.injEq] at hrun
            rw [← hrun.2.1, sh_launch_cwd, sys_close_cwd, sys_dup2_cwd, sys_open_cwd]
          · rw [sh_execute_output h p a0 rest pre more op hnb hsplit hno (Or.inr hgt)] at hrun
            simp only [Option.some.injEq, Prod.mk.injEq] at hrun
            rw [← hrun.2.1, sh_launch_cwd, sys_close_cwd, sys_dup2_cwd, sys_open_cwd]
          · subst hlt
            by_cases hbad : more.head? = none ∨ h.open_result = none
            · rw [sh_execute_input_failed h p a0 rest pre more hnb hsplit hno hbad] at hrun
              simp only [Option.some.injEq, Prod.mk.injEq] at hrun
              rw [← hrun.2.1]
              rfl
            · rw [sh_execute_input h p a0 rest pre more hnb hsplit hno hbad] at hrun
              simp only [Option.some.injEq, Prod.mk.injEq] at hrun
              rw [← hrun.2.1, sh_launch_cwd, sys_close_cwd, sys_dup2_cwd, sys_open_cwd]

/-! ## Proofs: the shell loop -/

theorem restore_bindings (s : LoopState) (hs : StreamsSaved s) :
    fd_get (sys_dup2 (sys_dup2 s.proc s.saved_stdout 1) s.saved_stdin 0).fds 0
        = some Desc.orig_stdin ∧
    fd_get (sys_dup2 (sys_dup2 s.proc s.saved_stdout 1) s.saved_stdin 0).fds 1
        = some Desc.orig_stdout ∧
    ∀ k, k ≠ 0 → k ≠ 1 →
      fd_get (sys_dup2 (sys_dup2 s.proc s.saved_stdout 1) s.saved_stdin 0).fds k
        = fd_get s.proc.fds k := by
  have h1 : fd_get (sys_dup2 s.proc s.saved_stdout 1).fds 1 = some Desc.orig_stdout :=
    sys_dup2_target s.proc s.saved_stdout 1 _ hs.out_bound
  have h2 : fd_get (sys_dup2 s.proc s.saved_stdout 1).fds s.saved_stdin
      = some Desc.orig_stdin := by
    rw [sys_dup2_other _ _ _ _ hs.in_ne1]; exact hs.in_bound
  refine ⟨sys_dup2_target _ s.saved_stdin 0 _ h2, ?_, ?_⟩
  · rw [sys_dup2_other _ _ _ _ (by decide : (1 : Int) ≠ 0)]; exact h1
  · intro k hk0 hk1
    rw [sys_dup2_other _ _ _ _ hk0, sys_dup2_other _ _ _ _ hk1]

theorem sh_loop_body_spec (h : Host) (home_dir : CStr) (s : LoopState) (hs : StreamsSaved s) :
    match prompt_path s.proc.cwd home_dir with
    | none => sh_loop_body h home_dir s = none
    | some path =>
      match sh_read_line s.rd (some s.input) with
      | none => sh_loop_body h home_dir s = none
      | some (line, rd1, rest) =>
        ∃ status p3, sh_loop_body h home_dir s = some (status,
            { s with proc := p3, rd := rd1,
                     input := (rest.getD s.input).drop
                       (child_took h (p3.trace.drop (at_prompt s path).trace.length)),
                     iter := s.iter + 1,
                     executed := s.executed ++ [vector_of (maximal_runs (c_string line))] }) ∧
          (status = 0 ↔ exit_line line = true) ∧ (status = 0 ∨ status = 1) ∧
          command_effect (at_prompt s path) p3 ∧
          (p3.cwd = s.proc.cwd ∨ h.chdir_result = some p3.cwd) := by
  obtain ⟨hfd0, hfd1, _⟩ := restore_bindings s hs
  have hcwd : (sys_dup2 (sys_dup2 s.proc s.saved_stdout 1) s.saved_stdin 0).cwd
      = s.proc.cwd := by
    rw [sys_dup2_cwd, sys_dup2_cwd]
  cases hp : prompt_path s.proc.cwd home_dir with
  | none => simp only [sh_loop_body, hcwd, hp]
  | some path =>
    simp only
    have hstream : stdin_stream (at_prompt s path) s.input = some s.input := by
      simp [stdin_stream, at_prompt, Proc.log, hfd0]
    have hbody : sh_loop_body h home_dir s =
        match sh_read_line s.rd (some s.input) with
        | none => none
        | some (line, rd1, rest) =>
          match sh_split_line (c_string line) with
          | none => none
          | some args =>
            match sh_execute h (stdin_commit (at_prompt s path) s.input rest).1 args with
            | none => none
            | some (status, p3, _) =>
              some (status, { s with proc := p3, rd := rd1,
                                     input := (stdin_commit (at_prompt s path) s.input rest).2.drop
                                       (child_took h (p3.trace.drop
                                         (stdin_commit (at_prompt s path) s.input rest).1.trace.length)),
                                     iter := s.iter + 1, executed := s.executed ++ [args] }) := by
      simp only [sh_loop_body, hcwd, hp, hfd0, hfd1]
      rw [show (sys_dup2 (sys_dup2 s.proc s.saved_stdout 1) s.saved_stdin 0).log
          (Event.prompt (some Desc.orig_stdin) (some Desc.orig_stdout)
            (cstr "1730sh:" ++ path)) = at_prompt s path from rfl,
        hstream]
    rw [hbody]
    cases hread : sh_read_line s.rd (some s.input) with
    | none => rfl
    | some r =>
      obtain ⟨line, rd1, rest⟩ := r
      have hcommit : stdin_commit (at_prompt s path) s.input rest
          = (at_prompt s path, rest.getD s.input) := by
        have hfd : fd_get (at_prompt s path).fds 0 = some Desc.orig_stdin := by
          simpa [at_prompt, Proc.log] using hfd0
        cases rest <;> simp [stdin_commit, hfd]
      obtain ⟨status, p3, args1, hrun, hstat, h01, heff⟩ :=
        sh_execute_frame h (at_prompt s path) (maximal_runs (c_string line))
      have hdir := sh_execute_cwd h (at_prompt s path) (maximal_runs (c_string line))
        status p3 args1 hrun
      have hat : (at_prompt s path).cwd = s.proc.cwd := by
        show (sys_dup2 (sys_dup2 s.proc s.saved_stdout 1) s.saved_stdin 0).cwd = s.proc.cwd
        exact hcwd
      rw [hat] at hdir
      refine ⟨status, p3, ?_, ?_, h01, heff, hdir⟩
      · simp only [sh_split_line_eq, hcommit]
        rw [show List.map some (maximal_runs (c_string line)) ++ [none]
          = vector_of (maximal_runs (c_string line)) from rfl, hrun]
      · rw [hstat]; simp [exit_line]


theorem prompts_append (a b : List Event) : prompts (a ++ b) = prompts a ++ prompts b := by
  induction a with
  | nil => rfl
  | cons e rest ih => cases e <;> simp [prompts, ih]

theorem prompts_none (evs : List Event) (h : ∀ e ∈ evs, ∀ a b t, e ≠ Event.prompt a b t) :
    prompts evs = [] := by
  induction evs with
  | nil => rfl
  | cons e rest ih =>
    have hrest := ih (fun x hx => h x (by simp [hx]))
    have he := h e (by simp)
    cases e <;> simp_all [prompts]

theorem at_prompt_trace (s : LoopState) (path : CStr) :
    (at_prompt s path).trace = s.proc.trace ++ [Event.sys_dup2 s.saved_stdout 1,
      Event.sys_dup2 s.saved_stdin 0,
      Event.prompt (some Desc.orig_stdin) (some Desc.orig_stdout)
        (cstr "1730sh:" ++ path)] := by
  simp [at_prompt, Proc.log, sys_dup2_trace]

theorem at_prompt_fds (s : LoopState) (path : CStr) (hs : StreamsSaved s) (k : Int)
    (hk0 : k ≠ 0) (hk1 : k ≠ 1) : fd_get (at_prompt s path).fds k = fd_get s.proc.fds k := by
  have := (restore_bindings s hs).2.2 k hk0 hk1
  simpa [at_prompt, Proc.log] using this

theorem loop_inv_after_command (e s : LoopState) (hinv : LoopInv e s) (path : CStr)
    (p3 : Proc) (rd1 : ReadState) (input1 : List Nat) (ex : List (List (Option CStr)))
    (ph : Phase) (heff : command_effect (at_prompt s path) p3) :
    LoopInv e { s with proc := p3, rd := rd1, input := input1, iter := s.iter + 1,
                       executed := ex, phase := ph } := by
  obtain ⟨hkeep, evs, htrace, hnoprompt, hrebound⟩ := heff
  have hs := hinv.saved
  have hout : fd_get (at_prompt s path).fds s.saved_stdout = some Desc.orig_stdout := by
    rw [at_prompt_fds s path hs _ hs.out_ne0 hs.out_ne1]; exact hs.out_bound
  have hin : fd_get (at_prompt s path).fds s.saved_stdin = some Desc.orig_stdin := by
    rw [at_prompt_fds s path hs _ hs.in_ne0 hs.in_ne1]; exact hs.in_bound
  refine ⟨⟨hkeep _ _ hs.out_ne0 hs.out_ne1 hout, hkeep _ _ hs.in_ne0 hs.in_ne1 hin,
    hs.out_ne0, hs.out_ne1, hs.in_ne0, hs.in_ne1⟩, hinv.same_out, hinv.same_in, ?_, ?_⟩
  · show prompts p3.trace = _
    rw [htrace, prompts_append, prompts_none evs hnoprompt, at_prompt_trace, prompts_append,
      hinv.prompts_eq]
    simp [prompts, List.replicate_succ']
  · obtain ⟨old, hold, hq⟩ := hinv.no_rebind
    refine ⟨old ++ [Event.sys_dup2 s.saved_stdout 1, Event.sys_dup2 s.saved_stdin 0,
      Event.prompt (some Desc.orig_stdin) (some Desc.orig_stdout)
        (cstr "1730sh:" ++ path)] ++ evs, ?_, ?_⟩
    · show p3.trace = _
      rw [htrace, at_prompt_trace, hold]
      simp
    · intro ev hev
      rw [← hinv.same_out, ← hinv.same_in]
      simp only [List.mem_append, List.mem_cons, List.mem_singleton, List.not_mem_nil,
        or_false] at hev
      rcases hev with (hev | rfl | rfl | rfl) | hev
      · have := hq ev hev
        rw [← hinv.same_out, ← hinv.same_in] at this
        exact this
      · simp only [rebound_fd, ne_eq, Option.some.injEq]
        exact ⟨fun h => hs.out_ne1 h.symm, fun h => hs.in_ne1 h.symm⟩
      · simp only [rebound_fd, ne_eq, Option.some.injEq]
        exact ⟨fun h => hs.out_ne0 h.symm, fun h => hs.in_ne0 h.symm⟩
      · simp [rebound_fd]
      · constructor
        · intro hk
          rcases hrebound ev hev _ hk with h0 | h1 | hfree
          · exact hs.out_ne0 h0
          · exact hs.out_ne1 h1
          · rw [hout] at hfree; exact absurd hfree (by simp)
        · intro hk
          rcases hrebound ev hev _ hk with h0 | h1 | hfree
          · exact hs.in_ne0 h0
          · exact hs.in_ne1 h1
          · rw [hin] at hfree; exact absurd hfree (by simp)

theorem loop_inv_phase (e s : LoopState) (hinv : LoopInv e s) (ph : Phase) :
    LoopInv e { s with phase := ph } :=
  ⟨⟨hinv.saved.out_bound, hinv.saved.in_bound, hinv.saved.out_ne0, hinv.saved.out_ne1,
    hinv.saved.in_ne0, hinv.saved.in_ne1⟩, hinv.same_out, hinv.same_in, hinv.prompts_eq,
    hinv.no_rebind⟩

theorem loop_inv_step (hosts : Nat → Host) (home_dir : CStr) (e s : LoopState)
    (hinv : LoopInv e s) : LoopInv e (sh_loop_step hosts home_dir s) := by
  unfold sh_loop_step
  cases hph : s.phase with
  | stopped => exact hinv
  | fault => exact hinv
  | running =>
    have hspec := sh_loop_body_spec (hosts s.iter) home_dir s hinv.saved
    cases hp : prompt_path s.proc.cwd home_dir with
    | none =>
      rw [hp] at hspec
      simp only [hspec]
      exact loop_inv_phase e s hinv Phase.fault
    | some path =>
      rw [hp] at hspec
      cases hread : sh_read_line s.rd (some s.input) with
      | none =>
        rw [hread] at hspec
        simp only [hspec]
        exact loop_inv_phase e s hinv Phase.fault
      | some r =>
        obtain ⟨line, rd1, rest⟩ := r
        rw [hread] at hspec
        obtain ⟨status, p3, hbody, _, _, heff, _⟩ := hspec
        simp only [hbody]
        split
        · exact loop_inv_after_command e s hinv path p3 rd1 _ _ s.phase heff
        · exact loop_inv_after_command e s hinv path p3 rd1 _ _ Phase.stopped heff

theorem sh_loop_iterate_succ (hosts : Nat → Host) (home_dir : CStr) :
    ∀ (n : Nat) (s : LoopState),
    sh_loop_iterate hosts home_dir (n + 1) s
      = sh_loop_step hosts home_dir (sh_loop_iterate hosts home_dir n s) := by
  intro n
  induction n with
  | zero => intro s; rfl
  | succ n ih =>
    intro s
    rw [sh_loop_iterate, ih (sh_loop_step hosts home_dir s)]
    rfl

theorem loop_inv_iterate (hosts : Nat → Host) (home_dir : CStr) (e : LoopState) :
    ∀ (n : Nat) (s : LoopState),
    LoopInv e s → LoopInv e (sh_loop_iterate hosts home_dir n s) := by
  intro n
  induction n with
  | zero => intro s hs; exact hs
  | succ n ih => intro s hs; exact ih _ (loop_inv_step hosts home_dir e s hs)


theorem sys_dup_of_bound (p : Proc) (fd : Int) (d : Desc) (h : fd_get p.fds fd = some d) :
    sys_dup p fd = ((lowest_free p.fds : Int),
      { p with fds := fd_put p.fds (lowest_free p.fds) (some d),
               trace := p.trace ++ [Event.sys_dup fd (lowest_free p.fds)] }) := by
  simp [sys_dup, h]

theorem ne_lowest_free (t : FdTable) (k : Int) (d : Desc) (h : fd_get t k = some d) :
    k ≠ (lowest_free t : Int) := by
  intro he
  rw [he, fd_get_lowest_free] at h
  exact absurd h (by simp)

theorem loop_inv_enter (home : Option CStr) (home_dir : CStr) (p : Proc) (rd : ReadState)
    (input : List Nat) (h0 : fd_get p.fds 0 = some Desc.orig_stdin)
    (h1 : fd_get p.fds 1 = some Desc.orig_stdout) :
    LoopInv (sh_loop_enter home home_dir p rd input) (sh_loop_enter home home_dir p rd input) ∧
    prompts (sh_loop_enter home home_dir p rd input).proc.trace = prompts p.trace ∧
    (sh_loop_enter home home_dir p rd input).iter = 0 ∧
    (sh_loop_enter home home_dir p rd input).rd = rd ∧
    (sh_loop_enter home home_dir p rd input).input = input ∧
    (sh_loop_enter home home_dir p rd input).executed = [] ∧
    (sh_loop_enter home home_dir p rd input).phase = Phase.running := by
  have key : ∀ p0 : Proc, p0.fds = p.fds → prompts p0.trace = prompts p.trace →
      LoopInv (sh_loop_save p0 rd input) (sh_loop_save p0 rd input) ∧
        prompts (sh_loop_save p0 rd input).proc.trace = prompts p.trace := by
    intro p0 hfds htr
    have h0' : fd_get p0.fds 0 = some Desc.orig_stdin := by rw [hfds]; exact h0
    have h1' : fd_get p0.fds 1 = some Desc.orig_stdout := by rw [hfds]; exact h1
    have hn0 := ne_lowest_free p0.fds 0 _ h0'
    have hn1 := ne_lowest_free p0.fds 1 _ h1'
    have e1 := sys_dup_of_bound p0 1 _ h1'
    generalize hq1 : ({ p0 with
        fds := fd_put p0.fds (lowest_free p0.fds) (some Desc.orig_stdout),
        trace := p0.trace ++ [Event.sys_dup 1 (lowest_free p0.fds)] } : Proc) = q1 at e1
    have hq1f : q1.fds = fd_put p0.fds (lowest_free p0.fds) (some Desc.orig_stdout) := by
      rw [← hq1]
    have hq1t : q1.trace = p0.trace ++ [Event.sys_dup 1 (lowest_free p0.fds)] := by
      rw [← hq1]
    have g0 : fd_get q1.fds 0 = some Desc.orig_stdin := by
      rw [hq1f, fd_get_put_other _ _ _ _ hn0]; exact h0'
    have g1 : fd_get q1.fds 1 = some Desc.orig_stdout := by
      rw [hq1f, fd_get_put_other _ _ _ _ hn1]; exact h1'
    have gs : fd_get q1.fds (lowest_free p0.fds : Int) = some Desc.orig_stdout := by
      rw [hq1f]; exact fd_get_put_same _ _ _
    have hm0 := ne_lowest_free _ 0 _ g0
    have hm1 := ne_lowest_free _ 1 _ g1
    have hms := ne_lowest_free _ _ _ gs
    have e2 := sys_dup_of_bound q1 0 _ g0
    have hsave : sh_loop_save p0 rd input =
        { proc := { q1 with fds := fd_put q1.fds (lowest_free q1.fds) (some Desc.orig_stdin),
                            trace := q1.trace ++ [Event.sys_dup 0 (lowest_free q1.fds)] },
          rd := rd,
          input := input,
          saved_stdout := (lowest_free p0.fds : Int),
          saved_stdin := (lowest_free q1.fds : Int),
          iter := 0,
          executed := [],
          phase := Phase.running } := by
      simp only [sh_loop_save, e1, e2]
    rw [hsave]
    refine ⟨⟨⟨?_, ?_, fun h => hn0 h.symm, fun h => hn1 h.symm, fun h => hm0 h.symm,
      fun h => hm1 h.symm⟩, rfl, rfl, by simp, [], by simp, by simp⟩, ?_⟩
    · show fd_get (fd_put q1.fds (lowest_free q1.fds) (some Desc.orig_stdin))
        (lowest_free p0.fds : Int) = some Desc.orig_stdout
      rw [fd_get_put_other _ _ _ _ hms]; exact gs
    · exact fd_get_put_same _ _ _
    · show prompts (q1.trace ++ [Event.sys_dup 0 (lowest_free q1.fds)]) = prompts p.trace
      rw [hq1t]
      simp [prompts_append, prompts, htr]
  cases home with
  | none =>
    have := key (p.log (Event.sys_chdir home_dir false)) rfl
      (by simp [Proc.log, prompts_append, prompts])
    exact ⟨this.1, this.2, rfl, rfl, rfl, rfl, rfl⟩
  | some dir =>
    have := key ({ p with cwd := dir }.log (Event.sys_chdir home_dir true)) rfl
      (by simp [Proc.log, prompts_append, prompts])
    exact ⟨this.1, this.2, rfl, rfl, rfl, rfl, rfl⟩

theorem sh_loop_body_iter (h : Host) (home_dir : CStr) (s : LoopState) (status : Int)
    (s1 : LoopState) (hb : sh_loop_body h home_dir s = some (status, s1)) :
    s1.iter = s.iter + 1 ∧ s1.phase = s.phase := by
  simp only [sh_loop_body] at hb
  split at hb
  · exact absurd hb (by simp)
  · split at hb
    · exact absurd hb (by simp)
    · split at hb
      · exact absurd hb (by simp)
      · split at hb
        · exact absurd hb (by simp)
        · simp only [Option.some.injEq, Prod.mk.injEq] at hb
          obtain ⟨_, rfl⟩ := hb
          exact ⟨rfl, rfl⟩

theorem sh_loop_step_running (hosts : Nat → Host) (home_dir : CStr) (s : LoopState)
    (hrun : (sh_loop_step hosts home_dir s).phase = Phase.running) :
    s.phase = Phase.running ∧ (sh_loop_step hosts home_dir s).iter = s.iter + 1 := by
  unfold sh_loop_step at hrun ⊢
  cases hph : s.phase with
  | stopped => rw [hph] at hrun; simp only [hph] at hrun; exact absurd hrun (by decide)
  | fault => rw [hph] at hrun; simp only [hph] at hrun; exact absurd hrun (by decide)
  | running =>
    rw [hph] at hrun
    simp only at hrun
    cases hbody : sh_loop_body (hosts s.iter) home_dir s with
    | none => rw [hbody] at hrun; exact absurd hrun (by simp)
    | some r =>
      obtain ⟨status, s1⟩ := r
      rw [hbody] at hrun
      simp only at hrun ⊢
      obtain ⟨hit, _⟩ := sh_loop_body_iter _ _ _ _ _ hbody
      by_cases hst : status ≠ 0
      · rw [if_pos hst]
        exact ⟨trivial, hit⟩
      · simp only [hst, if_false] at hrun
        exact absurd hrun (by simp)

theorem sh_loop_iterate_running (hosts : Nat → Host) (home_dir : CStr) (s : LoopState) :
    ∀ (n : Nat), (sh_loop_iterate hosts home_dir n s).phase = Phase.running →
    (sh_loop_iterate hosts home_dir n s).iter = s.iter + n := by
  intro n
  induction n with
  | zero => intro _; rfl
  | succ n ih =>
    intro hrun
    rw [sh_loop_iterate_succ] at hrun ⊢
    obtain ⟨hprev, hit⟩ := sh_loop_step_running hosts home_dir _ hrun
    rw [hit, ih hprev]
    omega

/-- C7: after any number of turns of the loop of `sh_loop`, under every
sequence of host answers and every input, every prompt printed so far (one per
iteration, just before the line is read) was printed with descriptors 0 and 1
bound to the original standard input and output, whatever the commands in
between did; the saved descriptors are those taken before the loop, they are
still bound to the original streams, and no event of the loop rebinds or
closes one of them.  While the loop is running it has printed one prompt per
turn. -/
theorem sh_loop_restores_streams (hosts : Nat → Host) (home : Option CStr) (home_dir : CStr)
    (p : Proc) (rd : ReadState) (input : List Nat) (n : Nat)
    (h0 : fd_get p.fds 0 = some Desc.orig_stdin)
    (h1 : fd_get p.fds 1 = some Desc.orig_stdout) :
    prompts (sh_loop hosts home home_dir p rd input n).proc.trace
      = prompts p.trace ++ List.replicate (sh_loop hosts home home_dir p rd input n).iter
          (some Desc.orig_stdin, some Desc.orig_stdout) ∧
    ((sh_loop hosts home home_dir p rd input n).phase = Phase.running →
      (sh_loop hosts home home_dir p rd input n).iter = n) ∧
    (sh_loop hosts home home_dir p rd input n).saved_stdout
      = (sh_loop_enter home home_dir p rd input).saved_stdout ∧
    (sh_loop hosts home home_dir p rd input n).saved_stdin
      = (sh_loop_enter home home_dir p rd input).saved_stdin ∧
    fd_get (sh_loop hosts home home_dir p rd input n).proc.fds
      (sh_loop_enter home home_dir p rd input).saved_stdout = some Desc.orig_stdout ∧
    fd_get (sh_loop hosts home home_dir p rd input n).proc.fds
      (sh_loop_enter home home_dir p rd input).saved_stdin = some Desc.orig_stdin ∧
    ∃ evs, (sh_loop hosts home home_dir p rd input n).proc.trace
        = (sh_loop_enter home home_dir p rd input).proc.trace ++ evs ∧
      ∀ ev ∈ evs, rebound_fd ev ≠ some (sh_loop_enter home home_dir p rd input).saved_stdout ∧
        rebound_fd ev ≠ some (sh_loop_enter home home_dir p rd input).saved_stdin := by
  obtain ⟨hinv0, hpr0, hit0, _, _, _, _⟩ := loop_inv_enter home home_dir p rd input h0 h1
  have hinv := loop_inv_iterate hosts home_dir _ n _ hinv0
  refine ⟨?_, ?_, hinv.same_out, hinv.same_in, ?_, ?_, hinv.no_rebind⟩
  · rw [sh_loop, hinv.prompts_eq, hpr0]
  · intro hrun
    have := sh_loop_iterate_running hosts home_dir _ n hrun
    rw [sh_loop, this, hit0]
    omega
  · rw [← hinv.same_out]; exact hinv.saved.out_bound
  · rw [← hinv.same_in]; exact hinv.saved.in_bound

/-- Witness of C7: the sample process, with `/home/u` as home directory and as
working directory, on the input `ls > f`, newline, `ls`, newline.  Two turns
are two iterations: two prompts `~$ ` are printed, the second after the
command that redirected descriptor 1, and both with descriptors 0 and 1
bound to the original streams. -/
theorem sh_loop_restores_streams_witness :
    fd_get sample_proc.fds 0 = some Desc.orig_stdin ∧
    fd_get sample_proc.fds 1 = some Desc.orig_stdout ∧
    prompt_path sample_home sample_home = some (cstr "~$ ") ∧
    (sh_loop (fun _ => sample_host) (some sample_home) sample_home sample_proc my_read_init
        (cstr "ls > f\nls\n") 2).phase = Phase.running ∧
    (sh_loop (fun _ => sample_host) (some sample_home) sample_home sample_proc my_read_init
        (cstr "ls > f\nls\n") 2).iter = 2 ∧
    prompts (sh_loop (fun _ => sample_host) (some sample_home) sample_home sample_proc
        my_read_init (cstr "ls > f\nls\n") 2).proc.trace
      = prompts sample_proc.trace ++ List.replicate
          (sh_loop (fun _ => sample_host) (some sample_home) sample_home sample_proc
            my_read_init (cstr "ls > f\nls\n") 2).iter
          (some Desc.orig_stdin, some Desc.orig_stdout) :=
  ⟨by decide, by decide, by decide, by decide, by decide,
    (sh_loop_restores_streams (fun _ => sample_host) (some sample_home) sample_home
      sample_proc my_read_init (cstr "ls > f\nls\n") 2 (by decide) (by decide)).1⟩


theorem sh_read_line_settled (st : ReadState) (hst : st.settled) (hmin : INT_MIN < st.i)
    (s : List Nat) :
    ∃ line st1 rest, sh_read_line st (some s) = some (line, st1, some rest) ∧ st1.settled ∧
      st.i - 1 ≤ st1.i := by
  obtain ⟨hbuf, hi⟩ := hst
  by_cases h0 : st.i = 0
  · obtain ⟨st1, hrun, hb1, hi1⟩ := sh_read_line_spec st h0 hbuf s
    refine ⟨_, st1, _, hrun, ⟨hb1, ?_⟩, ?_⟩
    · rw [hi1]
      split <;> omega
    · rw [hi1, h0]
      split <;> omega
  · have hneg : st.i < 0 := by omega
    refine ⟨_, _, s, sh_read_line_after_end st hneg hmin (some s), ⟨hbuf, ?_⟩, le_refl _⟩
    show st.i - 1 ≤ 0
    omega

theorem my_read_stream (st : ReadState) (s : List Nat) (c : Int) (st1 : ReadState)
    (rest : Option (List Nat)) (h : my_read st (some s) = some (c, st1, rest)) :
    ∃ r, rest = some r := by
  unfold my_read at h
  by_cases hi : st.i = 0
  · cases s with
    | nil =>
      simp only [hi, sys_read, if_true] at h
      split at h
      · exact absurd h (by simp)
      · split at h
        · split at h
          · exact absurd h (by simp)
          · simp only [Option.some.injEq, Prod.mk.injEq] at h
            exact ⟨_, h.2.2.symm⟩
        · simp only [Option.some.injEq, Prod.mk.injEq] at h
          exact ⟨_, h.2.2.symm⟩
    | cons b bs =>
      simp only [hi, sys_read, if_true] at h
      split at h
      · exact absurd h (by simp)
      · split at h
        · split at h
          · exact absurd h (by simp)
          · simp only [Option.some.injEq, Prod.mk.injEq] at h
            exact ⟨_, h.2.2.symm⟩
        · simp only [Option.some.injEq, Prod.mk.injEq] at h
          exact ⟨_, h.2.2.symm⟩
  · simp only [hi, if_false] at h
    split at h
    · exact absurd h (by simp)
    · split at h
      · split at h
        · exact absurd h (by simp)
        · simp only [Option.some.injEq, Prod.mk.injEq] at h
          exact ⟨_, h.2.2.symm⟩
      · simp only [Option.some.injEq, Prod.mk.injEq] at h
        exact ⟨_, h.2.2.symm⟩

theorem sh_read_loop_stream : ∀ (fuel bufsize position : Nat) (buffer : List Nat)
    (st : ReadState) (s : List Nat) (line : List Nat) (st1 : ReadState)
    (rest : Option (List Nat)),
    sh_read_loop fuel bufsize position buffer st (some s) = some (line, st1, rest) →
    ∃ r, rest = some r := by
  intro fuel
  induction fuel with
  | zero => intro _ _ _ _ _ _ _ _ h; simp [sh_read_loop] at h
  | succ fuel ih =>
    intro bufsize position buffer st s line st1 rest h
    rw [sh_read_loop] at h
    cases hr : my_read st (some s) with
    | none => rw [hr] at h; exact absurd h (by simp)
    | some v =>
      obtain ⟨c, st2, rest2⟩ := v
      obtain ⟨r, hrest⟩ := my_read_stream st s c st2 rest2 hr
      rw [hr] at h
      simp only at h
      split at h
      · split at h
        · exact absurd h (by simp)
        · simp only [Option.some.injEq, Prod.mk.injEq] at h
          exact ⟨r, by rw [← h.2.2, hrest]⟩
      · rw [hrest] at h
        split at h
        · exact absurd h (by simp)
        · exact ih _ _ _ _ _ _ _ _ h

theorem sh_read_line_stream (st : ReadState) (s : List Nat) (line : List Nat)
    (st1 : ReadState) (rest : Option (List Nat))
    (h : sh_read_line st (some s) = some (line, st1, rest)) : ∃ r, rest = some r :=
  sh_read_loop_stream _ _ _ _ _ _ _ _ _ h

theorem read_lines_none (rd : ReadState) (input : List Nat) (k : Nat)
    (h : read_lines k rd input = none) : ∀ m, read_lines (k + m) rd input = none := by
  intro m
  induction m with
  | zero => exact h
  | succ m ih => rw [← Nat.add_assoc, read_lines, ih]

theorem read_lines_settled (rd : ReadState) (input : List Nat) (hrd : rd.settled) :
    ∀ k : Nat, (k : Int) ≤ rd.i - INT_MIN →
    ∃ ls st rest, read_lines k rd input = some (ls, st, rest) ∧ st.settled ∧
      rd.i - k ≤ st.i := by
  intro k
  induction k with
  | zero => intro _; exact ⟨[], rd, input, rfl, hrd, by simp⟩
  | succ k ih =>
    intro hk
    obtain ⟨ls, st, rest, hread, hst, hi⟩ := ih (by push_cast at hk; omega)
    obtain ⟨line, st1, rest1, hline, hst1, hi1⟩ :=
      sh_read_line_settled st hst (by push_cast at hk; omega) rest
    refine ⟨ls ++ [line], st1, rest1, ?_, hst1, by push_cast; omega⟩
    rw [read_lines, hread]
    simp only [hline]

theorem lines_inv_step (hosts : Nat → Host) (hq : ∀ k, (hosts k).child_reads = 0)
    (home_dir cwd0 : CStr) (rd0 : ReadState)
    (input0 : List Nat) (n : Nat) (s : LoopState) (lines : List (List Nat))
    (hs : StreamsSaved s) (hinv : LinesInv hosts home_dir cwd0 rd0 input0 n s lines) :
    ∃ lines1, LinesInv hosts home_dir cwd0 rd0 input0 (n + 1)
      (sh_loop_step hosts home_dir s) lines1 := by
  unfold sh_loop_step
  cases hph : s.phase with
  | fault =>
    refine ⟨lines, hinv.read, hinv.executed_eq, hinv.cwd_from, ?_, ?_, hinv.stopped⟩
    · intro _
      obtain ⟨hlt, hnone⟩ := hinv.fault hph
      exact ⟨by show s.iter < n + 1; omega, hnone⟩
    · intro hrun
      rw [hph] at hrun
      exact absurd hrun (by decide)
  | stopped =>
    refine ⟨lines, hinv.read, hinv.executed_eq, hinv.cwd_from, ?_, ?_, hinv.stopped⟩
    · intro hf
      rw [hph] at hf
      exact absurd hf (by decide)
    · intro hrun
      rw [hph] at hrun
      exact absurd hrun (by decide)
  | running =>
    obtain ⟨hitn, hnone⟩ := hinv.running hph
    have hspec := sh_loop_body_spec (hosts s.iter) home_dir s hs
    cases hp : prompt_path s.proc.cwd home_dir with
    | none =>
      rw [hp] at hspec
      simp only at hspec
      simp only [hspec]
      refine ⟨lines, hinv.read, hinv.executed_eq, hinv.cwd_from, ?_, ?_, ?_⟩
      · intro _
        exact ⟨by show s.iter < n + 1; omega, Or.inl hp⟩
      · intro hrun
        exact absurd hrun (by simp)
      · intro hstop
        exact absurd hstop (by simp)
    | some path =>
    rw [hp] at hspec
    simp only at hspec
    cases hread : sh_read_line s.rd (some s.input) with
    | none =>
      rw [hread] at hspec
      simp only at hspec
      simp only [hspec]
      refine ⟨lines, hinv.read, hinv.executed_eq, hinv.cwd_from, ?_, ?_, ?_⟩
      · intro _
        refine ⟨by show s.iter < n + 1; omega, Or.inr ?_⟩
        rw [read_lines, hinv.read]
        simp only [hread]
      · intro hrun
        exact absurd hrun (by simp)
      · intro hstop
        exact absurd hstop (by simp)
    | some v =>
      obtain ⟨line, rd1, orest⟩ := v
      obtain ⟨rest, horest⟩ := sh_read_line_stream s.rd s.input line rd1 orest hread
      subst horest
      rw [hread] at hspec
      obtain ⟨status, p3, hbody, hstat, h01, _, hdir⟩ := hspec
      have htook : ∀ evs, child_took (hosts s.iter) evs = 0 := by
        intro evs
        unfold child_took
        rw [hq]
        exact ite_self 0
      simp only [htook, List.drop_zero, Option.getD_some] at hbody
      have hnext : read_lines (s.iter + 1) rd0 input0 = some (lines ++ [line], rd1, rest) := by
        rw [read_lines, hinv.read]
        simp only [hread]
      have hexec : s.executed ++ [vector_of (maximal_runs (c_string line))]
          = (lines ++ [line]).map vector_of_line := by
        rw [hinv.executed_eq]
        simp [vector_of_line]
      have hcwd : p3.cwd = cwd0 ∨
          ∃ k, k < s.iter + 1 ∧ (hosts k).chdir_result = some p3.cwd := by
        rcases hdir with hsame | hnew
        · rcases hinv.cwd_from with h0 | ⟨k, hk, hres⟩
          · exact Or.inl (by rw [hsame, h0])
          · exact Or.inr ⟨k, by omega, by rw [hsame]; exact hres⟩
        · exact Or.inr ⟨s.iter, by omega, hnew⟩
      simp only [hbody]
      by_cases hst : status ≠ 0
      · rw [if_pos hst]
        have hne : exit_line line = false := by
          cases hx : exit_line line with
          | false => rfl
          | true => exact absurd (hstat.mpr hx) hst
        refine ⟨lines ++ [line], hnext, hexec, hcwd, ?_, ?_, ?_⟩
        · intro hf
          have : s.phase = Phase.fault := hf
          rw [hph] at this
          exact absurd this (by decide)
        · intro _
          refine ⟨by show s.iter + 1 = n + 1; omega, ?_⟩
          intro l hl
          rcases List.mem_append.mp hl with hl | hl
          · exact hnone l hl
          · simp only [List.mem_singleton] at hl
            rw [hl]; exact hne
        · intro hstop
          have : s.phase = Phase.stopped := hstop
          rw [hph] at this
          exact absurd this (by decide)
      · rw [if_neg hst]
        have hzero : status = 0 := by
          rcases h01 with h | h
          · exact h
          · exact absurd (by rw [h]; decide) hst
        refine ⟨lines ++ [line], hnext, hexec, hcwd, ?_, ?_, ?_⟩
        · intro hf
          exact absurd hf (by simp)
        · intro hrun
          exact absurd hrun (by simp)
        · intro _
          exact ⟨lines, line, rfl, hstat.mp hzero, hnone⟩

theorem sh_loop_step_halted (hosts : Nat → Host) (home_dir : CStr) (s : LoopState)
    (h : s.phase ≠ Phase.running) : sh_loop_step hosts home_dir s = s := by
  unfold sh_loop_step
  cases hph : s.phase with
  | running => exact absurd hph h
  | stopped => rfl
  | fault => rfl

theorem sh_loop_iterate_halted (hosts : Nat → Host) (home_dir : CStr) :
    ∀ (m : Nat) (s : LoopState),
    s.phase ≠ Phase.running → sh_loop_iterate hosts home_dir m s = s := by
  intro m
  induction m with
  | zero => intro s _; rfl
  | succ m ih =>
    intro s h
    rw [sh_loop_iterate, sh_loop_step_halted hosts home_dir s h]
    exact ih s h

theorem sh_loop_iterate_add (hosts : Nat → Host) (home_dir : CStr) :
    ∀ (n m : Nat) (s : LoopState),
    sh_loop_iterate hosts home_dir (n + m) s
      = sh_loop_iterate hosts home_dir m (sh_loop_iterate hosts home_dir n s) := by
  intro n
  induction n with
  | zero => intro m s; simp [sh_loop_iterate]
  | succ n ih =>
    intro m s
    rw [show n + 1 + m = (n + m) + 1 by omega, sh_loop_iterate, sh_loop_iterate, ih]

theorem lines_inv_iterate (hosts : Nat → Host) (hq : ∀ k, (hosts k).child_reads = 0)
    (home_dir cwd0 : CStr) (e : LoopState)
    (rd0 : ReadState) (input0 : List Nat) (he : LoopInv e e)
    (h0 : LinesInv hosts home_dir cwd0 rd0 input0 0 e []) : ∀ (n : Nat),
    ∃ lines, LinesInv hosts home_dir cwd0 rd0 input0 n (sh_loop_iterate hosts home_dir n e)
      lines := by
  intro n
  induction n with
  | zero => exact ⟨[], h0⟩
  | succ n ih =>
    obtain ⟨lines, hl⟩ := ih
    rw [sh_loop_iterate_succ]
    exact lines_inv_step hosts hq home_dir cwd0 rd0 input0 n _ lines
      (loop_inv_iterate hosts home_dir e n e he).saved hl


theorem span_at_first {α : Type} (f : α → Bool) (x : α) (r : List α) : ∀ (l : List α),
    (∀ b ∈ l, f b = true) → f x = false →
    (l ++ x :: r).takeWhile f = l ∧ (l ++ x :: r).dropWhile f = x :: r := by
  intro l
  induction l with
  | nil => intro _ hx; simp [List.takeWhile_cons, List.dropWhile_cons, hx]
  | cons b l ih =>
    intro hl hx
    have hb := hl b (by simp)
    obtain ⟨h1, h2⟩ := ih (fun y hy => hl y (by simp [hy])) hx
    simp [List.takeWhile_cons, List.dropWhile_cons, hb, h1, h2]

theorem sh_read_line_one_line (st : ReadState) (hi : st.i = 0) (hbuf : st.buf ≠ [])
    (l rest : List Nat) (hl : ∀ b ∈ l, b < 255 ∧ b ≠ 10) :
    ∃ st1, sh_read_line st (some (l ++ 10 :: rest)) = some (l ++ [0], st1, some rest) ∧
      st1.i = 0 ∧ st1.buf ≠ [] := by
  obtain ⟨st1, hrun, hb1, hi1⟩ := sh_read_line_spec st hi hbuf (l ++ 10 :: rest)
  have hbody : ∀ b ∈ l, (!line_end b) = true := by
    intro b hb
    obtain ⟨hlt, hne⟩ := hl b hb
    have hmod : b % 256 = b := Nat.mod_eq_of_lt (by omega)
    cases hle : line_end b with
    | false => rfl
    | true =>
      have := (line_end_iff b).mp hle
      rw [hmod] at this
      omega
  have hnl : (!line_end 10) = false := by decide
  obtain ⟨htake, hdrop⟩ := span_at_first (fun b => !line_end b) 10 rest l hbody hnl
  have hmap : l.map (fun b => b % 256) = l := by
    conv_rhs => rw [← List.map_id l]
    exact List.map_congr_left (fun b hb => Nat.mod_eq_of_lt (by have := (hl b hb).1; omega))
  rw [htake, hdrop, hmap] at hrun
  rw [hdrop] at hi1
  exact ⟨st1, by simpa using hrun, by simpa using hi1, hb1⟩

theorem read_lines_newline_terminated : ∀ (ls : List (List Nat)) (st : ReadState)
    (rest : List Nat), st.i = 0 → st.buf ≠ [] → (∀ l ∈ ls, ∀ b ∈ l, b < 255 ∧ b ≠ 10) →
    ∃ st1, read_lines ls.length st ((ls.map (fun l => l ++ [10])).flatten ++ rest)
        = some (ls.map (fun l => l ++ [0]), st1, rest) ∧ st1.i = 0 ∧ st1.buf ≠ [] := by
  intro ls
  induction ls using List.reverseRecOn with
  | nil => intro st rest hi hbuf _; exact ⟨st, rfl, hi, hbuf⟩
  | append_singleton init l ih =>
    intro st rest hi hbuf hwf
    obtain ⟨st1, hread, hi1, hb1⟩ := ih st (l ++ 10 :: rest) hi hbuf
      (fun x hx => hwf x (by simp [hx]))
    obtain ⟨st2, hline, hi2, hb2⟩ := sh_read_line_one_line st1 hi1 hb1 l rest
      (hwf l (by simp))
    refine ⟨st2, ?_, hi2, hb2⟩
    have hshape : ((init ++ [l]).map (fun l => l ++ [10])).flatten ++ rest
        = (init.map (fun l => l ++ [10])).flatten ++ (l ++ 10 :: rest) := by
      simp
    rw [List.length_append, List.length_singleton, read_lines, hshape, hread]
    simp only [hline]
    simp

theorem my_read_init_settled : my_read_init.settled := by
  refine ⟨?_, le_refl _⟩
  show List.replicate BUFSIZ 0 ≠ []
  intro h
  have hlen : (List.replicate BUFSIZ 0).length = 0 := by rw [h]; rfl
  rw [List.length_replicate] at hlen
  exact absurd hlen (by decide)

theorem sh_loop_enter_cwd (home : Option CStr) (home_dir : CStr) (p : Proc) (rd : ReadState)
    (input : List Nat) :
    (sh_loop_enter home home_dir p rd input).proc.cwd = home.getD p.cwd := by
  have hdup : ∀ (q : Proc) (fd : Int), (sys_dup q fd).2.cwd = q.cwd := by
    intro q fd
    unfold sys_dup
    split <;> rfl
  have key : ∀ p0 : Proc, (sh_loop_save p0 rd input).proc.cwd = p0.cwd := by
    intro p0
    show (sys_dup (sys_dup p0 1).2 0).2.cwd = p0.cwd
    rw [hdup, hdup]
  cases home with
  | none => exact key _
  | some dir => exact key _

theorem lines_inv_sh_loop (hosts : Nat → Host) (hq : ∀ k, (hosts k).child_reads = 0)
    (home : Option CStr) (home_dir : CStr)
    (p : Proc) (rd : ReadState) (input : List Nat)
    (h0 : fd_get p.fds 0 = some Desc.orig_stdin)
    (h1 : fd_get p.fds 1 = some Desc.orig_stdout) (n : Nat) :
    ∃ lines, LinesInv hosts home_dir (home.getD p.cwd) rd input n
      (sh_loop hosts home home_dir p rd input n) lines := by
  obtain ⟨hinv0, _, hit0, hrd0, hin0, hex0, hph0⟩ := loop_inv_enter home home_dir p rd input h0 h1
  have hstart : LinesInv hosts home_dir (home.getD p.cwd) rd input 0
      (sh_loop_enter home home_dir p rd input) [] := by
    refine ⟨?_, by rw [hex0]; rfl, Or.inl (sh_loop_enter_cwd home home_dir p rd input), ?_,
      fun _ => ⟨hit0, by simp⟩, ?_⟩
    · rw [hit0, hrd0, hin0]; rfl
    · intro hf
      rw [hph0] at hf
      exact absurd hf (by decide)
    · intro hstop
      rw [hph0] at hstop
      exact absurd hstop (by decide)
  exact lines_inv_iterate hosts hq home_dir _ _ rd input hinv0 hstart n

/-- What holds of the loop of `sh_loop` on every input, when no child reads the
standard input it shares with the shell.  The loop stops only
after a line `sh_read_line` delivers has `exit` as its first token, and once
such a line is delivered the loop has stopped or has left defined behaviour.
After any number `n` of turns, the lines read are one per iteration and no
more (the statics of `my_read` and the unread input are those left by the last
of them), and each was split and handed to `sh_execute` in order; the working
directory is the one the loop started in or one a `chdir` of an earlier
iteration led to; while the loop runs it has done `n` iterations and none of
the lines was an `exit` line (no other command, and no empty line, stops
it); once it has stopped, the last line read is the first `exit` line and
further turns change nothing; the loop leaves defined behaviour only where
the building of the next prompt or the read of the next line does.  When the
prompt can be built in every such working directory, nothing of the kind
happens within the first `i + 2^31` lines read from statics with no byte
pending.  From an input made of newline-terminated lines whose bytes are below
255, the lines delivered are these lines, each with its terminator. -/
theorem sh_loop_lines (hosts : Nat → Host) (hq : ∀ k, (hosts k).child_reads = 0)
    (home : Option CStr) (home_dir : CStr)
    (p : Proc) (rd : ReadState) (input : List Nat)
    (h0 : fd_get p.fds 0 = some Desc.orig_stdin)
    (h1 : fd_get p.fds 1 = some Desc.orig_stdout) :
    ((∃ n, (sh_loop hosts home home_dir p rd input n).phase = Phase.stopped) →
      ∃ k ls st rest, read_lines k rd input = some (ls, st, rest) ∧
        ∃ l ∈ ls, exit_line l = true) ∧
    ((∃ k ls st rest, read_lines k rd input = some (ls, st, rest) ∧
        ∃ l ∈ ls, exit_line l = true) →
      ∃ n, (sh_loop hosts home home_dir p rd input n).phase = Phase.stopped ∨
        (sh_loop hosts home home_dir p rd input n).phase = Phase.fault) ∧
    (∀ n, ∃ lines,
      read_lines (sh_loop hosts home home_dir p rd input n).iter rd input
        = some (lines, (sh_loop hosts home home_dir p rd input n).rd,
            (sh_loop hosts home home_dir p rd input n).input) ∧
      (sh_loop hosts home home_dir p rd input n).executed = lines.map vector_of_line ∧
      ((sh_loop hosts home home_dir p rd input n).proc.cwd = home.getD p.cwd ∨
        ∃ k, k < (sh_loop hosts home home_dir p rd input n).iter ∧
          (hosts k).chdir_result = some (sh_loop hosts home home_dir p rd input n).proc.cwd) ∧
      ((sh_loop hosts home home_dir p rd input n).phase = Phase.fault →
        (sh_loop hosts home home_dir p rd input n).iter < n ∧
        (prompt_path (sh_loop hosts home home_dir p rd input n).proc.cwd home_dir = none ∨
          read_lines ((sh_loop hosts home home_dir p rd input n).iter + 1) rd input = none)) ∧
      ((sh_loop hosts home home_dir p rd input n).phase = Phase.running →
        (sh_loop hosts home home_dir p rd input n).iter = n ∧
          ∀ l ∈ lines, exit_line l = false) ∧
      ((sh_loop hosts home home_dir p rd input n).phase = Phase.stopped →
        (∃ pre l, lines = pre ++ [l] ∧ exit_line l = true ∧ ∀ x ∈ pre, exit_line x = false) ∧
          ∀ m, sh_loop hosts home home_dir p rd input (n + m)
            = sh_loop hosts home home_dir p rd input n)) ∧
    ((∀ d, (d = home.getD p.cwd ∨ ∃ k, (hosts k).chdir_result = some d) →
        prompt_path d home_dir ≠ none) →
      rd.settled → ∀ n : Nat, (n : Int) ≤ rd.i + 2147483648 →
      (∃ ls st rest, read_lines n rd input = some (ls, st, rest)) ∧
      (sh_loop hosts home home_dir p rd input n).phase ≠ Phase.fault) ∧
    (∀ (st : ReadState) (ls : List (List Nat)) (rest : List Nat), st.i = 0 → st.buf ≠ [] →
      (∀ l ∈ ls, ∀ b ∈ l, b < 255 ∧ b ≠ 10) →
      ∃ st1, read_lines ls.length st ((ls.map (fun l => l ++ [10])).flatten ++ rest)
        = some (ls.map (fun l => l ++ [0]), st1, rest)) ∧
    exit_line [0] = false := by
  have hall := lines_inv_sh_loop hosts hq home home_dir p rd input h0 h1
  refine ⟨?_, ?_, ?_, ?_, ?_, by decide⟩
  · rintro ⟨n, hstop⟩
    obtain ⟨lines, hl⟩ := hall n
    obtain ⟨pre, l, hlines, hexit, _⟩ := hl.stopped hstop
    exact ⟨_, lines, _, _, hl.read, l, by rw [hlines]; simp, hexit⟩
  · rintro ⟨k, ls, st, rest, hread, l, hmem, hexit⟩
    obtain ⟨lines, hl⟩ := hall k
    refine ⟨k, ?_⟩
    cases hph : (sh_loop hosts home home_dir p rd input k).phase with
    | stopped => exact Or.inl rfl
    | fault => exact Or.inr rfl
    | running =>
      obtain ⟨hit, hnone⟩ := hl.running hph
      have hr := hl.read
      rw [hit, hread] at hr
      simp only [Option.some.injEq, Prod.mk.injEq] at hr
      have := hnone l (by rw [← hr.1]; exact hmem)
      rw [hexit] at this
      exact absurd this (by decide)
  · intro n
    obtain ⟨lines, hl⟩ := hall n
    refine ⟨lines, hl.read, hl.executed_eq, hl.cwd_from, hl.fault, hl.running, ?_⟩
    intro hstop
    refine ⟨hl.stopped hstop, ?_⟩
    intro m
    rw [sh_loop, sh_loop_iterate_add]
    exact sh_loop_iterate_halted hosts home_dir m _ (by
      have : (sh_loop hosts home home_dir p rd input n).phase = Phase.stopped := hstop
      rw [sh_loop] at this
      rw [this]
      decide)
  · intro hprompt hrd n hn
    obtain ⟨ls, st, rest, hread, _, _⟩ := read_lines_settled rd input hrd n
      (by unfold INT_MIN; omega)
    refine ⟨⟨ls, st, rest, hread⟩, ?_⟩
    intro hph
    obtain ⟨lines, hl⟩ := hall n
    obtain ⟨hlt, hbad⟩ := hl.fault hph
    rcases hbad with hbad | hnone
    · refine hprompt _ ?_ hbad
      rcases hl.cwd_from with hc | ⟨k, _, hk⟩
      · exact Or.inl hc
      · exact Or.inr ⟨k, hk⟩
    · have := read_lines_none rd input _ hnone
        (n - ((sh_loop hosts home home_dir p rd input n).iter + 1))
      rw [show (sh_loop hosts home home_dir p rd input n).iter + 1
        + (n - ((sh_loop hosts home home_dir p rd input n).iter + 1)) = n by omega, hread] at this
      exact absurd this (by simp)
  · intro st ls rest hi hbuf hwf
    obtain ⟨st1, hread, _, _⟩ := read_lines_newline_terminated ls st rest hi hbuf hwf
    exact ⟨st1, hread⟩


theorem sh_loop_fault_stays (hosts : Nat → Host) (home : Option CStr) (home_dir : CStr)
    (p : Proc) (rd : ReadState) (input : List Nat) (k : Nat)
    (h : (sh_loop hosts home home_dir p rd input k).phase = Phase.fault) (m : Nat) :
    sh_loop hosts home home_dir p rd input (k + m) = sh_loop hosts home home_dir p rd input k := by
  rw [sh_loop, sh_loop_iterate_add]
  exact sh_loop_iterate_halted hosts home_dir m _ (by
    rw [sh_loop] at h
    rw [h]
    decide)

set_option maxRecDepth 8192 in
/-- C8: the loop of `sh_loop` can return although no input line has `exit` as
its first token, and can fail to return although one has.  On the input
`echo`, blank, 0xFF, `exit`, newline, which is a single line whose first token
is `echo`, `sh_read_line` ends a first line at the byte 0xFF; the loop
executes `echo`, then `exit`, and has stopped after two iterations.  With an
empty `home_dir`, `str_replace` returns null and the `strcpy` of the first
prompt reads through it: on the input `exit`, newline, the loop has left
defined behaviour before it reads the line, and never stops.  After a `cd`
into a directory of 199 bytes `strncat` writes past `current_path` when the
next prompt is built: on the input `cd d`, newline, `exit`, newline, the loop
executes the `cd` and never reads the second line. -/
theorem sh_loop_returns_without_exit_line :
    ff_input = cstr "echo " ++ 255 :: cstr "exit" ++ [10] ∧
    (maximal_runs (cstr "echo " ++ 255 :: cstr "exit")).head? = some (cstr "echo") ∧
    exit_line (cstr "echo " ++ 255 :: cstr "exit" ++ [0]) = false ∧
    (sh_loop (fun _ => sample_host) (some sample_home) sample_home sample_proc my_read_init
      ff_input 1).phase = Phase.running ∧
    (sh_loop (fun _ => sample_host) (some sample_home) sample_home sample_proc my_read_init
      ff_input 2).phase = Phase.stopped ∧
    (sh_loop (fun _ => sample_host) (some sample_home) sample_home sample_proc my_read_init
      ff_input 2).executed = [vector_of [cstr "echo"], vector_of [cstr "exit"]] ∧
    str_replace (some sample_proc.cwd) (some []) (some (cstr "~")) = some none ∧
    prompt_path sample_proc.cwd [] = none ∧
    (∀ n, (sh_loop (fun _ => sample_host) none [] sample_proc my_read_init
      (cstr "exit\n") (n + 1)).phase = Phase.fault) ∧
    (∀ n, (sh_loop (fun _ => sample_host) none [] sample_proc my_read_init
      (cstr "exit\n") n).executed = []) ∧
    deep_cwd.length = 199 ∧
    prompt_path deep_cwd sample_home = none ∧
    (sh_loop (fun _ => deep_host) (some sample_home) sample_home sample_proc my_read_init
      (cstr "cd d\nexit\n") 1).phase = Phase.running ∧
    (sh_loop (fun _ => deep_host) (some sample_home) sample_home sample_proc my_read_init
      (cstr "cd d\nexit\n") 1).proc.cwd = deep_cwd ∧
    (∀ n, (sh_loop (fun _ => deep_host) (some sample_home) sample_home sample_proc my_read_init
      (cstr "cd d\nexit\n") (n + 2)).phase = Phase.fault) ∧
    (∀ n, (sh_loop (fun _ => deep_host) (some sample_home) sample_home sample_proc my_read_init
      (cstr "cd d\nexit\n") (n + 2)).executed = [vector_of [cstr "cd", cstr "d"]]) := by
  have hf1 : (sh_loop (fun _ => sample_host) none [] sample_proc my_read_init
      (cstr "exit\n") 1).phase = Phase.fault := by decide
  have hf2 : (sh_loop (fun _ => deep_host) (some sample_home) sample_home sample_proc
      my_read_init (cstr "cd d\nexit\n") 2).phase = Phase.fault := by decide
  refine ⟨by decide, by decide, by decide, by decide, by decide, by decide, by decide,
    by decide, ?_, ?_, by decide, by decide, by decide, by decide, ?_, ?_⟩
  · intro n
    rw [show n + 1 = 1 + n by omega, sh_loop_fault_stays _ _ _ _ _ _ 1 hf1 n]
    exact hf1
  · intro n
    cases n with
    | zero => decide
    | succ n =>
      rw [show n + 1 = 1 + n by omega, sh_loop_fault_stays _ _ _ _ _ _ 1 hf1 n]
      decide
  · intro n
    rw [show n + 2 = 2 + n by omega, sh_loop_fault_stays _ _ _ _ _ _ 2 hf2 n]
    exact hf2
  · intro n
    rw [show n + 2 = 2 + n by omega, sh_loop_fault_stays _ _ _ _ _ _ 2 hf2 n]
    decide

/-! ## Proofs: one redirection per command -/

theorem opens_append (a b : List Event) : opens (a ++ b) = opens a ++ opens b := by
  induction a with
  | nil => rfl
  | cons e rest ih => cases e <;> simp [opens, ih]

theorem rebinds_append (a b : List Event) : rebinds (a ++ b) = rebinds a ++ rebinds b := by
  induction a with
  | nil => rfl
  | cons e rest ih => cases e <;> simp [rebinds, ih]

theorem opens_rebinds_wait_loop (final : WaitStatus) : ∀ (stops : List Nat) (p : Proc),
    opens (wait_loop final stops p).trace = opens p.trace ∧
    rebinds (wait_loop final stops p).trace = rebinds p.trace := by
  intro stops
  induction stops with
  | nil => intro p; simp [wait_loop, Proc.log, opens_append, rebinds_append, opens, rebinds]
  | cons sig more ih =>
    intro p
    simp [wait_loop, ih, Proc.log, opens_append, rebinds_append, opens, rebinds]

theorem opens_rebinds_sh_launch (h : Host) (p : Proc) (args : List (Option CStr)) :
    opens (sh_launch h p args).2.trace = opens p.trace ∧
    rebinds (sh_launch h p args).2.trace = rebinds p.trace ∧
    (sh_launch h p args).2.fds = p.fds := by
  refine ⟨?_, ?_, (sh_launch_frame h p args).1⟩
  · unfold sh_launch
    split <;> simp [opens_rebinds_wait_loop, Proc.log, opens_append, opens]
  · unfold sh_launch
    split <;> simp [opens_rebinds_wait_loop, Proc.log, rebinds_append, rebinds]

theorem sys_close_same (p : Proc) (a : Int) : fd_get (sys_close p a).fds a = none := by
  unfold sys_close
  split
  · rename_i d hd
    have hpos : ¬ a < 0 := by
      intro hneg
      rw [fd_get_neg _ _ hneg] at hd
      exact absurd hd (by simp)
    have ha : a = ((a.toNat : Nat) : Int) := by omega
    show fd_get (fd_put p.fds a.toNat none) a = none
    rw [ha, Int.toNat_ofNat, fd_get_put_same]
  · rename_i hd
    exact hd

theorem sys_open_other (h : Host) (p : Proc) (path : Option CStr) (f : OpenFlags) (k : Int)
    (hk : k ≠ (sys_open h p path f).1) :
    fd_get (sys_open h p path f).2.fds k = fd_get p.fds k := by
  unfold sys_open at hk ⊢
  cases path with
  | none => rfl
  | some f0 =>
    cases hres : h.open_result with
    | none => rfl
    | some bytes =>
      simp only [hres] at hk
      exact fd_get_put_other _ _ _ _ hk

theorem redirect_leaves_others (h : Host) (p : Proc) (path : Option CStr) (fl : OpenFlags)
    (t k : Int) (hk : k ≠ t) :
    fd_get (sys_close (sys_dup2 (sys_open h p path fl).2 (sys_open h p path fl).1 t)
      (sys_open h p path fl).1).fds k = fd_get p.fds k := by
  by_cases hkf : k = (sys_open h p path fl).1
  · rw [hkf, sys_close_same, sys_open_fd_free]
  · rw [sys_close_other _ _ _ hkf, sys_dup2_other _ _ _ _ hk, sys_open_other _ _ _ _ _ hkf]

theorem redirect_trace (h : Host) (p : Proc) (path : Option CStr) (fl : OpenFlags) (t : Int)
    (args : List (Option CStr)) :
    opens (sh_launch h (sys_close (sys_dup2 (sys_open h p path fl).2 (sys_open h p path fl).1 t)
        (sys_open h p path fl).1) args).2.trace = opens p.trace ++ [(path, fl)] ∧
    rebinds (sh_launch h (sys_close (sys_dup2 (sys_open h p path fl).2
        (sys_open h p path fl).1 t) (sys_open h p path fl).1) args).2.trace
      = rebinds p.trace ++ [t] := by
  obtain ⟨ho, hr, _⟩ := opens_rebinds_sh_launch h
    (sys_close (sys_dup2 (sys_open h p path fl).2 (sys_open h p path fl).1 t)
      (sys_open h p path fl).1) args
  rw [ho, hr, sys_close_trace, sys_dup2_trace, sys_open_trace]
  simp [opens_append, rebinds_append, opens, rebinds]


theorem sh_execute_output_trunc (h : Host) (p : Proc) (a0 : CStr) (rest pre more : List CStr)
    (hnb : a0 ∉ builtin_str) (hsplit : a0 :: rest = pre ++ cstr ">" :: more)
    (hno : ∀ t ∈ pre, is_redirect t = false) :
    sh_execute h p (vector_of (a0 :: rest)) =
      some (1,
        (sh_launch h
          (sys_close (sys_dup2 (sys_open h p more.head? OpenFlags.wronly_creat_trunc).2
            (sys_open h p more.head? OpenFlags.wronly_creat_trunc).1 1)
            (sys_open h p more.head? OpenFlags.wronly_creat_trunc).1)
          (List.map some pre ++ none :: vector_of more)).2,
        List.map some pre ++ none :: vector_of more) := by
  have hrun := sh_execute_output h p a0 rest pre more (cstr ">") hnb hsplit hno (Or.inl rfl)
  simpa using hrun

theorem sh_execute_output_append (h : Host) (p : Proc) (a0 : CStr) (rest pre more : List CStr)
    (hnb : a0 ∉ builtin_str) (hsplit : a0 :: rest = pre ++ cstr ">>" :: more)
    (hno : ∀ t ∈ pre, is_redirect t = false) :
    sh_execute h p (vector_of (a0 :: rest)) =
      some (1,
        (sh_launch h
          (sys_close (sys_dup2 (sys_open h p more.head? OpenFlags.wronly_creat_append).2
            (sys_open h p more.head? OpenFlags.wronly_creat_append).1 1)
            (sys_open h p more.head? OpenFlags.wronly_creat_append).1)
          (List.map some pre ++ none :: vector_of more)).2,
        List.map some pre ++ none :: vector_of more) := by
  have hrun := sh_execute_output h p a0 rest pre more (cstr ">>") hnb hsplit hno (Or.inr rfl)
  have e : ¬ cstr ">>" = cstr ">" := by decide
  simpa [e] using hrun

/-- C11: for every vector whose first token is not a built-in name, `sh_execute`
issues no `open` and no `dup2` when the vector holds no operator, and otherwise
exactly one `open`, on the token that follows the leftmost operator and with the
flags of that operator, and at most one `dup2` (none when the `<` file cannot be
opened): onto descriptor 0 for `<`, with descriptor 1 bound as before, and
onto descriptor 1 for `>` and `>>`, with descriptor 0 bound as before.
Operators further right add no `open` and no `dup2`. -/
theorem sh_execute_one_redirection (h : Host) (p : Proc) (a0 : CStr) (rest : List CStr)
    (hnb : a0 ∉ builtin_str) :
    ∃ p1 args1, sh_execute h p (vector_of (a0 :: rest)) = some (1, p1, args1) ∧
      (opens p1.trace).length ≤ (opens p.trace).length + 1 ∧
      (rebinds p1.trace).length ≤ (rebinds p.trace).length + 1 ∧
      (first_redirect (a0 :: rest) = none →
        opens p1.trace = opens p.trace ∧ rebinds p1.trace = rebinds p.trace ∧
          p1.fds = p.fds) ∧
      (first_redirect (a0 :: rest) = some (cstr "<") →
        opens p1.trace = opens p.trace ++ [(redirect_target (a0 :: rest), OpenFlags.rdonly)] ∧
          rebinds p1.trace = rebinds p.trace ++
            (if input_redirect_fails h (a0 :: rest) = true then [] else [0]) ∧
          fd_get p1.fds 1 = fd_get p.fds 1) ∧
      (first_redirect (a0 :: rest) = some (cstr ">") →
        opens p1.trace = opens p.trace ++
            [(redirect_target (a0 :: rest), OpenFlags.wronly_creat_trunc)] ∧
          rebinds p1.trace = rebinds p.trace ++ [1] ∧
          fd_get p1.fds 0 = fd_get p.fds 0) ∧
      (first_redirect (a0 :: rest) = some (cstr ">>") →
        opens p1.trace = opens p.trace ++
            [(redirect_target (a0 :: rest), OpenFlags.wronly_creat_append)] ∧
          rebinds p1.trace = rebinds p.trace ++ [1] ∧
          fd_get p1.fds 0 = fd_get p.fds 0) ∧
      (first_redirect (a0 :: rest) = none ∨ first_redirect (a0 :: rest) = some (cstr "<") ∨
        first_redirect (a0 :: rest) = some (cstr ">") ∨
        first_redirect (a0 :: rest) = some (cstr ">>")) := by
  have e1 : ¬ cstr "<" = cstr ">" := by decide
  have e2 : ¬ cstr "<" = cstr ">>" := by decide
  have e3 : ¬ cstr ">" = cstr ">>" := by decide
  rcases tokens_split (a0 :: rest) with ⟨hno, _, hdw⟩ | ⟨pre, op, more, hsplit, hno, hop, _, hdw⟩
  · have hfirst : first_redirect (a0 :: rest) = none := by simp [first_redirect, hdw]
    obtain ⟨ho, hr, hf⟩ := opens_rebinds_sh_launch h p (vector_of (a0 :: rest))
    refine ⟨_, _, sh_execute_no_operator h p a0 rest hnb hno, by rw [ho]; omega,
      by rw [hr]; omega, fun _ => ⟨ho, hr, hf⟩, ?_, ?_, ?_, Or.inl hfirst⟩
    all_goals (intro hx; rw [hfirst] at hx; exact absurd hx (by simp))
  · obtain ⟨hfirst, htarget⟩ := first_redirect_of_split (a0 :: rest) op more hdw
    rcases is_redirect_cases op hop with hgt | hgt | hlt
    · subst hgt
      obtain ⟨ho, hr⟩ := redirect_trace h p more.head? OpenFlags.wronly_creat_trunc 1
        (List.map some pre ++ none :: vector_of more)
      have hf := (opens_rebinds_sh_launch h
        (sys_close (sys_dup2 (sys_open h p more.head? OpenFlags.wronly_creat_trunc).2
          (sys_open h p more.head? OpenFlags.wronly_creat_trunc).1 1)
          (sys_open h p more.head? OpenFlags.wronly_creat_trunc).1)
        (List.map some pre ++ none :: vector_of more)).2.2
      refine ⟨_, _, sh_execute_output_trunc h p a0 rest pre more hnb hsplit hno,
        by rw [ho]; simp, by rw [hr]; simp, ?_, ?_, ?_, ?_, Or.inr (Or.inr (Or.inl hfirst))⟩
      · intro hx; rw [hfirst] at hx; exact absurd hx (by simp)
      · intro hx
        rw [hfirst] at hx
        exact absurd (Option.some.inj hx).symm e1
      · intro _
        refine ⟨by rw [ho, htarget], hr, ?_⟩
        rw [hf]
        exact redirect_leaves_others h p _ _ 1 0 (by decide)
      · intro hx
        rw [hfirst] at hx
        exact absurd (Option.some.inj hx) e3
    · subst hgt
      obtain ⟨ho, hr⟩ := redirect_trace h p more.head? OpenFlags.wronly_creat_append 1
        (List.map some pre ++ none :: vector_of more)
      have hf := (opens_rebinds_sh_launch h
        (sys_close (sys_dup2 (sys_open h p more.head? OpenFlags.wronly_creat_append).2
          (sys_open h p more.head? OpenFlags.wronly_creat_append).1 1)
          (sys_open h p more.head? OpenFlags.wronly_creat_append).1)
        (List.map some pre ++ none :: vector_of more)).2.2
      refine ⟨_, _, sh_execute_output_append h p a0 rest pre more hnb hsplit hno,
        by rw [ho]; simp, by rw [hr]; simp, ?_, ?_, ?_, ?_, Or.inr (Or.inr (Or.inr hfirst))⟩
      · intro hx; rw [hfirst] at hx; exact absurd hx (by simp)
      · intro hx
        rw [hfirst] at hx
        exact absurd (Option.some.inj hx).symm e2
      · intro hx
        rw [hfirst] at hx
        exact absurd (Option.some.inj hx).symm e3
      · intro _
        refine ⟨by rw [ho, htarget], hr, ?_⟩
        rw [hf]
        exact redirect_leaves_others h p _ _ 1 0 (by decide)
    · subst hlt
      have hfails : input_redirect_fails h (a0 :: rest) = true ↔
          (more.head? = none ∨ h.open_result = none) := by
        rw [input_redirect_fails, hfirst, htarget]
        simp [or_comm]
      by_cases hbad : more.head? = none ∨ h.open_result = none
      · have hrun := sh_execute_input_failed h p a0 rest pre more hnb hsplit hno hbad
        have ho : opens ((p.log (Event.sys_open more.head? OpenFlags.rdonly (-1))).log
            (Event.diag "1730sh: Input file not found!")).trace
              = opens p.trace ++ [(more.head?, OpenFlags.rdonly)] := by
          simp [Proc.log, opens_append, opens]
        have hr : rebinds ((p.log (Event.sys_open more.head? OpenFlags.rdonly (-1))).log
            (Event.diag "1730sh: Input file not found!")).trace = rebinds p.trace := by
          simp [Proc.log, rebinds_append, rebinds]
        refine ⟨_, _, hrun, by rw [ho]; simp, by rw [hr]; omega, ?_, ?_, ?_, ?_,
          Or.inr (Or.inl hfirst)⟩
        · intro hx; rw [hfirst] at hx; exact absurd hx (by simp)
        · intro _
          refine ⟨by rw [ho, htarget], ?_, rfl⟩
          rw [hr, if_pos (hfails.mpr hbad)]
          simp
        · intro hx
          rw [hfirst] at hx
          exact absurd (Option.some.inj hx) e1
        · intro hx
          rw [hfirst] at hx
          exact absurd (Option.some.inj hx) e2
      · obtain ⟨ho, hr⟩ := redirect_trace h p more.head? OpenFlags.rdonly 0
          (List.map some pre ++ none :: vector_of more)
        have hf := (opens_rebinds_sh_launch h
          (sys_close (sys_dup2 (sys_open h p more.head? OpenFlags.rdonly).2
            (sys_open h p more.head? OpenFlags.rdonly).1 0)
            (sys_open h p more.head? OpenFlags.rdonly).1)
          (List.map some pre ++ none :: vector_of more)).2.2
        refine ⟨_, _, sh_execute_input h p a0 rest pre more hnb hsplit hno hbad,
          by rw [ho]; simp, by rw [hr]; simp, ?_, ?_, ?_, ?_, Or.inr (Or.inl hfirst)⟩
        · intro hx; rw [hfirst] at hx; exact absurd hx (by simp)
        · intro _
          refine ⟨by rw [ho, htarget], ?_, ?_⟩
          · rw [hr, if_neg (fun hx => hbad (hfails.mp hx))]
          · rw [hf]
            exact redirect_leaves_others h p _ _ 0 1 (by decide)
        · intro hx
          rw [hfirst] at hx
          exact absurd (Option.some.inj hx) e1
        · intro hx
          rw [hfirst] at hx
          exact absurd (Option.some.inj hx) e2


/-- Witness of C11: `sort < in > out` on the sample host. -/
theorem sh_execute_one_redirection_witness :
    cstr "sort" ∉ builtin_str ∧
    ∃ p1 args1, sh_execute sample_host sample_proc
        (vector_of (cstr "sort" :: [cstr "<", cstr "in", cstr ">", cstr "out"]))
          = some (1, p1, args1) ∧
      (opens p1.trace).length ≤ (opens sample_proc.trace).length + 1 ∧
      (rebinds p1.trace).length ≤ (rebinds sample_proc.trace).length + 1 :=
  ⟨by decide,
    (sh_execute_one_redirection sample_host sample_proc (cstr "sort")
      [cstr "<", cstr "in", cstr ">", cstr "out"] (by decide)).imp
      fun _ hp => hp.imp fun _ ha => ⟨ha.1, ha.2.1, ha.2.2.1⟩⟩

theorem sh_execute_launch_names_command (h : Host) (p : Proc) (a0 : CStr) (rest : List CStr)
    (hnb : a0 ∉ builtin_str) (hop : is_redirect a0 = false) :
    ∃ p1 args1, sh_execute h p (vector_of (a0 :: rest)) = some (1, p1, args1) ∧
      args1.head? = some (some a0) := by
  have hhead : ∀ (pre : List CStr) (op : CStr) (more : List CStr) (x : List (Option CStr)),
      a0 :: rest = pre ++ op :: more → is_redirect op = true →
      (List.map some pre ++ x).head? = some (some a0) := by
    intro pre op more x hsplit hopr
    cases pre with
    | nil =>
      simp only [List.nil_append, List.cons.injEq] at hsplit
      rw [← hsplit.1, hop] at hopr
      exact absurd hopr (by decide)
    | cons b pre =>
      simp only [List.cons_append, List.cons.injEq] at hsplit
      simp [hsplit.1]
  rcases tokens_split (a0 :: rest) with ⟨hno, _, _⟩ | ⟨pre, op, more, hsplit, hno, hopr, _, _⟩
  · exact ⟨_, _, sh_execute_no_operator h p a0 rest hnb hno, by simp [vector_of]⟩
  · rcases is_redirect_cases op hopr with hgt | hgt | hlt
    · exact ⟨_, _, sh_execute_output h p a0 rest pre more op hnb hsplit hno (Or.inl hgt),
        hhead pre op more _ hsplit hopr⟩
    · exact ⟨_, _, sh_execute_output h p a0 rest pre more op hnb hsplit hno (Or.inr hgt),
        hhead pre op more _ hsplit hopr⟩
    · subst hlt
      by_cases hbad : more.head? = none ∨ h.open_result = none
      · exact ⟨_, _, sh_execute_input_failed h p a0 rest pre more hnb hsplit hno hbad,
          by simp [vector_of]⟩
      · exact ⟨_, _, sh_execute_input h p a0 rest pre more hnb hsplit hno hbad,
          hhead pre _ more _ hsplit hopr⟩

/-- C12: the vector handed to `sh_launch` can lack a command name.  On the
vector of the line `> out`, whose first token is the operator itself,
`sh_execute` sets slot 0 to the sentinel and enters `sh_launch` with that
vector: element 0 of the vector handed to the launcher is the sentinel and
`execvp` is given no token at all. -/
theorem sh_execute_launches_without_command :
    ∃ p1, sh_execute sample_host sample_proc (vector_of [cstr ">", cstr "out"])
        = some (1, p1, [none, some (cstr "out"), none]) ∧
      launched p1.trace = [[none, some (cstr "out"), none]] ∧
      ([none, some (cstr "out"), none] : List (Option CStr)).head? = some none ∧
      argv_of [none, some (cstr "out"), none] = [] := by
  have hrun := sh_execute_output_trunc sample_host sample_proc (cstr ">") [cstr "out"] []
    [cstr "out"] (by decide) rfl (by simp)
  refine ⟨_, hrun, ?_, rfl, rfl⟩
  rw [launched_sh_launch, launched_sys_close, launched_sys_dup2, launched_sys_open]
  rfl

/-- C15: when the first operator of a non-built-in vector is `>` or `>>` and its
file cannot be opened (the host refuses, or no name follows the operator),
`sh_execute` still sets the operator's slot to the sentinel, enters `sh_launch`
once with that vector, whose tokens are those before the operator, leaves the
descriptor table as it was (descriptor 1 included; the one `dup2` it issues,
from the failed descriptor, changes nothing) and returns 1. -/
theorem sh_execute_output_open_failure (h : Host) (p : Proc) (a0 : CStr)
    (rest pre more : List CStr) (op : CStr) (hnb : a0 ∉ builtin_str)
    (hsplit : a0 :: rest = pre ++ op :: more) (hno : ∀ t ∈ pre, is_redirect t = false)
    (hop : op = cstr ">" ∨ op = cstr ">>")
    (hfail : more.head? = none ∨ h.open_result = none) :
    ∃ p1, sh_execute h p (vector_of (a0 :: rest))
        = some (1, p1, List.map some pre ++ none :: vector_of more) ∧
      launched p1.trace = launched p.trace ++ [List.map some pre ++ none :: vector_of more] ∧
      argv_of (List.map some pre ++ none :: vector_of more) = pre ∧
      p1.fds = p.fds ∧ fd_get p1.fds 1 = fd_get p.fds 1 ∧
      rebinds p1.trace = rebinds p.trace ++ [1] := by
  have hrun := sh_execute_output h p a0 rest pre more op hnb hsplit hno hop
  have hfds : ∀ fl : OpenFlags,
      (sys_close (sys_dup2 (sys_open h p more.head? fl).2 (sys_open h p more.head? fl).1 1)
        (sys_open h p more.head? fl).1).fds = p.fds := by
    intro fl
    rw [sys_open_failed h p more.head? fl hfail]
    simp [sys_dup2, sys_close, fd_get, Proc.log]
  refine ⟨_, hrun, ?_, argv_of_truncated pre _, ?_, ?_, ?_⟩
  · rw [launched_sh_launch, launched_sys_close, launched_sys_dup2, launched_sys_open]
  · rw [(sh_launch_frame h _ _).1, hfds]
  · rw [(sh_launch_frame h _ _).1, hfds]
  · exact (redirect_trace h p more.head? _ 1 _).2

/-- Witness of C15: `ls > out` on a host that refuses the `open`. -/
theorem sh_execute_output_open_failure_witness :
    ∃ p1, sh_execute refusing_host sample_proc (vector_of (cstr "ls" :: [cstr ">", cstr "out"]))
        = some (1, p1, List.map some [cstr "ls"] ++ none :: vector_of [cstr "out"]) ∧
      launched p1.trace = launched sample_proc.trace ++
        [List.map some [cstr "ls"] ++ none :: vector_of [cstr "out"]] ∧
      argv_of (List.map some [cstr "ls"] ++ none :: vector_of [cstr "out"]) = [cstr "ls"] ∧
      p1.fds = sample_proc.fds ∧ fd_get p1.fds 1 = fd_get sample_proc.fds 1 ∧
      rebinds p1.trace = rebinds sample_proc.trace ++ [1] :=
  sh_execute_output_open_failure refusing_host sample_proc (cstr "ls") [cstr ">", cstr "out"]
    [cstr "ls"] [cstr "out"] (cstr ">") (by decide) rfl (by decide) (Or.inl rfl) (Or.inr rfl)


/-! ## Proofs: the indices read by `sh_execute` -/

theorem redirect_loop_reads_fst (h : Host) : ∀ (fuel i : Nat) (p : Proc)
    (args : List (Option CStr)),
    (redirect_loop_reads h fuel i p args).1 = redirect_loop h fuel i p args := by
  intro fuel
  induction fuel with
  | zero => intro i p args; rfl
  | succ fuel ih =>
    intro i p args
    rw [redirect_loop_reads, redirect_loop]
    cases args.get? i with
    | none => rfl
    | some slot =>
      cases slot with
      | none => rfl
      | some tok =>
        simp only
        by_cases h1 : tok = cstr ">"
        · simp only [h1, if_true]
          cases args.get? (i + 1) <;> rfl
        · by_cases h2 : tok = cstr ">>"
          · simp only [h1, h2, if_true, if_false]
            cases args.get? (i + 1) <;> rfl
          · by_cases h3 : tok = cstr "<"
            · subst h3
              simp only [h1, h2, if_true, if_false]
              cases args.get? (i + 1) with
              | none => rfl
              | some path => simp only; split <;> rfl
            · simp only [h1, h2, h3, if_false]
              exact ih (i + 1) p args

theorem vector_of_get_sentinel (tokens : List CStr) :
    (vector_of tokens).get? tokens.length = some none := by
  simp [vector_of]

theorem vector_of_get_beyond (tokens : List CStr) (i : Nat)
    (hi : (vector_of tokens).get? i ≠ none) : i ≤ tokens.length := by
  by_contra hlt
  apply hi
  have : (vector_of tokens).length ≤ i := by simp [vector_of]; omega
  simp [List.getElem?_eq_none this]

theorem vector_of_get_token (tokens : List CStr) (i : Nat) (tok : CStr)
    (hi : (vector_of tokens).get? i = some (some tok)) : i + 1 ≤ tokens.length := by
  have hle := vector_of_get_beyond tokens i (by rw [hi]; simp)
  rcases Nat.lt_or_ge i tokens.length with hlt | hge
  · omega
  · have : i = tokens.length := by omega
    rw [this, vector_of_get_sentinel] at hi
    exact absurd hi (by simp)

theorem redirect_loop_reads_bound (h : Host) (tokens : List CStr) : ∀ (fuel i : Nat) (p : Proc),
    ∀ idx ∈ (redirect_loop_reads h fuel i p (vector_of tokens)).2,
      i ≤ tokens.length → idx ≤ tokens.length := by
  intro fuel
  induction fuel with
  | zero => intro i p idx hidx; simp [redirect_loop_reads] at hidx
  | succ fuel ih =>
    intro i p idx hidx hi
    rw [redirect_loop_reads] at hidx
    cases hget : (vector_of tokens).get? i with
    | none =>
      simp only [hget, List.mem_singleton] at hidx
      omega
    | some slot =>
      cases slot with
      | none =>
        simp only [hget, List.mem_singleton] at hidx
        omega
      | some tok =>
        have hnext := vector_of_get_token tokens i tok hget
        have hpair : ∀ x, x ∈ [i, i + 1] → x ≤ tokens.length := by
          intro x hx
          simp only [List.mem_cons, List.mem_singleton, List.not_mem_nil, or_false] at hx
          omega
        simp only [hget] at hidx
        by_cases h1 : tok = cstr ">"
        · simp only [h1, if_true] at hidx
          cases hn : (vector_of tokens).get? (i + 1) <;> simp only [hn] at hidx <;>
            exact hpair idx hidx
        · by_cases h2 : tok = cstr ">>"
          · simp only [h1, h2, if_true, if_false] at hidx
            cases hn : (vector_of tokens).get? (i + 1) <;> simp only [hn] at hidx <;>
              exact hpair idx hidx
          · by_cases h3 : tok = cstr "<"
            · subst h3
              simp only [h1, h2, if_true, if_false] at hidx
              cases hn : (vector_of tokens).get? (i + 1) with
              | none => simp only [hn] at hidx; exact hpair idx hidx
              | some path =>
                simp only [hn] at hidx
                split at hidx <;> exact hpair idx hidx
            · simp only [h1, h2, h3, if_false] at hidx
              rcases List.mem_cons.mp hidx with rfl | hrest
              · exact hi
              · exact ih (i + 1) p idx hrest hnext


/-- C16: on every sentinel-terminated vector, each index that `sh_execute` reads
(`args[0]`, `args[i]` at each turn of the scan, `args[i + 1]` as the target of
an operator) is at most the index of the sentinel, hence inside the vector, and
`sh_execute` returns; the scan that reads these indices is the scan of
`sh_execute`.  With the operator as last token, as in `ls >`, the target read
is the sentinel itself, at index 2. -/
theorem sh_execute_reads_within_vector (h : Host) (p : Proc) (tokens : List CStr) :
    (∀ idx ∈ sh_execute_reads h p (vector_of tokens),
      idx ≤ tokens.length ∧ (vector_of tokens).get? idx ≠ none) ∧
    (redirect_loop_reads h ((vector_of tokens).length + 1) 0 p (vector_of tokens)).1
      = redirect_loop h ((vector_of tokens).length + 1) 0 p (vector_of tokens) ∧
    sh_execute h p (vector_of tokens) ≠ none ∧
    sh_execute_reads sample_host sample_proc (vector_of [cstr "ls", cstr ">"]) = [0, 0, 1, 2] ∧
    (vector_of [cstr "ls", cstr ">"]).get? 2 = some none := by
  have hin : ∀ idx, idx ≤ tokens.length → (vector_of tokens).get? idx ≠ none := by
    intro idx hle
    have hlt : idx < (vector_of tokens).length := by simp [vector_of]; omega
    simp [List.getElem?_eq_getElem hlt]
  have hbound : ∀ idx ∈ sh_execute_reads h p (vector_of tokens), idx ≤ tokens.length := by
    intro idx hidx
    unfold sh_execute_reads at hidx
    split at hidx
    · split at hidx
      · simp only [List.mem_singleton] at hidx
        omega
      · rcases List.mem_cons.mp hidx with rfl | hrest
        · omega
        · exact redirect_loop_reads_bound h tokens _ 0 p idx hrest (Nat.zero_le _)
    · simp only [List.mem_singleton] at hidx
      omega
  refine ⟨fun idx hidx => ⟨hbound idx hidx, hin idx (hbound idx hidx)⟩,
    redirect_loop_reads_fst h _ 0 p _, ?_, by decide, by decide⟩
  obtain ⟨status, p1, args1, hrun, _⟩ := sh_execute_frame h p tokens
  rw [hrun]
  simp


/-! ## Proofs: the capacity of the line buffer -/

theorem sh_read_loop_stores_spec : ∀ (fuel bufsize position : Nat) (buffer : List Nat)
    (st : ReadState) (stream : Option (List Nat)), position = buffer.length →
    bufsize = SH_RL_BUFSIZE * (position / SH_RL_BUFSIZE + 1) →
    (sh_read_loop_stores fuel bufsize position buffer st stream).1
        = sh_read_loop fuel bufsize position buffer st stream ∧
    (∀ e ∈ (sh_read_loop_stores fuel bufsize position buffer st stream).2,
      e.1 < e.2.1 ∧ e.2.1 = SH_RL_BUFSIZE * (e.1 / SH_RL_BUFSIZE + 1)) ∧
    (sh_read_loop_stores fuel bufsize position buffer st stream).2.map (fun e => e.1)
        = List.range' position
            (sh_read_loop_stores fuel bufsize position buffer st stream).2.length ∧
    (∀ b st1 rest,
      (sh_read_loop_stores fuel bufsize position buffer st stream).1 = some (b, st1, rest) →
      b = buffer ++ (sh_read_loop_stores fuel bufsize position buffer st stream).2.map
        (fun e => e.2.2)) := by
  intro fuel
  induction fuel with
  | zero =>
    intro bufsize position buffer st stream _ _
    simp [sh_read_loop_stores, sh_read_loop]
  | succ fuel ih =>
    intro bufsize position buffer st stream hpos hcap
    have hlt : position < bufsize := by
      rw [hcap]; simp only [SH_RL_BUFSIZE]; omega
    have hinv : position < bufsize ∧ bufsize = SH_RL_BUFSIZE * (position / SH_RL_BUFSIZE + 1) :=
      ⟨hlt, hcap⟩
    have hstore : ∀ v : Nat, store buffer bufsize position v = some (buffer ++ [v]) := by
      intro v
      rw [hpos]
      exact store_at_end _ _ _ (by rw [← hpos]; exact hlt)
    rw [sh_read_loop_stores, sh_read_loop]
    cases hread : my_read st stream with
    | none => simp
    | some r =>
      obtain ⟨c, st1, stream1⟩ := r
      simp only
      by_cases hc : c = EOF ∨ c = 10
      · simp only [hc, if_true, hstore]
        refine ⟨trivial, ?_, by simp [List.range'], ?_⟩
        · intro e he
          simp only [List.mem_singleton] at he
          rw [he]
          exact hinv
        · intro b st2 rest hb
          simp only [Option.some.injEq, Prod.mk.injEq] at hb
          simp [← hb.1]
      · simp only [hc, if_false, hstore]
        have hcap1 : (if position + 1 ≥ bufsize then bufsize + SH_RL_BUFSIZE else bufsize)
            = SH_RL_BUFSIZE * ((position + 1) / SH_RL_BUFSIZE + 1) := by
          rw [hcap]
          simp only [SH_RL_BUFSIZE]
          split <;> omega
        obtain ⟨h1, h2, h3, h4⟩ := ih
          (if position + 1 ≥ bufsize then bufsize + SH_RL_BUFSIZE else bufsize) (position + 1)
          (buffer ++ [int_to_char c]) st1 stream1 (by simp [hpos]) hcap1
        refine ⟨h1, ?_, ?_, ?_⟩
        · intro e he
          rcases List.mem_cons.mp he with rfl | he
          · exact hinv
          · exact h2 e he
        · simp only [List.map_cons, List.length_cons, List.range'_succ, h3]
        · intro b st2 rest hb
          rw [h4 b st2 rest hb]
          simp

/-- C13: in every run of `sh_read_line`, whatever the statics of `my_read` and
the input, the stores into the line buffer are made at the positions 0, 1, 2
and so on, the terminator included, and at each of them the capacity is
`1024 * (position / 1024 + 1)`, which exceeds the position: the capacity starts
at 1024 and grows by 1024 whenever the position reaches it.  The buffer
returned holds the bytes stored, in the order of the stores, so growth loses
none of them.  The run observed is the run of `sh_read_line`. -/
theorem sh_read_line_capacity (st : ReadState) (stream : Option (List Nat)) :
    (sh_read_line_stores st stream).1 = sh_read_line st stream ∧
    (∀ e ∈ (sh_read_line_stores st stream).2,
      e.1 < e.2.1 ∧ e.2.1 = 1024 * (e.1 / 1024 + 1)) ∧
    (sh_read_line_stores st stream).2.map (fun e => e.1)
      = List.range (sh_read_line_stores st stream).2.length ∧
    (∀ b st1 rest, sh_read_line st stream = some (b, st1, rest) →
      b = (sh_read_line_stores st stream).2.map (fun e => e.2.2)) := by
  obtain ⟨h1, h2, h3, h4⟩ := sh_read_loop_stores_spec
    (stream_length stream + st.i.toNat + 2) SH_RL_BUFSIZE 0 [] st stream rfl (by decide)
  refine ⟨h1, h2, ?_, ?_⟩
  · rw [List.range_eq_range']
    exact h3
  · intro b st1 rest hb
    have := h4 b st1 rest (by rw [h1]; exact hb)
    simpa using this


/-! ## Proofs: `str_replace` -/

theorem replace_scan_skip (rep w : CStr) : ∀ (t : CStr) (k : Nat),
    replace_scan rep w k t = replace_scan rep w 0 (t.drop k) ∧
    count_scan rep k t = count_scan rep 0 (t.drop k) := by
  intro t
  induction t with
  | nil => intro k; cases k <;> simp [replace_scan, count_scan]
  | cons c t ih =>
    intro k
    cases k with
    | zero => simp
    | succ k => simpa [replace_scan, count_scan] using ih k

theorem strstr_none (rep w : CStr) (hrep : rep ≠ []) : ∀ (s : CStr), strstr rep s = none →
    replace_scan rep w 0 s = s ∧ count_scan rep 0 s = 0 ∧ ¬ rep <:+: s := by
  intro s
  induction s with
  | nil =>
    intro _
    refine ⟨rfl, rfl, ?_⟩
    intro hinf
    exact hrep (List.eq_nil_of_infix_nil hinf)
  | cons c t ih =>
    intro hs
    rw [strstr] at hs
    by_cases hp : rep.isPrefixOf (c :: t) = true
    · simp [hp] at hs
    · simp only [hp, Bool.false_eq_true, if_false, Option.map_eq_none'] at hs
      obtain ⟨h1, h2, h3⟩ := ih hs
      refine ⟨by simp [replace_scan, hp, h1], by simp [count_scan, hp, h2], ?_⟩
      intro hinf
      rcases List.infix_cons_iff.mp hinf with hpre | hin
      · exact hp (List.isPrefixOf_iff_prefix.mpr hpre)
      · exact h3 hin

theorem strstr_some (rep w : CStr) (hrep : rep ≠ []) : ∀ (s : CStr) (off : Nat),
    strstr rep s = some off →
    replace_scan rep w 0 s
        = s.take off ++ w ++ replace_scan rep w 0 (s.drop (off + rep.length)) ∧
    count_scan rep 0 s = 1 + count_scan rep 0 (s.drop (off + rep.length)) ∧
    off + rep.length ≤ s.length ∧ rep <:+: s := by
  intro s
  induction s with
  | nil =>
    intro off hs
    simp [strstr, hrep] at hs
  | cons c t ih =>
    intro off hs
    rw [strstr] at hs
    have hlen : 1 ≤ rep.length := by
      cases rep with
      | nil => exact absurd rfl hrep
      | cons _ _ => simp
    by_cases hp : rep.isPrefixOf (c :: t) = true
    · simp only [hp, if_true, Option.some.injEq] at hs
      subst hs
      have hpre := List.isPrefixOf_iff_prefix.mp hp
      have hdrop : (c :: t).drop (0 + rep.length) = t.drop (rep.length - 1) := by
        obtain ⟨k, hk⟩ : ∃ k, rep.length = k + 1 := ⟨rep.length - 1, by omega⟩
        simp [hk]
      refine ⟨?_, ?_, by simpa using hpre.length_le, hpre.isInfix⟩
      · rw [hdrop]
        simp [replace_scan, hp, (replace_scan_skip rep w t (rep.length - 1)).1]
      · rw [hdrop]
        simp [count_scan, hp, (replace_scan_skip rep w t (rep.length - 1)).2]
    · simp only [hp, Bool.false_eq_true, if_false, Option.map_eq_some'] at hs
      obtain ⟨off1, hoff1, rfl⟩ := hs
      obtain ⟨h1, h2, h3, h4⟩ := ih off1 hoff1
      have hdrop : (c :: t).drop (off1 + 1 + rep.length) = t.drop (off1 + rep.length) := by
        rw [show off1 + 1 + rep.length = (off1 + rep.length) + 1 by omega]
        rfl
      refine ⟨?_, ?_, by simp; omega, ?_⟩
      · rw [hdrop]
        simp [replace_scan, hp, h1]
      · rw [hdrop]
        simp [count_scan, hp, h2]
      · exact List.infix_cons h4


theorem int_val_some (x : Int) (h1 : INT_MIN ≤ x) (h2 : x ≤ INT_MAX) : int_val x = some x := by
  simp [int_val, h1, h2]

theorem rep_length_pos (rep : CStr) (hrep : rep ≠ []) : 1 ≤ rep.length := by
  cases rep with
  | nil => exact absurd rfl hrep
  | cons _ _ => simp

theorem str_replace_count_spec (rep : CStr) (hrep : rep ≠ []) : ∀ (fuel : Nat) (ins : CStr)
    (count : Nat), ins.length + 1 ≤ fuel → ((count + ins.length : Nat) : Int) ≤ INT_MAX →
    str_replace_count rep fuel ins (count : Int)
      = some ((count + count_scan rep 0 ins : Nat) : Int) := by
  intro fuel
  induction fuel with
  | zero => intro ins count h; omega
  | succ fuel ih =>
    intro ins count hfuel hfit
    have hlen := rep_length_pos rep hrep
    rw [str_replace_count]
    cases hs : strstr rep ins with
    | none =>
      obtain ⟨_, h2, _⟩ := strstr_none rep [] hrep ins hs
      simp [h2]
    | some off =>
      obtain ⟨_, h2, h3, _⟩ := strstr_some rep [] hrep ins off hs
      have hnext : int_val ((count : Int) + 1) = some ((count + 1 : Nat) : Int) := by
        rw [int_val_some _ (by unfold INT_MIN; omega) (by push_cast at hfit; omega)]
        simp
      rw [hnext]
      dsimp only
      rw [ih _ _ (by simp only [List.length_drop]; omega)
        (by simp only [List.length_drop]; push_cast at hfit ⊢; omega), h2]
      rw [show count + 1 + count_scan rep 0 (List.drop (off + rep.length) ins)
        = count + (1 + count_scan rep 0 (List.drop (off + rep.length) ins)) by omega]

theorem replace_scan_length (rep w : CStr) (hrep : rep ≠ []) : ∀ (n : Nat) (s : CStr),
    s.length ≤ n →
    (replace_scan rep w 0 s).length + rep.length * count_scan rep 0 s
      = s.length + w.length * count_scan rep 0 s := by
  intro n
  induction n with
  | zero =>
    intro s hs
    have : s = [] := List.eq_nil_of_length_eq_zero (by omega)
    subst this
    simp [replace_scan, count_scan]
  | succ n ih =>
    intro s hs
    have hlen := rep_length_pos rep hrep
    cases hstr : strstr rep s with
    | none =>
      obtain ⟨h1, h2, _⟩ := strstr_none rep w hrep s hstr
      rw [h1, h2]
      simp
    | some off =>
      obtain ⟨h1, h2, h3, _⟩ := strstr_some rep w hrep s off hstr
      have hrec := ih (s.drop (off + rep.length)) (by simp only [List.length_drop]; omega)
      rw [h1, h2]
      simp only [List.length_append, List.length_take, List.length_drop] at hrec ⊢
      rw [Nat.min_eq_left (by omega)]
      rw [Nat.mul_add, Nat.mul_add]
      omega

theorem str_replace_copy_spec (rep w : CStr) (hrep : rep ≠ []) (cap : Nat) : ∀ (count : Nat)
    (orig : CStr) (result : List Nat), count = count_scan rep 0 orig →
    (orig.length : Int) ≤ INT_MAX →
    result.length + (replace_scan rep w 0 orig).length + 1 ≤ cap →
    str_replace_copy rep w cap count orig result
      = some (result ++ replace_scan rep w 0 orig ++ [0]) := by
  intro count
  induction count with
  | zero =>
    intro orig result hcount _ hcap
    have hnone : strstr rep orig = none := by
      cases hs : strstr rep orig with
      | none => rfl
      | some off =>
        have := (strstr_some rep w hrep orig off hs).2.1
        omega
    have h1 := (strstr_none rep w hrep orig hnone).1
    rw [h1] at hcap ⊢
    simp [str_replace_copy, hcap]
  | succ count ih =>
    intro orig result hcount hfit hcap
    cases hs : strstr rep orig with
    | none =>
      have := (strstr_none rep w hrep orig hs).2.1
      omega
    | some off =>
      obtain ⟨h1, h2, h3, _⟩ := strstr_some rep w hrep orig off hs
      have htake : (orig.take off).length = off := by
        rw [List.length_take]; omega
      rw [h1] at hcap ⊢
      simp only [List.length_append, htake] at hcap
      have hc1 : result.length + off ≤ cap := by omega
      have hc2 : result.length + off + w.length + 1 ≤ cap := by omega
      have hfront : int_of_size off = some (off : Int) :=
        int_val_some _ (by unfold INT_MIN; omega) (by omega)
      have hstep : int_val ((off : Int) + (rep.length : Int))
          = some ((off : Int) + (rep.length : Int)) :=
        int_val_some _ (by unfold INT_MIN; omega) (by omega)
      have hnat : ((off : Int) + (rep.length : Int)).toNat = off + rep.length := by omega
      rw [str_replace_copy, hs]
      simp only [hfront, hstep, hnat, hc1, hc2, if_true]
      rw [ih _ _ (by omega) (by simp only [List.length_drop]; omega)
        (by simp only [List.length_append, htake]; omega)]
      simp

theorem replace_scan_length_int (orig rep w : CStr) (hrep : rep ≠ []) :
    ((replace_scan rep w 0 orig).length : Int)
      = (orig.length : Int) + ((w.length : Int) - (rep.length : Int))
          * (count_scan rep 0 orig : Int) := by
  have hN := replace_scan_length rep w hrep orig.length orig (le_refl _)
  have hZ : ((replace_scan rep w 0 orig).length : Int)
      + (rep.length : Int) * (count_scan rep 0 orig : Int)
      = (orig.length : Int) + (w.length : Int) * (count_scan rep 0 orig : Int) := by
    exact_mod_cast hN
  linear_combination hZ

theorem count_scan_le (rep : CStr) (hrep : rep ≠ []) (orig : CStr) :
    count_scan rep 0 orig ≤ orig.length := by
  have hN := replace_scan_length rep [] hrep orig.length orig (le_refl _)
  have hlen := rep_length_pos rep hrep
  simp only [List.length_nil, Nat.zero_mul, Nat.add_zero] at hN
  have : count_scan rep 0 orig ≤ rep.length * count_scan rep 0 orig :=
    Nat.le_mul_of_pos_left _ hlen
  omega

theorem str_replace_size_eq (orig rep w : CStr) (hrep : rep ≠ [])
    (horig : (orig.length : Int) ≤ INT_MAX) (hlrep : (rep.length : Int) ≤ INT_MAX)
    (hlw : (w.length : Int) ≤ INT_MAX)
    (hprod : ((w.length : Int) - (rep.length : Int)) * (count_scan rep 0 orig : Int)
      ≤ INT_MAX) :
    str_replace_size orig.length (rep.length : Int) (w.length : Int)
        (count_scan rep 0 orig : Int)
      = some ((replace_scan rep w 0 orig).length + 1) := by
  have hlen := replace_scan_length_int orig rep w hrep
  have hd : int_val ((w.length : Int) - (rep.length : Int))
      = some ((w.length : Int) - (rep.length : Int)) :=
    int_val_some _ (by unfold INT_MIN; unfold INT_MAX at hlrep; omega) (by omega)
  have hlow : INT_MIN ≤ ((w.length : Int) - (rep.length : Int))
      * (count_scan rep 0 orig : Int) := by
    unfold INT_MIN
    unfold INT_MAX at horig
    omega
  have hp := int_val_some _ hlow hprod
  unfold str_replace_size
  simp only [hd, hp, Option.some.injEq]
  rw [← hlen]
  have hsmall : ((replace_scan rep w 0 orig).length : Int) + 1 < 18446744073709551616 := by
    unfold INT_MAX at horig hprod
    omega
  rw [Int.emod_eq_of_lt (by omega) hsmall]
  omega

/-- What holds of `str_replace` while its `int` arithmetic stays in range: for
every non-empty `rep` and every `with_` (null standing for the empty string),
all of them shorter than 2^31 bytes and with `(len_with - len_rep) * count`
at most `INT_MAX`, `str_replace` returns, with its terminator, the string
`orig` in which each occurrence of `rep` met by the left-to-right,
non-overlapping scan is replaced; the counting loop finds the occurrences of
that scan; the length of the result is `len(orig) + (len(with) - len(rep)) *
count`, the allocation holds exactly the result and its terminator and no
copy runs past it; when `rep` does not occur the result is `orig`; and an
empty `rep`, a null `orig` or a null `rep` give the null result. -/
theorem str_replace_within_int (orig rep : CStr) (with_ : Option CStr) (hrep : rep ≠ [])
    (horig : (orig.length : Int) ≤ INT_MAX) (hlrep : (rep.length : Int) ≤ INT_MAX)
    (hlw : ((with_.getD []).length : Int) ≤ INT_MAX)
    (hprod : (((with_.getD []).length : Int) - (rep.length : Int))
      * (count_scan rep 0 orig : Int) ≤ INT_MAX) :
    str_replace (some orig) (some rep) with_
      = some (some (replace_scan rep (with_.getD []) 0 orig ++ [0])) ∧
    str_replace_count rep (orig.length + 1) orig 0 = some (count_scan rep 0 orig : Int) ∧
    ((replace_scan rep (with_.getD []) 0 orig).length : Int)
      = (orig.length : Int) + (((with_.getD []).length : Int) - (rep.length : Int))
          * (count_scan rep 0 orig : Int) ∧
    str_replace_size orig.length (rep.length : Int) ((with_.getD []).length : Int)
        (count_scan rep 0 orig : Int)
      = some (replace_scan rep (with_.getD []) 0 orig ++ [0]).length ∧
    (¬ rep <:+: orig → replace_scan rep (with_.getD []) 0 orig = orig) ∧
    str_replace (some orig) (some []) with_ = some none ∧
    str_replace none (some rep) with_ = some none ∧
    str_replace (some orig) none with_ = some none := by
  have hcount := str_replace_count_spec rep hrep (orig.length + 1) orig 0 (le_refl _)
    (by simpa using horig)
  simp only [Nat.zero_add, Nat.cast_zero] at hcount
  have hsize := str_replace_size_eq orig rep (with_.getD []) hrep horig hlrep hlw hprod
  have hlen := rep_length_pos rep hrep
  have hlr : int_of_size rep.length = some (rep.length : Int) :=
    int_val_some _ (by unfold INT_MIN; omega) hlrep
  have hlwv : int_of_size (with_.getD []).length = some ((with_.getD []).length : Int) :=
    int_val_some _ (by unfold INT_MIN; omega) hlw
  have hne : ¬ (rep.length : Int) = 0 := by omega
  refine ⟨?_, hcount, replace_scan_length_int orig rep _ hrep, ?_, ?_, ?_, rfl, rfl⟩
  · have hcopy := str_replace_copy_spec rep (with_.getD []) hrep
      ((replace_scan rep (with_.getD []) 0 orig).length + 1) (count_scan rep 0 orig) orig []
      rfl horig (by simp)
    have hmax : ¬ (replace_scan rep (with_.getD []) 0 orig).length + 1 > PTRDIFF_MAX := by
      have := replace_scan_length_int orig rep (with_.getD []) hrep
      unfold INT_MAX at horig hprod
      unfold PTRDIFF_MAX
      omega
    simp only [str_replace, hlr, hlwv, hne, if_false, hcount, hsize, hmax, Int.toNat_ofNat,
      hcopy, List.nil_append]
  · rw [hsize]
    simp
  · intro hno
    cases hs : strstr rep orig with
    | none => exact (strstr_none rep _ hrep orig hs).1
    | some off => exact absurd (strstr_some rep [] hrep orig off hs).2.2.2 hno
  · simp [str_replace, int_of_size, int_val, INT_MIN, INT_MAX]

theorem str_replace_within_int_home :
    str_replace (some (cstr "/home/u/src")) (some (cstr "/home/u")) (some (cstr "~"))
      = some (some (cstr "~/src" ++ [0])) ∧
    replace_scan (cstr "aa") (cstr "b") 0 (cstr "aaa") = cstr "ba" := by
  have h := (str_replace_within_int (cstr "/home/u/src") (cstr "/home/u") (some (cstr "~"))
    (by decide) (by decide) (by decide) (by decide) (by decide)).1
  have e : replace_scan (cstr "/home/u") ((some (cstr "~")).getD []) 0 (cstr "/home/u/src")
      = cstr "~/src" := by decide
  rw [e] at h
  exact ⟨h, by decide⟩

theorem my_read_calls_after_end (st : ReadState) (stream : Option (List Nat))
    (hi : st.i < 0) : ∀ k : Nat, INT_MIN ≤ st.i - k →
    my_read_calls k st stream
      = some (List.replicate k EOF, { st with i := st.i - k }, stream) := by
  intro k
  induction k with
  | zero => intro _; simp [my_read_calls]
  | succ k ih =>
    intro hk
    have hk1 : INT_MIN ≤ st.i - k := by push_cast at hk; omega
    rw [my_read_calls, ih hk1]
    have hneg : ({ st with i := st.i - k } : ReadState).i < 0 := by
      show st.i - k < 0
      omega
    have hmin : INT_MIN < ({ st with i := st.i - k } : ReadState).i := by
      show INT_MIN < st.i - k
      push_cast at hk
      omega
    simp only [my_read_after_end _ hneg hmin]
    rw [List.replicate_succ']
    have : st.i - (k : Int) - 1 = st.i - ((k + 1 : Nat) : Int) := by push_cast; omega
    rw [this]

theorem my_read_calls_overflow (st : ReadState) (stream : Option (List Nat))
    (hi : st.i < 0) (k : Nat) (hk : st.i - k = INT_MIN) :
    my_read_calls (k + 1) st stream = none := by
  rw [my_read_calls, my_read_calls_after_end st stream hi k (by omega)]
  have hmin : ({ st with i := st.i - k } : ReadState).i ≤ INT_MIN := by
    show st.i - k ≤ INT_MIN
    omega
  simp only [my_read_overflow _ hmin]

/-- C14: the end of the stream in `my_read` is not sticky for ever.  The call
that finds standard input at its end returns `EOF` and leaves `i` at -1 (at
-2 when the read fails).  Each of the next 2^31 - 1 calls returns `EOF` and
reads nothing, whatever bytes standard input holds by then, and each
`sh_read_line` among them returns the empty string; every call decrements `i`.
The call after these finds `i` at the least `int`: its decrement overflows, so
neither `my_read` nor `sh_read_line` is bound to return `EOF` or the empty
string there. -/
theorem my_read_end_of_stream_wears_off :
    my_read my_read_init (some []) = some (EOF, { my_read_init with i := -1 }, some []) ∧
    my_read my_read_init none = some (EOF, { my_read_init with i := -2 }, none) ∧
    (∀ (more : List Nat) (k : Fin 2147483648),
      my_read_calls k.val { my_read_init with i := -1 } (some more)
        = some (List.replicate k.val EOF, { my_read_init with i := -1 - k.val }, some more)) ∧
    (∀ (more : List Nat) (k : Fin 2147483647),
      sh_read_line { my_read_init with i := -1 - k.val } (some more)
        = some ([0], { my_read_init with i := -1 - k.val - 1 }, some more)) ∧
    (∀ more : List Nat,
      my_read_calls 2147483648 { my_read_init with i := -1 } (some more) = none) ∧
    (∀ more : List Nat, my_read { my_read_init with i := INT_MIN } (some more) = none) ∧
    (∀ more : List Nat, sh_read_line { my_read_init with i := INT_MIN } (some more) = none) := by
  refine ⟨my_read_at_end my_read_init rfl, ?_, ?_, ?_, ?_, ?_, ?_⟩
  · simp [my_read, my_read_init, sys_read, INT_MIN, EOF]
  · intro more k
    have hk := k.isLt
    exact my_read_calls_after_end { my_read_init with i := -1 } (some more) (by decide) k.val
      (by show INT_MIN ≤ (-1 : Int) - k.val; unfold INT_MIN; omega)
  · intro more k
    have hk := k.isLt
    exact sh_read_line_after_end { my_read_init with i := -1 - k.val }
      (by show (-1 : Int) - k.val < 0; omega)
      (by show INT_MIN < (-1 : Int) - k.val; unfold INT_MIN; omega) (some more)
  · intro more
    exact my_read_calls_overflow { my_read_init with i := -1 } (some more) (by decide)
      2147483647 (by decide)
  · intro more
    exact my_read_overflow _ (le_refl _) (some more)
  · intro more
    exact sh_read_line_overflow _ (le_refl _) (some more)

end Shell
